import Mathlib

/-!
Verification of the runtime value module of the quint evaluator
(`src/evaluator/src/value.rs`).

Modelling conventions (shallow embedding):

* `i64` and `usize` are modelled as unbounded `Int` / `Nat`; machine-word
  overflow is out of scope of the verified claims.  The one fallible numeric
  conversion that decides a claim — `(end - start + 1).try_into().unwrap()`
  in `Value::cardinality` — is modelled faithfully: a negative value is a
  panic, represented by the `Fault.conversion` error.
* Rust panics are modelled as `Res.err f` results.  `panic!("Cannot compare
  lambdas ...")` and friends are the `UnsupportedOperation` fault of the
  specification; the catch-all `panic!("Expected ...")` accessors are the
  `InternalTypeMismatch` fault.
* The persistent hash collections of the `imbl` crate are modelled by the
  list of their elements (resp. entries) in iteration order.  Lookups and
  equality of those collections are modelled through the canonical `eq` of
  `Value`, per the collection contract that assumes `Hash` consistent with
  `Eq`.  The runtime invariant that materialized collections are
  deduplicated under canonical equality is expressed by the separate
  well-formedness predicates below, and theorems assume it where the source
  relies on it.
* `slice::sort` / `sort_by` (stable sorts) are modelled by a stable
  insertion sort using the same (fallible) comparator.
* A `Hasher` receives a stream of primitive writes; two values are
  guaranteed equal hashes exactly when they feed the hasher identical
  streams, so `Hash for Value` is modelled as the function producing that
  token stream.
* `core::mem::discriminant` values are compared in declaration order of the
  `Value` enum, which is the order of the default discriminant assignment.
* `itertools::multi_cartesian_product` is modelled as the mathematical
  Cartesian product of the member enumerations; the degenerate call on an
  empty list of members (whose behaviour is a quirk of the external
  iterator library) is excluded from the well-formed fragment.
-/

namespace QuintValue

/-- Faults of the module: `typeMismatch` models the `panic!("Expected ...")`
and `panic!("... not implemented ...")` calls (the spec's
InternalTypeMismatch); `unsupported` models `panic!("Cannot compare
lambdas")` / `panic!("Cannot hash lambda")` (the spec's
UnsupportedOperation); `conversion` models a failing
`try_into().unwrap()`. -/
inductive Fault where
  | typeMismatch : Fault
  | unsupported : Fault
  | conversion : Fault
deriving Repr, DecidableEq

/-- Result of a Rust computation that can panic: `ok` is a normal return,
`err` is a panic carrying the fault kind. -/
inductive Res (α : Type) where
  | ok : α → Res α
  | err : Fault → Res α
deriving Repr, DecidableEq

/-- The `Value` enum of `value.rs`.  `QuintName` and `Str` are modelled as
`String`.  The payload of `Lambda` (parameter registers and compiled body)
is opaque to equality, ordering and hashing, which never inspect it; it is
modelled by the number of parameter cells and an identifier for the body.
Sets, maps and records carry the element (entry) list of the backing
persistent collection in iteration order. -/
inductive Value where
  | int : Int → Value
  | bool : Bool → Value
  | str : String → Value
  | set : List Value → Value
  | tuple : List Value → Value
  | record : List (String × Value) → Value
  | map : List (Value × Value) → Value
  | list : List Value → Value
  | lambda : Nat → Nat → Value
  | variant : String → Value → Value
  | interval : Int → Int → Value
  | crossProduct : List Value → Value
  | powerSet : Value → Value
  | mapSet : Value → Value → Value

/-- Position of a variant in the declaration order of the enum: the value
`core::mem::discriminant` compares by. -/
def discrIdx : Value → Nat
  | .int _ => 0
  | .bool _ => 1
  | .str _ => 2
  | .set _ => 3
  | .tuple _ => 4
  | .record _ => 5
  | .map _ => 6
  | .list _ => 7
  | .lambda _ _ => 8
  | .variant _ _ => 9
  | .interval _ _ => 10
  | .crossProduct _ => 11
  | .powerSet _ => 12
  | .mapSet _ _ => 13

/-- `Value::is_set`: the five set-like kinds. -/
def is_set : Value → Bool
  | .set _ => true
  | .interval _ _ => true
  | .crossProduct _ => true
  | .powerSet _ => true
  | .mapSet _ _ => true
  | _ => false

mutual

/-- Termination measure used to define the recursive operations of the
module: it strictly dominates both the structural subterms of a value and
every element of the enumeration of a set-like value. -/
def rank : Value → Nat
  | .int _ => 0
  | .bool _ => 0
  | .str _ => 0
  | .set xs => 1 + maxR xs
  | .tuple xs => 1 + maxR xs
  | .record fs => 1 + maxRS fs
  | .map ps => 1 + maxRP ps
  | .list xs => 1 + maxR xs
  | .lambda _ _ => 0
  | .variant _ v => 1 + rank v
  | .interval _ _ => 1
  | .crossProduct ms => 2 + maxR ms
  | .powerSet b => 2 + rank b
  | .mapSet d r => 2 + max (rank d) (rank r)

/-- Maximum rank of the elements of a list. -/
def maxR : List Value → Nat
  | [] => 0
  | x :: xs => max (rank x) (maxR xs)

/-- Maximum rank of the values of a field list. -/
def maxRS : List (String × Value) → Nat
  | [] => 0
  | (_, v) :: xs => max (rank v) (maxRS xs)

/-- Maximum rank over the keys and values of an entry list. -/
def maxRP : List (Value × Value) → Nat
  | [] => 0
  | (k, v) :: xs => max (max (rank k) (rank v)) (maxRP xs)

end

mutual

/-- `Value::cardinality`.  The `Interval` arm models
`(end - start + 1).try_into().unwrap()`: a negative difference is a panic.
The catch-all arm is the `panic!("Cardinality not implemented ...")`. -/
def cardinality : Value → Res Nat
  | .set xs => .ok xs.length
  | .tuple xs => .ok xs.length
  | .record fs => .ok fs.length
  | .map ps => .ok ps.length
  | .list xs => .ok xs.length
  | .interval lo hi => if 0 ≤ hi - lo + 1 then .ok (hi - lo + 1).toNat else .err .conversion
  | .crossProduct ms => cardProd ms 1
  | .powerSet b =>
    match cardinality b with
    | .ok n => .ok (2 ^ n)
    | .err f => .err f
  | .mapSet d r =>
    match cardinality r with
    | .ok nr =>
      match cardinality d with
      | .ok nd => .ok (nr ^ nd)
      | .err f => .err f
    | .err f => .err f
  | _ => .err .typeMismatch

/-- The fold `sets.iter().fold(1, |acc, set| acc * set.cardinality())` of the
`CrossProduct` arm, with the panic of a member's `cardinality` propagated at
the point it is reached. -/
def cardProd : List Value → Nat → Res Nat
  | [], acc => .ok acc
  | m :: ms, acc =>
    match cardinality m with
    | .ok n => cardProd ms (acc * n)
    | .err f => .err f

end

/-- The enumeration `(*start..=*end).map(Value::Int)` of the `Interval` arm
of `as_set`. -/
def intRange (lo hi : Int) : List Value :=
  (List.range (hi + 1 - lo).toNat).map (fun k => .int (lo + Int.ofNat k))

/-- Cartesian product of the member enumerations, in the order
`multi_cartesian_product` produces it on a non-empty collection (first
member varies slowest): the recursion underlying `multiCartesian`.  Its
`[] => [[]]` base case is the convention the recursion on a non-empty
outer list needs; what a top-level call on an empty collection yields is
modelled by `multiCartesian` below. -/
def productLists : List (List Value) → List (List Value)
  | [] => [[]]
  | l :: ls => l.flatMap (fun x => (productLists ls).map (fun cs => x :: cs))

/-- `itertools`' `multi_cartesian_product`: the Cartesian product of a
non-empty collection of iterators, but a call on an empty collection
yields no elements at all — not the single empty tuple of the
mathematical empty product. -/
def multiCartesian (ls : List (List Value)) : List (List Value) :=
  if ls.isEmpty then [] else productLists ls

/-- The element selection of `powerset_at_index`: the base element at
iteration position `j` is kept exactly when `(i & (1 << j)) != 0`. -/
def maskFilter (base : List Value) (i : Nat) : List Value :=
  (base.enum.filter (fun p => i.testBit p.1)).map Prod.snd

/-- `powerset_at_index(base, i)` of `value.rs`. -/
def powerset_at_index (base : List Value) (i : Nat) : Value :=
  .set (maskFilter base i)

/-- The key/value pair list built by the `MapSet` arm of `as_set` for map
index `i`: each domain position takes the range element selected by the next
mixed-radix digit (`range_vec[index % nvalues]`, then `index /= nvalues`).
The default of `getD` is never consulted: the loop only runs with a
non-empty `rvec` unless the domain list is empty. -/
def buildPairs (rvec : List Value) : List Value → Nat → List (Value × Value)
  | [], _ => []
  | k :: ks, i => (k, rvec.getD (i % rvec.length) (.int 0)) :: buildPairs rvec ks (i / rvec.length)

/-- The map decoded from index `i` by the `MapSet` arm of `as_set`. -/
def mapAtIndex (dvec rvec : List Value) (i : Nat) : Value :=
  .map (buildPairs rvec dvec i)

/-- All `nvalues^nindices` maps produced by the `MapSet` arm of `as_set`, in
index order. -/
def mapsList (dvec rvec : List Value) : List Value :=
  (List.range (rvec.length ^ dvec.length)).map (mapAtIndex dvec rvec)

mutual

/-- `Value::as_set`: enumerate a set-like value.  The persistent-set result
is modelled as the list of produced elements in production order (the
runtime deduplication is a no-op on the well-formed fragment, where the
produced elements are pairwise distinct — proved below).  The final arm is
the `panic!("Expected set")`. -/
def as_set : Value → Res (List Value)
  | .set xs => .ok xs
  | .interval lo hi => .ok (intRange lo hi)
  | .crossProduct ms =>
    match cardinality (.crossProduct ms) with
    | .err f => .err f
    | .ok n =>
      if n = 0 then .ok []
      else
        match asSetList ms with
        | .err f => .err f
        | .ok ls => .ok ((multiCartesian ls).map Value.tuple)
  | .powerSet b =>
    match as_set b with
    | .err f => .err f
    | .ok base => .ok ((List.range (2 ^ base.length)).map (powerset_at_index base))
  | .mapSet d r =>
    match cardinality d with
    | .err f => .err f
    | .ok nd =>
      if nd = 0 then .ok [.map []]
      else
        match cardinality r with
        | .err f => .err f
        | .ok nr =>
          if nr = 0 then .ok []
          else
            match as_set d with
            | .err f => .err f
            | .ok dvec =>
              match as_set r with
              | .err f => .err f
              | .ok rvec => .ok (mapsList dvec rvec)
  | _ => .err .typeMismatch

/-- `sets.iter().map(|set| set.as_set() ...)` of the `CrossProduct` arm,
with the panic of a member's `as_set` propagated at the point it is
reached. -/
def asSetList : List Value → Res (List (List Value))
  | [] => .ok []
  | m :: ms =>
    match as_set m with
    | .err f => .err f
    | .ok l =>
      match asSetList ms with
      | .err f => .err f
      | .ok ls => .ok (l :: ls)

end

theorem rank_le_maxR {x : Value} {l : List Value} (h : x ∈ l) : rank x ≤ maxR l := by
  induction l with
  | nil => cases h
  | cons y ys ih =>
    rcases List.mem_cons.mp h with h | h
    · subst h; simp [maxR]
    · have := ih h
      simp only [maxR]
      omega

theorem maxR_lt_of {l : List Value} {B : Nat} (hB : 1 ≤ B)
    (h : ∀ x ∈ l, rank x < B) : maxR l < B := by
  induction l with
  | nil => simpa [maxR]
  | cons y ys ih =>
    have h1 := h y (List.mem_cons_self _ _)
    have h2 := ih (fun x hx => h x (List.mem_cons_of_mem _ hx))
    simp only [maxR]
    omega

theorem maxRP_lt_of {l : List (Value × Value)} {B : Nat} (hB : 1 ≤ B)
    (h : ∀ p ∈ l, rank p.1 < B ∧ rank p.2 < B) : maxRP l < B := by
  induction l with
  | nil => simpa [maxRP]
  | cons y ys ih =>
    have h1 := h y (List.mem_cons_self _ _)
    have h2 := ih (fun x hx => h x (List.mem_cons_of_mem _ hx))
    obtain ⟨y1, y2⟩ := y
    simp only [maxRP] at *
    omega

theorem mem_intRange {x : Value} {lo hi : Int} (h : x ∈ intRange lo hi) :
    ∃ k, x = Value.int k := by
  simp only [intRange, List.mem_map] at h
  obtain ⟨k, _, rfl⟩ := h
  exact ⟨_, rfl⟩

theorem mem_productLists {cs : List Value} {ls : List (List Value)} :
    cs ∈ productLists ls ↔ List.Forall₂ (fun c li => c ∈ li) cs ls := by
  induction ls generalizing cs with
  | nil =>
    simp only [productLists, List.mem_singleton]
    constructor
    · rintro rfl; exact List.Forall₂.nil
    · intro h; cases h; rfl
  | cons l ls ih =>
    simp only [productLists, List.mem_flatMap, List.mem_map]
    constructor
    · rintro ⟨x, hx, cs', hcs', rfl⟩
      exact List.Forall₂.cons hx (ih.mp hcs')
    · intro h
      cases h with
      | cons hx hcs' => exact ⟨_, hx, _, ih.mpr hcs', rfl⟩

theorem mem_multiCartesian {cs : List Value} {ls : List (List Value)}
    (h : cs ∈ multiCartesian ls) : cs ∈ productLists ls := by
  unfold multiCartesian at h
  split at h
  · cases h
  · exact h

theorem mem_maskFilter {x : Value} {base : List Value} {i : Nat}
    (h : x ∈ maskFilter base i) : x ∈ base := by
  simp only [maskFilter, List.mem_map, List.mem_filter] at h
  obtain ⟨⟨j, y⟩, ⟨hy, _⟩, rfl⟩ := h
  exact List.get?_mem (List.mem_enum_iff_get?.mp hy)

theorem mem_buildPairs {p : Value × Value} {rvec ks : List Value} {i : Nat}
    (h : p ∈ buildPairs rvec ks i) : p.1 ∈ ks ∧ (rvec = [] ∨ p.2 ∈ rvec) := by
  induction ks generalizing i with
  | nil => simp [buildPairs] at h
  | cons k ks ih =>
    simp only [buildPairs, List.mem_cons] at h
    rcases h with h | h
    · subst h
      refine ⟨List.mem_cons_self _ _, ?_⟩
      rcases rvec with _ | ⟨a, as⟩
      · exact Or.inl rfl
      · right
        have hlt : i % (a :: as).length < (a :: as).length :=
          Nat.mod_lt _ (by simp)
        rw [List.getD_eq_getElem _ _ hlt]
        exact List.getElem_mem hlt
    · obtain ⟨h1, h2⟩ := ih h
      exact ⟨List.mem_cons_of_mem _ h1, h2⟩

theorem asSetList_mem {ms : List Value} {ls : List (List Value)}
    (h : asSetList ms = .ok ls) : ∀ li ∈ ls, ∃ m ∈ ms, as_set m = .ok li := by
  induction ms generalizing ls with
  | nil =>
    simp only [asSetList] at h
    cases h; intro li hli; cases hli
  | cons m ms ih =>
    simp only [asSetList] at h
    cases hm : as_set m with
    | err f => rw [hm] at h; cases h
    | ok l =>
      rw [hm] at h
      cases hms : asSetList ms with
      | err f => rw [hms] at h; cases h
      | ok ls' =>
        rw [hms] at h
        cases h
        intro li hli
        rcases List.mem_cons.mp hli with h | h
        · exact ⟨m, List.mem_cons_self _ _, h ▸ hm⟩
        · obtain ⟨m', hm', h'⟩ := ih hms li h
          exact ⟨m', List.mem_cons_of_mem _ hm', h'⟩

theorem rank_pos_of_as_set {v : Value} {l : List Value} (h : as_set v = .ok l) :
    1 ≤ rank v := by
  cases v <;> simp [as_set, rank] at h ⊢ <;> omega

theorem forall₂_mem_left {α β : Type} {R : α → β → Prop} {cs : List α} {ls : List β}
    (h : List.Forall₂ R cs ls) {c : α} (hc : c ∈ cs) : ∃ li ∈ ls, R c li := by
  induction h with
  | nil => cases hc
  | cons hR _ ih =>
    rcases List.mem_cons.mp hc with h | h
    · exact ⟨_, List.mem_cons_self _ _, h ▸ hR⟩
    · obtain ⟨li, h1, h2⟩ := ih h
      exact ⟨li, List.mem_cons_of_mem _ h1, h2⟩

theorem as_set_rank_aux :
    ∀ (n : Nat) (v : Value), sizeOf v ≤ n →
      ∀ l, as_set v = .ok l → ∀ x ∈ l, rank x < rank v := by
  intro n
  induction n with
  | zero =>
    intro v hv
    exfalso
    cases v <;> simp_all <;> omega
  | succ n ih =>
    intro v hv l hl x hx
    match v with
    | .int _ | .bool _ | .str _ | .tuple _ | .record _ | .map _ | .list _
    | .lambda _ _ | .variant _ _ => simp [as_set] at hl
    | .set xs =>
      simp only [as_set, Res.ok.injEq] at hl
      subst hl
      have := rank_le_maxR hx
      simp only [rank]
      omega
    | .interval lo hi =>
      simp only [as_set, Res.ok.injEq] at hl
      subst hl
      obtain ⟨k, rfl⟩ := mem_intRange hx
      simp [rank]
    | .crossProduct ms =>
      simp only [as_set] at hl
      split at hl
      · cases hl
      · split at hl
        · cases hl
          cases hx
        · split at hl
          · cases hl
          · rename_i hls
            cases hl
            obtain ⟨cs, hcs, rfl⟩ := List.mem_map.mp hx
            have hcs' := mem_productLists.mp (mem_multiCartesian hcs)
            have hlt : maxR cs < 1 + maxR ms := by
              apply maxR_lt_of (by omega)
              intro c hc
              obtain ⟨li, hli, hcli⟩ := forall₂_mem_left hcs' hc
              obtain ⟨m, hm, hasm⟩ := asSetList_mem hls li hli
              have hsz : sizeOf m ≤ n := by
                have h1 := List.sizeOf_lt_of_mem hm
                have h2 : sizeOf (Value.crossProduct ms) = 1 + sizeOf ms := by simp
                omega
              have := ih m hsz li hasm c hcli
              have := rank_le_maxR hm
              omega
            simp only [rank]
            omega
    | .powerSet b =>
      simp only [as_set] at hl
      split at hl
      · cases hl
      · rename_i base hbase
        cases hl
        obtain ⟨i, _, rfl⟩ := List.mem_map.mp hx
        have hsz : sizeOf b ≤ n := by
          have h2 : sizeOf (Value.powerSet b) = 1 + sizeOf b := by simp
          omega
        have hb1 : 1 ≤ rank b := rank_pos_of_as_set hbase
        have hlt : maxR (maskFilter base i) < rank b := by
          apply maxR_lt_of hb1
          intro c hc
          exact ih b hsz base hbase c (mem_maskFilter hc)
        simp only [powerset_at_index, rank]
        omega
    | .mapSet d r =>
      simp only [as_set] at hl
      have hszd : sizeOf d ≤ n := by
        have h2 : sizeOf (Value.mapSet d r) = 1 + sizeOf d + sizeOf r := by simp
        have h3 : 0 < sizeOf r := by cases r <;> simp <;> omega
        omega
      have hszr : sizeOf r ≤ n := by
        have h2 : sizeOf (Value.mapSet d r) = 1 + sizeOf d + sizeOf r := by simp
        have h3 : 0 < sizeOf d := by cases d <;> simp <;> omega
        omega
      split at hl
      · cases hl
      · split at hl
        · cases hl
          rcases List.mem_singleton.mp hx with rfl
          have := Nat.le_max_left (rank d) (rank r)
          simp only [rank, maxRP]
          omega
        · split at hl
          · cases hl
          · split at hl
            · cases hl
              cases hx
            · cases hdvec : as_set d with
              | err f => rw [hdvec] at hl; cases hl
              | ok dvec =>
                rw [hdvec] at hl
                cases hrvec : as_set r with
                | err f => rw [hrvec] at hl; cases hl
                | ok rvec =>
                  rw [hrvec] at hl
                  cases hl
                  obtain ⟨i, hi, rfl⟩ := List.mem_map.mp hx
                  have hd1 : 1 ≤ rank d := rank_pos_of_as_set hdvec
                  rcases rvec with _ | ⟨r0, rs⟩
                  · rcases dvec with _ | ⟨d0, ds⟩
                    · have := Nat.le_max_left (rank d) (rank r)
                      simp only [mapAtIndex, buildPairs, rank, maxRP]
                      omega
                    · exfalso
                      simp [mapsList, Nat.zero_pow] at hi
                  · have hlt : maxRP (buildPairs (r0 :: rs) dvec i) <
                        max (rank d) (rank r) := by
                      apply maxRP_lt_of (by omega)
                      intro p hp
                      obtain ⟨h1, h2⟩ := mem_buildPairs hp
                      rcases h2 with h2 | h2
                      · cases h2
                      · constructor
                        · have := ih d hszd dvec hdvec p.1 h1
                          omega
                        · have := ih r hszr _ hrvec p.2 h2
                          omega
                    simp only [mapAtIndex, rank]
                    omega

theorem as_set_rank {v : Value} {l : List Value} (h : as_set v = .ok l) :
    ∀ x ∈ l, rank x < rank v :=
  as_set_rank_aux (sizeOf v) v (Nat.le_refl _) l h

theorem nat_sup_eq_max (a b : Nat) : a ⊔ b = max a b := rfl

theorem lex3 {p1 s1 t1 p2 s2 t2 : Nat}
    (h : p1 < p2 ∨ (p1 = p2 ∧ (s1 < s2 ∨ (s1 = s2 ∧ t1 < t2)))) :
    Prod.Lex (· < ·) (Prod.Lex (· < ·) (· < ·)) (p1, (s1, t1)) (p2, (s2, t2)) := by
  rcases h with h | ⟨rfl, h | ⟨rfl, h⟩⟩
  · exact Prod.Lex.left _ _ h
  · exact Prod.Lex.right _ (Prod.Lex.left _ _ h)
  · exact Prod.Lex.right _ (Prod.Lex.right _ h)

theorem lexP1 {p1 s1 t1 p2 s2 t2 : Nat} (h : p1 < p2) :
    Prod.Lex (· < ·) (Prod.Lex (· < ·) (· < ·)) (p1, (s1, t1)) (p2, (s2, t2)) :=
  lex3 (Or.inl h)

theorem lexP2 {p1 s1 t1 p2 s2 t2 : Nat} (h1 : p1 ≤ p2) (h2 : s1 < s2) :
    Prod.Lex (· < ·) (Prod.Lex (· < ·) (· < ·)) (p1, (s1, t1)) (p2, (s2, t2)) := by
  rcases Nat.lt_or_ge p1 p2 with h | h
  · exact lex3 (Or.inl h)
  · exact lex3 (Or.inr ⟨Nat.le_antisymm h1 h, Or.inl h2⟩)

theorem lexP3 {p1 s1 t1 p2 s2 t2 : Nat} (h1 : p1 ≤ p2) (h2 : s1 ≤ s2) (h3 : t1 < t2) :
    Prod.Lex (· < ·) (Prod.Lex (· < ·) (· < ·)) (p1, (s1, t1)) (p2, (s2, t2)) := by
  rcases Nat.lt_or_ge p1 p2 with h | h
  · exact lex3 (Or.inl h)
  · rcases Nat.lt_or_ge s1 s2 with h' | h'
    · exact lex3 (Or.inr ⟨Nat.le_antisymm h1 h, Or.inl h'⟩)
    · exact lex3 (Or.inr ⟨Nat.le_antisymm h1 h, Or.inr ⟨Nat.le_antisymm h2 h', h3⟩⟩)

/-- Key lookup in a record, by exact field-name equality (`QuintName` is a
plain totally ordered, hashable name; its equality does not recurse into
values). -/
def recLookup (k : String) : List (String × Value) → Option Value
  | [] => none
  | (k2, v2) :: rest => if k2 = k then some v2 else recLookup k rest

theorem recLookup_rank {k : String} {b : List (String × Value)} {v : Value}
    (h : recLookup k b = some v) : rank v ≤ maxRS b := by
  induction b with
  | nil => cases h
  | cons p rest ih =>
    obtain ⟨k2, v2⟩ := p
    simp only [recLookup] at h
    split at h
    · cases h
      simp [maxRS]
    · have := ih h
      simp only [maxRS]
      omega

mutual

/-- `impl PartialEq for Value` (`fn eq`), arms in source order.  The
lambda-lambda arm models `panic!("Cannot compare lambdas")`; the
catch-all-with-guard arm (both operands set-like, necessarily of differing
kinds, since equal kinds matched earlier) compares the two enumerated
persistent sets; every other cross-kind pair is unequal. -/
def veq : Value → Value → Res Bool
  | .int a, .int b => .ok (a == b)
  | .bool a, .bool b => .ok (a == b)
  | .str a, .str b => .ok (a == b)
  | .set a, .set b => setEqR a b
  | .tuple a, .tuple b => veqVec a b
  | .record a, .record b => recEqR a b
  | .map a, .map b => mapEqR a b
  | .list a, .list b => veqVec a b
  | .lambda _ _, .lambda _ _ => .err .unsupported
  | .variant la va, .variant lb vb =>
    if la = lb then veq va vb else .ok false
  | .interval a1 a2, .interval b1 b2 => .ok (a1 == b1 && a2 == b2)
  | .crossProduct a, .crossProduct b => veqVec a b
  | .powerSet a, .powerSet b => veq a b
  | .mapSet d1 r1, .mapSet d2 r2 =>
    match veq d1 d2 with
    | .err f => .err f
    | .ok false => .ok false
    | .ok true => veq r1 r2
  | a, b =>
    if is_set a && is_set b then
      match h1 : as_set a with
      | .err f => .err f
      | .ok l1 =>
        match h2 : as_set b with
        | .err f => .err f
        | .ok l2 => setEqR l1 l2
    else .ok false
termination_by a b => (max (rank a) (rank b), 3, 0)
decreasing_by
all_goals
  first
  | (apply lexP1
     (try simp only [rank, maxR, maxRS, maxRP, List.length_cons])
     omega)
  | (refine lexP2 ?_ ?_ <;>
      · (try simp only [rank, maxR, maxRS, maxRP, List.length_cons])
        omega)
  | (refine lexP3 ?_ ?_ ?_ <;>
      · (try simp only [rank, maxR, maxRS, maxRP, List.length_cons])
        omega)
  | (have q1 := rank_pos_of_as_set h1
     have q2 := rank_pos_of_as_set h2
     have m1 := maxR_lt_of q1 (as_set_rank h1)
     have m2 := maxR_lt_of q2 (as_set_rank h2)
     refine lexP2 ?_ ?_ <;> omega)

/-- Equality of two persistent hash sets
(`self.len() == other.len() && self.iter().all(|x| other.contains(x))`),
with lookups modelled through canonical equality. -/
def setEqR (a b : List Value) : Res Bool :=
  if a.length = b.length then allInR a b else .ok false
termination_by (max (maxR a) (maxR b) + 1, 2, 0)
decreasing_by
all_goals
  first
  | (apply lexP1
     (try simp only [rank, maxR, maxRS, maxRP, List.length_cons])
     omega)
  | (refine lexP2 ?_ ?_ <;>
      · (try simp only [rank, maxR, maxRS, maxRP, List.length_cons])
        omega)
  | (refine lexP3 ?_ ?_ ?_ <;>
      · (try simp only [rank, maxR, maxRS, maxRP, List.length_cons])
        omega)

/-- `self.iter().all(|x| other.contains(x))`, short-circuiting at the first
missing element. -/
def allInR : List Value → List Value → Res Bool
  | [], _ => .ok true
  | x :: xs, b =>
    match vmemR x b with
    | .err f => .err f
    | .ok false => .ok false
    | .ok true => allInR xs b
termination_by a b => (max (maxR a) (maxR b) + 1, 1, a.length)
decreasing_by
all_goals
  first
  | (apply lexP1
     (try simp only [rank, maxR, maxRS, maxRP, List.length_cons])
     omega)
  | (refine lexP2 ?_ ?_ <;>
      · (try simp only [rank, maxR, maxRS, maxRP, List.length_cons])
        omega)
  | (refine lexP3 ?_ ?_ ?_ <;>
      · (try simp only [rank, maxR, maxRS, maxRP, List.length_cons])
        omega)

/-- Membership of a value in a persistent hash set, modelled as an
existence check under canonical equality. -/
def vmemR : Value → List Value → Res Bool
  | _, [] => .ok false
  | x, y :: ys =>
    match veq x y with
    | .err f => .err f
    | .ok true => .ok true
    | .ok false => vmemR x ys
termination_by x l => (max (rank x) (maxR l) + 1, 0, l.length)
decreasing_by
all_goals
  first
  | (apply lexP1
     (try simp only [rank, maxR, maxRS, maxRP, List.length_cons])
     omega)
  | (refine lexP2 ?_ ?_ <;>
      · (try simp only [rank, maxR, maxRS, maxRP, List.length_cons])
        omega)
  | (refine lexP3 ?_ ?_ ?_ <;>
      · (try simp only [rank, maxR, maxRS, maxRP, List.length_cons])
        omega)

/-- Equality of two persistent vectors: equal lengths and pointwise equal
elements. -/
def veqVec (a b : List Value) : Res Bool :=
  if a.length = b.length then veqZip a b else .ok false
termination_by (max (maxR a) (maxR b) + 1, 2, 0)
decreasing_by
all_goals
  first
  | (apply lexP1
     (try simp only [rank, maxR, maxRS, maxRP, List.length_cons])
     omega)
  | (refine lexP2 ?_ ?_ <;>
      · (try simp only [rank, maxR, maxRS, maxRP, List.length_cons])
        omega)
  | (refine lexP3 ?_ ?_ ?_ <;>
      · (try simp only [rank, maxR, maxRS, maxRP, List.length_cons])
        omega)

/-- Pointwise equality of two element lists, short-circuiting at the first
difference. -/
def veqZip : List Value → List Value → Res Bool
  | [], _ => .ok true
  | _, [] => .ok true
  | x :: xs, y :: ys =>
    match veq x y with
    | .err f => .err f
    | .ok false => .ok false
    | .ok true => veqZip xs ys
termination_by a b => (max (maxR a) (maxR b) + 1, 1, a.length)
decreasing_by
all_goals
  first
  | (apply lexP1
     (try simp only [rank, maxR, maxRS, maxRP, List.length_cons])
     omega)
  | (refine lexP2 ?_ ?_ <;>
      · (try simp only [rank, maxR, maxRS, maxRP, List.length_cons])
        omega)
  | (refine lexP3 ?_ ?_ ?_ <;>
      · (try simp only [rank, maxR, maxRS, maxRP, List.length_cons])
        omega)

/-- Equality of two persistent records: equal sizes and every field of the
first found (by name) in the second with an equal value. -/
def recEqR (a b : List (String × Value)) : Res Bool :=
  if a.length = b.length then recAllR a b else .ok false
termination_by (max (maxRS a) (maxRS b) + 1, 2, 0)
decreasing_by
all_goals
  first
  | (apply lexP1
     (try simp only [rank, maxR, maxRS, maxRP, List.length_cons])
     omega)
  | (refine lexP2 ?_ ?_ <;>
      · (try simp only [rank, maxR, maxRS, maxRP, List.length_cons])
        omega)
  | (refine lexP3 ?_ ?_ ?_ <;>
      · (try simp only [rank, maxR, maxRS, maxRP, List.length_cons])
        omega)

/-- `self.iter().all(|(k, v)| other.get(k).map_or(false, |ov| v == ov))`
over record fields. -/
def recAllR : List (String × Value) → List (String × Value) → Res Bool
  | [], _ => .ok true
  | (k, v) :: xs, b =>
    match hv : recLookup k b with
    | none => .ok false
    | some v2 =>
      match veq v v2 with
      | .err f => .err f
      | .ok false => .ok false
      | .ok true => recAllR xs b
termination_by a b => (max (maxRS a) (maxRS b) + 1, 1, a.length)
decreasing_by
all_goals
  first
  | (apply lexP1
     (try simp only [rank, maxR, maxRS, maxRP, List.length_cons])
     omega)
  | (refine lexP2 ?_ ?_ <;>
      · (try simp only [rank, maxR, maxRS, maxRP, List.length_cons])
        omega)
  | (refine lexP3 ?_ ?_ ?_ <;>
      · (try simp only [rank, maxR, maxRS, maxRP, List.length_cons])
        omega)
  | (have hrl := recLookup_rank hv
     apply lexP1
     (try simp only [rank, maxR, maxRS, maxRP, List.length_cons])
     omega)

/-- Equality of two persistent maps: equal sizes and every entry of the
first found (by canonical key equality) in the second with an equal
value. -/
def mapEqR (a b : List (Value × Value)) : Res Bool :=
  if a.length = b.length then mapAllR a b else .ok false
termination_by (max (maxRP a) (maxRP b) + 1, 2, 0)
decreasing_by
all_goals
  first
  | (apply lexP1
     (try simp only [rank, maxR, maxRS, maxRP, List.length_cons])
     omega)
  | (refine lexP2 ?_ ?_ <;>
      · (try simp only [rank, maxR, maxRS, maxRP, List.length_cons])
        omega)
  | (refine lexP3 ?_ ?_ ?_ <;>
      · (try simp only [rank, maxR, maxRS, maxRP, List.length_cons])
        omega)

/-- `self.iter().all(|(k, v)| other.get(k).map_or(false, |ov| v == ov))`
over map entries. -/
def mapAllR : List (Value × Value) → List (Value × Value) → Res Bool
  | [], _ => .ok true
  | (k, v) :: xs, b =>
    match mapLookupR k v b with
    | .err f => .err f
    | .ok false => .ok false
    | .ok true => mapAllR xs b
termination_by a b => (max (maxRP a) (maxRP b) + 1, 1, a.length)
decreasing_by
all_goals
  first
  | (apply lexP1
     (try simp only [rank, maxR, maxRS, maxRP, List.length_cons])
     omega)
  | (refine lexP2 ?_ ?_ <;>
      · (try simp only [rank, maxR, maxRS, maxRP, List.length_cons])
        omega)
  | (refine lexP3 ?_ ?_ ?_ <;>
      · (try simp only [rank, maxR, maxRS, maxRP, List.length_cons])
        omega)

/-- Lookup of key `k` in an entry list by canonical key equality, followed
by comparison of the associated values. -/
def mapLookupR : Value → Value → List (Value × Value) → Res Bool
  | _, _, [] => .ok false
  | k, v, (k2, v2) :: rest =>
    match veq k k2 with
    | .err f => .err f
    | .ok true => veq v v2
    | .ok false => mapLookupR k v rest
termination_by k v l => (max (max (rank k) (rank v)) (maxRP l) + 1, 0, l.length)
decreasing_by
all_goals
  first
  | (apply lexP1
     (try simp only [rank, maxR, maxRS, maxRP, List.length_cons])
     omega)
  | (refine lexP2 ?_ ?_ <;>
      · (try simp only [rank, maxR, maxRS, maxRP, List.length_cons])
        omega)
  | (refine lexP3 ?_ ?_ ?_ <;>
      · (try simp only [rank, maxR, maxRS, maxRP, List.length_cons])
        omega)

end

theorem maxR_subset {l1 l2 : List Value} (h : ∀ y ∈ l1, y ∈ l2) :
    maxR l1 ≤ maxR l2 := by
  induction l1 with
  | nil => simp [maxR]
  | cons x xs ih =>
    have h1 := rank_le_maxR (h x (List.mem_cons_self _ _))
    have h2 := ih (fun y hy => h y (List.mem_cons_of_mem _ hy))
    simp only [maxR]
    omega

theorem rank_le_maxRP {p : Value × Value} {l : List (Value × Value)} (h : p ∈ l) :
    rank p.1 ≤ maxRP l ∧ rank p.2 ≤ maxRP l := by
  induction l with
  | nil => cases h
  | cons q qs ih =>
    obtain ⟨k, v⟩ := q
    rcases List.mem_cons.mp h with h | h
    · subst h; simp only [maxRP]; omega
    · have := ih h
      simp only [maxRP]
      omega

theorem maxRP_subset {l1 l2 : List (Value × Value)} (h : ∀ q ∈ l1, q ∈ l2) :
    maxRP l1 ≤ maxRP l2 := by
  induction l1 with
  | nil => simp [maxRP]
  | cons q qs ih =>
    obtain ⟨k, v⟩ := q
    have h1 := rank_le_maxRP (h (k, v) (List.mem_cons_self _ _))
    have h2 := ih (fun y hy => h y (List.mem_cons_of_mem _ hy))
    simp only [maxRP] at *
    omega

theorem rank_le_maxRS {p : String × Value} {l : List (String × Value)} (h : p ∈ l) :
    rank p.2 ≤ maxRS l := by
  induction l with
  | nil => cases h
  | cons q qs ih =>
    obtain ⟨k, v⟩ := q
    rcases List.mem_cons.mp h with h | h
    · subst h; simp only [maxRS]; omega
    · have := ih h
      simp only [maxRS]
      omega

theorem maxRS_subset {l1 l2 : List (String × Value)} (h : ∀ q ∈ l1, q ∈ l2) :
    maxRS l1 ≤ maxRS l2 := by
  induction l1 with
  | nil => simp [maxRS]
  | cons q qs ih =>
    obtain ⟨k, v⟩ := q
    have h1 := rank_le_maxRS (h (k, v) (List.mem_cons_self _ _))
    have h2 := ih (fun y hy => h y (List.mem_cons_of_mem _ hy))
    simp only [maxRS] at *
    omega

/-- Stable insertion step of the record-field sort
(`sort_by(|a, b| a.0.cmp(b.0))` with plain name keys, which cannot
panic). -/
def insertRecField (p : String × Value) : List (String × Value) → List (String × Value)
  | [] => [p]
  | q :: qs =>
    if compare p.1 q.1 = .gt then q :: insertRecField p qs else p :: q :: qs

/-- The stable sort of record fields by field name used by `Ord` and `Hash`
for records. -/
def sortRecFields : List (String × Value) → List (String × Value)
  | [] => []
  | p :: ps => insertRecField p (sortRecFields ps)

theorem mem_insertRecField {p q : String × Value} {l : List (String × Value)}
    (h : q ∈ insertRecField p l) : q = p ∨ q ∈ l := by
  induction l with
  | nil => simpa [insertRecField] using h
  | cons r rs ih =>
    simp only [insertRecField] at h
    split at h
    · rcases List.mem_cons.mp h with h | h
      · exact Or.inr (h ▸ List.mem_cons_self _ _)
      · rcases ih h with h | h
        · exact Or.inl h
        · exact Or.inr (List.mem_cons_of_mem _ h)
    · rcases List.mem_cons.mp h with h | h
      · exact Or.inl h
      · exact Or.inr h

theorem mem_sortRecFields {q : String × Value} {l : List (String × Value)}
    (h : q ∈ sortRecFields l) : q ∈ l := by
  induction l with
  | nil => simpa [sortRecFields] using h
  | cons p ps ih =>
    simp only [sortRecFields] at h
    rcases mem_insertRecField h with h | h
    · exact h ▸ List.mem_cons_self _ _
    · exact List.mem_cons_of_mem _ (ih h)

theorem maxRS_sortRecFields {l : List (String × Value)} :
    maxRS (sortRecFields l) ≤ maxRS l :=
  maxRS_subset (fun _ hq => mem_sortRecFields hq)

mutual

/-- `impl Ord for Value` (`fn cmp`).  The leading test models the early
return on distinct `core::mem::discriminant` values, which compare in
declaration order.  Within equal discriminants the arms follow the source:
sets, `Interval`-`Interval` pairs and same-kind lazy pairs (the guard arm)
compare their sorted enumerated elements lexicographically; records and maps
compare their key-sorted entry lists; the lambda-lambda arm models
`panic!("Cannot compare lambdas for ordering")`; the final catch-all models
the unreachable `panic!("Unhandled comparison ...")`. -/
def cmp (a b : Value) : Res Ordering :=
  if discrIdx a ≠ discrIdx b then .ok (compare (discrIdx a) (discrIdx b))
  else
    match a, b with
    | .int x, .int y => .ok (compare x y)
    | .bool x, .bool y => .ok (compare x y)
    | .str x, .str y => .ok (compare x y)
    | .set xs, .set ys =>
      match sortE xs with
      | .err f => .err f
      | .ok ⟨s1, hs1⟩ =>
        match sortE ys with
        | .err f => .err f
        | .ok ⟨s2, hs2⟩ => cmpLexE s1 s2
    | .tuple xs, .tuple ys => cmpLexE xs ys
    | .record ra, .record rb => cmpRecLexE (sortRecFields ra) (sortRecFields rb)
    | .map ma, .map mb =>
      match sortPairsE ma with
      | .err f => .err f
      | .ok ⟨s1, hp1⟩ =>
        match sortPairsE mb with
        | .err f => .err f
        | .ok ⟨s2, hp2⟩ => cmpPairsLexE s1 s2
    | .list xs, .list ys => cmpLexE xs ys
    | .lambda _ _, .lambda _ _ => .err .unsupported
    | .variant la va, .variant lb vb =>
      match compare la lb with
      | .eq => cmp va vb
      | o => .ok o
    | .interval a1 a2, .interval b1 b2 =>
      match hi1 : as_set (.interval a1 a2) with
      | .err f => .err f
      | .ok l1 =>
        match hi2 : as_set (.interval b1 b2) with
        | .err f => .err f
        | .ok l2 =>
          match sortE l1 with
          | .err f => .err f
          | .ok ⟨s1, hs1⟩ =>
            match sortE l2 with
            | .err f => .err f
            | .ok ⟨s2, hs2⟩ => cmpLexE s1 s2
    | va, vb =>
      if is_set va && is_set vb then
        match h1 : as_set va with
        | .err f => .err f
        | .ok l1 =>
          match h2 : as_set vb with
          | .err f => .err f
          | .ok l2 =>
            match sortE l1 with
            | .err f => .err f
            | .ok ⟨s1, hs1⟩ =>
              match sortE l2 with
              | .err f => .err f
              | .ok ⟨s2, hs2⟩ => cmpLexE s1 s2
      else .err .typeMismatch
termination_by (max (rank a) (rank b), 3, 0)
decreasing_by
all_goals
  first
  | (apply lexP1
     (try simp only [rank, maxR, maxRS, maxRP, List.length_cons])
     omega)
  | (refine lexP2 ?_ ?_ <;>
      · (try simp only [rank, maxR, maxRS, maxRP, List.length_cons])
        omega)
  | (have n1 := maxR_subset hs1
     have n2 := maxR_subset hs2
     refine lexP2 ?_ ?_ <;>
      · (try simp only [rank, maxR, maxRS, maxRP, List.length_cons])
        omega)
  | (have n1 := maxRP_subset hp1
     have n2 := maxRP_subset hp2
     refine lexP2 ?_ ?_ <;>
      · (try simp only [rank, maxR, maxRS, maxRP, List.length_cons])
        omega)
  | (have n1 := @maxRS_sortRecFields ra
     have n2 := @maxRS_sortRecFields rb
     refine lexP2 ?_ ?_ <;>
      · (try simp only [rank, maxR, maxRS, maxRP, List.length_cons])
        omega)
  | (have q1 := rank_pos_of_as_set h1
     have q2 := rank_pos_of_as_set h2
     have m1 := maxR_lt_of q1 (as_set_rank h1)
     have m2 := maxR_lt_of q2 (as_set_rank h2)
     first
     | (refine lexP2 ?_ ?_ <;> omega)
     | (have n1 := maxR_subset hs1
        have n2 := maxR_subset hs2
        refine lexP2 ?_ ?_ <;> omega))
  | (have q1 := rank_pos_of_as_set hi1
     have q2 := rank_pos_of_as_set hi2
     have m1 := maxR_lt_of q1 (as_set_rank hi1)
     have m2 := maxR_lt_of q2 (as_set_rank hi2)
     first
     | (refine lexP2 ?_ ?_ <;> omega)
     | (have n1 := maxR_subset hs1
        have n2 := maxR_subset hs2
        refine lexP2 ?_ ?_ <;> omega))

/-- Stable insertion step of the fallible element sort (`slice::sort` via
`Ord::cmp`).  The result carries the fact that it holds no new elements,
which bounds its rank. -/
def insertE (x : Value) : (l : List Value) → Res {r : List Value // ∀ y ∈ r, y = x ∨ y ∈ l}
  | [] => .ok ⟨[x], by intro y hy; simp only [List.mem_singleton] at hy; exact Or.inl hy⟩
  | y :: ys =>
    match cmp x y with
    | .err f => .err f
    | .ok .gt =>
      match insertE x ys with
      | .err f => .err f
      | .ok ⟨r, hr⟩ =>
        .ok ⟨y :: r, by
          intro z hz
          rcases List.mem_cons.mp hz with h | h
          · exact Or.inr (h ▸ List.mem_cons_self _ _)
          · rcases hr z h with h | h
            · exact Or.inl h
            · exact Or.inr (List.mem_cons_of_mem _ h)⟩
    | .ok _ =>
      .ok ⟨x :: y :: ys, by
        intro z hz
        rcases List.mem_cons.mp hz with h | h
        · exact Or.inl h
        · exact Or.inr h⟩
termination_by l => (max (rank x) (maxR l) + 1, 1, l.length)
decreasing_by
all_goals
  first
  | (apply lexP1
     (try simp only [rank, maxR, maxRS, maxRP, List.length_cons])
     omega)
  | (refine lexP3 ?_ ?_ ?_ <;>
      · (try simp only [rank, maxR, maxRS, maxRP, List.length_cons])
        omega)

/-- The fallible stable sort of an element list by `Ord::cmp`
(`a_elems.sort()`), modelled as insertion sort. -/
def sortE : (l : List Value) → Res {r : List Value // ∀ y ∈ r, y ∈ l}
  | [] => .ok ⟨[], by intro y hy; cases hy⟩
  | x :: xs =>
    match sortE xs with
    | .err f => .err f
    | .ok ⟨r, hr⟩ =>
      match insertE x r with
      | .err f => .err f
      | .ok ⟨r2, hr2⟩ =>
        .ok ⟨r2, by
          intro z hz
          rcases hr2 z hz with h | h
          · exact h ▸ List.mem_cons_self _ _
          · exact List.mem_cons_of_mem _ (hr z h)⟩
termination_by l => (maxR l + 1, 2, l.length)
decreasing_by
all_goals
  first
  | (refine lexP3 ?_ ?_ ?_ <;>
      · (try simp only [rank, maxR, maxRS, maxRP, List.length_cons])
        omega)
  | (have n1 := maxR_subset hr
     refine lexP2 ?_ ?_ <;>
      · (try simp only [rank, maxR, maxRS, maxRP, List.length_cons])
        omega)

/-- Lexicographic comparison of two element lists (the `Ord` of vectors and
of sorted element sequences): pointwise comparison, with a strict prefix
ordered first. -/
def cmpLexE : List Value → List Value → Res Ordering
  | [], [] => .ok .eq
  | [], _ :: _ => .ok .lt
  | _ :: _, [] => .ok .gt
  | x :: xs, y :: ys =>
    match cmp x y with
    | .err f => .err f
    | .ok .eq => cmpLexE xs ys
    | .ok o => .ok o
termination_by a b => (max (maxR a) (maxR b) + 1, 1, a.length)
decreasing_by
all_goals
  first
  | (apply lexP1
     (try simp only [rank, maxR, maxRS, maxRP, List.length_cons])
     omega)
  | (refine lexP3 ?_ ?_ ?_ <;>
      · (try simp only [rank, maxR, maxRS, maxRP, List.length_cons])
        omega)

/-- Stable insertion step of the fallible entry sort of maps
(`sort_by(|x, y| x.0.cmp(y.0))`). -/
def insertPairE (p : Value × Value) :
    (l : List (Value × Value)) → Res {r : List (Value × Value) // ∀ q ∈ r, q = p ∨ q ∈ l}
  | [] => .ok ⟨[p], by intro q hq; simp only [List.mem_singleton] at hq; exact Or.inl hq⟩
  | q :: qs =>
    match cmp p.1 q.1 with
    | .err f => .err f
    | .ok .gt =>
      match insertPairE p qs with
      | .err f => .err f
      | .ok ⟨r, hr⟩ =>
        .ok ⟨q :: r, by
          intro z hz
          rcases List.mem_cons.mp hz with h | h
          · exact Or.inr (h ▸ List.mem_cons_self _ _)
          · rcases hr z h with h | h
            · exact Or.inl h
            · exact Or.inr (List.mem_cons_of_mem _ h)⟩
    | .ok _ =>
      .ok ⟨p :: q :: qs, by
        intro z hz
        rcases List.mem_cons.mp hz with h | h
        · exact Or.inl h
        · exact Or.inr h⟩
termination_by l => (max (max (rank p.1) (rank p.2)) (maxRP l) + 1, 1, l.length)
decreasing_by
all_goals
  first
  | (apply lexP1
     (try simp only [rank, maxR, maxRS, maxRP, List.length_cons])
     omega)
  | (refine lexP3 ?_ ?_ ?_ <;>
      · (try simp only [rank, maxR, maxRS, maxRP, List.length_cons])
        omega)

/-- The fallible stable sort of map entries by key. -/
def sortPairsE : (l : List (Value × Value)) → Res {r : List (Value × Value) // ∀ q ∈ r, q ∈ l}
  | [] => .ok ⟨[], by intro q hq; cases hq⟩
  | p :: ps =>
    match sortPairsE ps with
    | .err f => .err f
    | .ok ⟨r, hr⟩ =>
      match insertPairE p r with
      | .err f => .err f
      | .ok ⟨r2, hr2⟩ =>
        .ok ⟨r2, by
          intro z hz
          rcases hr2 z hz with h | h
          · exact h ▸ List.mem_cons_self _ _
          · exact List.mem_cons_of_mem _ (hr z h)⟩
termination_by l => (maxRP l + 1, 2, l.length)
decreasing_by
all_goals
  first
  | (refine lexP3 ?_ ?_ ?_ <;>
      · (try simp only [rank, maxR, maxRS, maxRP, List.length_cons])
        omega)
  | (have n1 := maxRP_subset hr
     refine lexP2 ?_ ?_ <;>
      · (try simp only [rank, maxR, maxRS, maxRP, List.length_cons])
        omega)

/-- Lexicographic comparison of two key-sorted entry lists, each entry
compared key first, then value. -/
def cmpPairsLexE : List (Value × Value) → List (Value × Value) → Res Ordering
  | [], [] => .ok .eq
  | [], _ :: _ => .ok .lt
  | _ :: _, [] => .ok .gt
  | (k1, v1) :: xs, (k2, v2) :: ys =>
    match cmp k1 k2 with
    | .err f => .err f
    | .ok .eq =>
      match cmp v1 v2 with
      | .err f => .err f
      | .ok .eq => cmpPairsLexE xs ys
      | .ok o => .ok o
    | .ok o => .ok o
termination_by a b => (max (maxRP a) (maxRP b) + 1, 1, a.length)
decreasing_by
all_goals
  first
  | (apply lexP1
     (try simp only [rank, maxR, maxRS, maxRP, List.length_cons])
     omega)
  | (refine lexP3 ?_ ?_ ?_ <;>
      · (try simp only [rank, maxR, maxRS, maxRP, List.length_cons])
        omega)

/-- Lexicographic comparison of two name-sorted field lists, each field
compared name first (plain name order, infallible), then value. -/
def cmpRecLexE : List (String × Value) → List (String × Value) → Res Ordering
  | [], [] => .ok .eq
  | [], _ :: _ => .ok .lt
  | _ :: _, [] => .ok .gt
  | (k1, v1) :: xs, (k2, v2) :: ys =>
    match compare k1 k2 with
    | .eq =>
      match cmp v1 v2 with
      | .err f => .err f
      | .ok .eq => cmpRecLexE xs ys
      | .ok o => .ok o
    | o => .ok o
termination_by a b => (max (maxRS a) (maxRS b) + 1, 1, a.length)
decreasing_by
all_goals
  first
  | (apply lexP1
     (try simp only [rank, maxR, maxRS, maxRP, List.length_cons])
     omega)
  | (refine lexP3 ?_ ?_ ?_ <;>
      · (try simp only [rank, maxR, maxRS, maxRP, List.length_cons])
        omega)

end

/-- A primitive write fed to the `Hasher`.  Two values hash identically
(for every hasher) exactly when they feed the hasher the same token
stream. -/
inductive HTok where
  | discr : Nat → HTok
  | int : Int → HTok
  | bool : Bool → HTok
  | str : String → HTok
  | name : String → HTok
deriving Repr, DecidableEq

mutual

/-- `impl Hash for Value`: the stream of primitive writes fed to the
hasher.  `discr.hash(state)` runs first in every case (the exact runtime
discriminant, not a role-level one).  Sets and the four lazy set-like kinds
hash their sorted enumerated elements; records and maps hash their entries
sorted by key; the lambda arm models `panic!("Cannot hash lambda")`. -/
def hashStream : Value → Res (List HTok)
  | .int n => .ok [.discr 0, .int n]
  | .bool b => .ok [.discr 1, .bool b]
  | .str s => .ok [.discr 2, .str s]
  | .set xs =>
    match sortE xs with
    | .err f => .err f
    | .ok ⟨s, hs⟩ =>
      match hsList s with
      | .err f => .err f
      | .ok ts => .ok (.discr 3 :: ts)
  | .tuple xs =>
    match hsList xs with
    | .err f => .err f
    | .ok ts => .ok (.discr 4 :: ts)
  | .record fs =>
    match hsRecPairs (sortRecFields fs) with
    | .err f => .err f
    | .ok ts => .ok (.discr 5 :: ts)
  | .map ps =>
    match sortPairsE ps with
    | .err f => .err f
    | .ok ⟨s, hs⟩ =>
      match hsPairs s with
      | .err f => .err f
      | .ok ts => .ok (.discr 6 :: ts)
  | .list xs =>
    match hsList xs with
    | .err f => .err f
    | .ok ts => .ok (.discr 7 :: ts)
  | .lambda _ _ => .err .unsupported
  | .variant l v =>
    match hashStream v with
    | .err f => .err f
    | .ok ts => .ok (.discr 9 :: .name l :: ts)
  | .interval lo hi => hashSetLike (.interval lo hi)
  | .crossProduct ms => hashSetLike (.crossProduct ms)
  | .powerSet b => hashSetLike (.powerSet b)
  | .mapSet d r => hashSetLike (.mapSet d r)
termination_by v => (rank v, 3, 0)
decreasing_by
all_goals
  first
  | (apply lexP1
     (try simp only [rank, maxR, maxRS, maxRP, List.length_cons])
     omega)
  | (refine lexP2 ?_ ?_ <;>
      · (try simp only [rank, maxR, maxRS, maxRP, List.length_cons])
        omega)
  | (have n1 := maxR_subset hs
     refine lexP2 ?_ ?_ <;>
      · (try simp only [rank, maxR, maxRS, maxRP, List.length_cons])
        omega)
  | (have n1 := maxRP_subset hs
     refine lexP2 ?_ ?_ <;>
      · (try simp only [rank, maxR, maxRS, maxRP, List.length_cons])
        omega)
  | (refine lexP2 (le_trans (Nat.succ_le_succ maxRS_sortRecFields) ?_) ?_ <;>
      · (try simp only [rank, maxR, maxRS, maxRP, List.length_cons])
        omega)

/-- The shared body of the four lazy set-like arms of `Hash for Value`:
hash the exact discriminant, then the sorted enumerated elements. -/
def hashSetLike (v : Value) : Res (List HTok)  :=
  match h1 : as_set v with
  | .err f => .err f
  | .ok l =>
    match sortE l with
    | .err f => .err f
    | .ok ⟨s, hs⟩ =>
      match hsList s with
      | .err f => .err f
      | .ok ts => .ok (.discr (discrIdx v) :: ts)
termination_by (rank v, 2, 0)
decreasing_by
all_goals
  (have q1 := rank_pos_of_as_set h1
   have m1 := maxR_lt_of q1 (as_set_rank h1)
   first
   | (refine lexP2 ?_ ?_ <;> omega)
   | (have n1 := maxR_subset hs
      refine lexP2 ?_ ?_ <;> omega))

/-- Concatenated hash streams of a list of elements, in order. -/
def hsList : List Value → Res (List HTok)
  | [] => .ok []
  | x :: xs =>
    match hashStream x with
    | .err f => .err f
    | .ok ts =>
      match hsList xs with
      | .err f => .err f
      | .ok ts2 => .ok (ts ++ ts2)
termination_by l => (maxR l + 1, 1, l.length)
decreasing_by
all_goals
  first
  | (apply lexP1
     (try simp only [rank, maxR, maxRS, maxRP, List.length_cons])
     omega)
  | (refine lexP3 ?_ ?_ ?_ <;>
      · (try simp only [rank, maxR, maxRS, maxRP, List.length_cons])
        omega)

/-- Concatenated hash streams of key-sorted map entries: key stream then
value stream for each entry. -/
def hsPairs : List (Value × Value) → Res (List HTok)
  | [] => .ok []
  | (k, v) :: ps =>
    match hashStream k with
    | .err f => .err f
    | .ok tk =>
      match hashStream v with
      | .err f => .err f
      | .ok tv =>
        match hsPairs ps with
        | .err f => .err f
        | .ok ts => .ok (tk ++ tv ++ ts)
termination_by l => (maxRP l + 1, 1, l.length)
decreasing_by
all_goals
  first
  | (apply lexP1
     (try simp only [rank, maxR, maxRS, maxRP, List.length_cons])
     omega)
  | (refine lexP3 ?_ ?_ ?_ <;>
      · (try simp only [rank, maxR, maxRS, maxRP, List.length_cons])
        omega)

/-- Concatenated hash streams of name-sorted record fields: name write then
value stream for each field. -/
def hsRecPairs : List (String × Value) → Res (List HTok)
  | [] => .ok []
  | (k, v) :: ps =>
    match hashStream v with
    | .err f => .err f
    | .ok tv =>
      match hsRecPairs ps with
      | .err f => .err f
      | .ok ts => .ok (.name k :: (tv ++ ts))
termination_by l => (maxRS l + 1, 1, l.length)
decreasing_by
all_goals
  first
  | (apply lexP1
     (try simp only [rank, maxR, maxRS, maxRP, List.length_cons])
     omega)
  | (refine lexP3 ?_ ?_ ?_ <;>
      · (try simp only [rank, maxR, maxRS, maxRP, List.length_cons])
        omega)

end

mutual

/-- `Value::contains`, arms in source order: hashed lookup for `Set` (any
element), numeric bounds for `Interval` with an integer, arity check plus
pointwise containment for `CrossProduct` with a tuple, size bound plus
elementwise membership in the enumerated base for `PowerSet` with a set,
domain equality plus range containment of every value for `MapSet` with a
map; any other combination is the `panic!("contains not implemented")`. -/
def contains : Value → Value → Res Bool
  | .set elems, e => vmemR e elems
  | .interval lo hi, .int n => .ok (decide (lo ≤ n) && decide (n ≤ hi))
  | .crossProduct sets, .tuple es =>
    if sets.length = es.length then containsZip sets es else .ok false
  | .powerSet base, .set es =>
    match as_set base with
    | .err f => .err f
    | .ok basel =>
      if es.length ≤ basel.length then allInR es basel else .ok false
  | .mapSet d r, .map m =>
    match veq (.set (m.map Prod.fst)) d with
    | .err f => .err f
    | .ok false => .ok false
    | .ok true => containsVals r (m.map Prod.snd)
  | _, _ => .err .typeMismatch
termination_by a _ => (sizeOf a, 0, 0)
decreasing_by
all_goals
  apply lexP1
  first
  | (simp
     omega)
  | simp
  | omega

/-- `sets.iter().zip(elems).all(|(set, elem)| set.contains(elem))`,
short-circuiting at the first failure. -/
def containsZip : List Value → List Value → Res Bool
  | [], _ => .ok true
  | _, [] => .ok true
  | s :: ss, e :: es =>
    match contains s e with
    | .err f => .err f
    | .ok false => .ok false
    | .ok true => containsZip ss es
termination_by ls _ => (sizeOf ls, 0, 0)
decreasing_by
all_goals
  apply lexP1
  first
  | (simp
     omega)
  | simp
  | omega

/-- `map.values().all(|v| range.contains(v))`, short-circuiting at the
first failure. -/
def containsVals (r : Value) : List Value → Res Bool
  | [] => .ok true
  | v :: vs =>
    match contains r v with
    | .err f => .err f
    | .ok false => .ok false
    | .ok true => containsVals r vs
termination_by l => (sizeOf r, 1, l.length)
decreasing_by
all_goals
  first
  | (refine lexP2 ?_ ?_ <;> omega)
  | (refine lexP3 ?_ ?_ ?_ <;> first | (simp; omega) | simp | omega)

end

mutual

/-- `Value::subseteq`, arms in source order: native subset test for two
sets; bound containment for two intervals; arity check plus pointwise
`subseteq` for two cross products; base `subseteq` for two power sets;
domain equality plus range `subseteq` for two map sets; otherwise the
fallback enumerates both sides and runs the hashed subset test. -/
def subseteq : Value → Value → Res Bool
  | .set a, .set b => allInR a b
  | .interval s1 e1, .interval s2 e2 =>
    .ok (decide (s1 ≥ s2) && decide (e1 ≤ e2))
  | .crossProduct as2, .crossProduct bs =>
    if as2.length = bs.length then subseteqZip as2 bs else .ok false
  | .powerSet a, .powerSet b => subseteq a b
  | .mapSet d1 r1, .mapSet d2 r2 =>
    match veq d1 d2 with
    | .err f => .err f
    | .ok false => .ok false
    | .ok true => subseteq r1 r2
  | a, b =>
    match as_set a with
    | .err f => .err f
    | .ok l1 =>
      match as_set b with
      | .err f => .err f
      | .ok l2 => allInR l1 l2
termination_by a _ => (sizeOf a, 0, 0)
decreasing_by
all_goals
  apply lexP1
  first
  | (simp
     omega)
  | simp
  | omega

/-- `subsets.iter().zip(supersets).all(|(s, t)| s.subseteq(t))`,
short-circuiting at the first failure. -/
def subseteqZip : List Value → List Value → Res Bool
  | [], _ => .ok true
  | _, [] => .ok true
  | s :: ss, t :: ts =>
    match subseteq s t with
    | .err f => .err f
    | .ok false => .ok false
    | .ok true => subseteqZip ss ts
termination_by ls _ => (sizeOf ls, 0, 0)
decreasing_by
all_goals
  apply lexP1
  first
  | (simp
     omega)
  | simp
  | omega

end

/-- Whether `x` compares unequal to every element of the list. -/
def allNotInB (x : Value) : List Value → Bool
  | [] => true
  | y :: ys => decide (veq x y = .ok false) && allNotInB x ys

/-- The elements of the list are pairwise unequal under canonical
equality: the deduplication invariant of a materialized set. -/
def ndB : List Value → Bool
  | [] => true
  | x :: xs => allNotInB x xs && ndB xs

/-- Whether field name `k` does not occur among the given fields. -/
def keyNotInS (k : String) : List (String × Value) → Bool
  | [] => true
  | (k2, _) :: rest => decide (k2 ≠ k) && keyNotInS k rest

/-- Field names are pairwise distinct: the key-uniqueness invariant of a
record. -/
def ndKeysS : List (String × Value) → Bool
  | [] => true
  | (k, _) :: rest => keyNotInS k rest && ndKeysS rest

/-- Whether key `k` compares unequal to every key of the entry list. -/
def keyNotInP (k : Value) : List (Value × Value) → Bool
  | [] => true
  | (k2, _) :: rest => decide (veq k k2 = .ok false) && keyNotInP k rest

/-- Map keys are pairwise unequal under canonical equality: the
key-uniqueness invariant of a map. -/
def ndKeysP : List (Value × Value) → Bool
  | [] => true
  | (k, _) :: rest => keyNotInP k rest && ndKeysP rest

mutual

/-- Materialized, well-formed values: no lazy set representation, no
closure, and every set, map and record deduplicated under canonical
equality (the §3 invariant of runtime collections).  Enumerating a
well-formed set-like value only produces such values. -/
def Mat : Value → Bool
  | .int _ => true
  | .bool _ => true
  | .str _ => true
  | .set xs => MatList xs && ndB xs
  | .tuple xs => MatList xs
  | .record fs => MatFields fs && ndKeysS fs
  | .map ps => MatPairs ps && ndKeysP ps
  | .list xs => MatList xs
  | .lambda _ _ => false
  | .variant _ v => Mat v
  | .interval _ _ => false
  | .crossProduct _ => false
  | .powerSet _ => false
  | .mapSet _ _ => false

/-- All elements materialized and well-formed. -/
def MatList : List Value → Bool
  | [] => true
  | x :: xs => Mat x && MatList xs

/-- All field values materialized and well-formed. -/
def MatFields : List (String × Value) → Bool
  | [] => true
  | (_, v) :: fs => Mat v && MatFields fs

/-- All keys and values materialized and well-formed. -/
def MatPairs : List (Value × Value) → Bool
  | [] => true
  | (k, v) :: ps => Mat k && Mat v && MatPairs ps

end

mutual

/-- Well-formed set-like values: the fragment of set-like values the
evaluator builds.  Materialized sets satisfy the deduplication invariant;
intervals satisfy `lo ≤ hi + 1`, so that the `i64` width of the closed
`cardinality` form is non-negative; cross products have at least one member,
because at zero members `multi_cartesian_product` yields no elements while
the cardinality fold returns 1 (the divergence exhibited in the C4
counterexample), all members set-like and well-formed; power-set bases and
map-set components are well-formed set-like values. -/
def SetLikeWF : Value → Bool
  | .set xs => Mat (.set xs)
  | .interval lo hi => decide (lo ≤ hi + 1)
  | .crossProduct ms => !ms.isEmpty && SetLikeWFList ms
  | .powerSet b => SetLikeWF b
  | .mapSet d r => SetLikeWF d && SetLikeWF r
  | _ => false

/-- All members well-formed set-like values. -/
def SetLikeWFList : List Value → Bool
  | [] => true
  | m :: ms => SetLikeWF m && SetLikeWFList ms

end

/-- Specification shorthand: `x` and `y` are canonically equal (the
embedded `PartialEq` succeeds with `true`). -/
def EqV (x y : Value) : Prop := veq x y = .ok true

/-- Specification shorthand: some element of `l` is canonically equal to
`x` — membership of `x` in the enumerated set `l`. -/
def MemV (x : Value) (l : List Value) : Prop := ∃ y ∈ l, EqV x y

/-- Specification shorthand: every element of `l1` is a member of `l2`
under canonical equality — the enumerated subset relation. -/
def SubV (l1 l2 : List Value) : Prop := ∀ x ∈ l1, MemV x l2

/-- `EvalResult` of the expression evaluator: closure parameter cells hold
such results.  The error payload (a `QuintError`) is opaque here. -/
inductive EvalResult where
  | ok : Value → EvalResult
  | err : String → EvalResult

/-- The parameter-cell writing step of the closure returned by
`Value::as_closure`:
`args.into_iter().enumerate().for_each(|(i, arg)| *registers[i].borrow_mut() = Ok(arg))`.
The first component is the prior contents of the cells, the second the
positional arguments.  Writes proceed position by position; there is no
check that the argument count equals the cell count.  Indexing
`registers[i]` past the cell count is an out-of-bounds panic, modelled as
`none`; otherwise the result is the cell state the body then executes
against. -/
def writeArgs : List EvalResult → List Value → Option (List EvalResult)
  | regs, [] => some regs
  | [], _ :: _ => none
  | _ :: regs, a :: args2 =>
    match writeArgs regs args2 with
    | none => none
    | some rs => some (.ok a :: rs)

/-- Value-level view of `insertE` (dropping the membership certificate). -/
def insertL (x : Value) (l : List Value) : Res (List Value) :=
  match insertE x l with
  | .err f => .err f
  | .ok r => .ok r.val

/-- Value-level view of `sortE` (dropping the membership certificate). -/
def sortL (l : List Value) : Res (List Value) :=
  match sortE l with
  | .err f => .err f
  | .ok r => .ok r.val

theorem insertL_nil {x : Value} : insertL x [] = .ok [x] := by
  simp [insertL, insertE]

theorem insertL_cons {x y : Value} {ys : List Value} :
    insertL x (y :: ys) =
      match cmp x y with
      | .err f => .err f
      | .ok .gt =>
        match insertL x ys with
        | .err f => .err f
        | .ok r => .ok (y :: r)
      | .ok _ => .ok (x :: y :: ys) := by
  simp only [insertL]
  rw [insertE.eq_def]
  dsimp only
  cases hc : cmp x y with
  | err f => rfl
  | ok o =>
    cases o with
    | lt => rfl
    | eq => rfl
    | gt =>
      cases hi : insertE x ys with
      | err f => rfl
      | ok r => rfl

theorem sortL_nil : sortL [] = .ok [] := by
  simp [sortL, sortE]

theorem sortL_cons {x : Value} {xs : List Value} :
    sortL (x :: xs) =
      match sortL xs with
      | .err f => .err f
      | .ok r => insertL x r := by
  simp only [sortL]
  rw [sortE.eq_def]
  dsimp only
  cases h : sortE xs with
  | err f => rfl
  | ok r =>
    simp only [insertL]
    cases h2 : insertE x r.val with
    | err f => rfl
    | ok r2 => rfl

theorem cmp_discr_ne {a b : Value} (h : discrIdx a ≠ discrIdx b) :
    cmp a b = .ok (compare (discrIdx a) (discrIdx b)) := by
  rw [cmp.eq_def, if_pos h]

theorem cmp_int_int {a b : Int} : cmp (.int a) (.int b) = .ok (compare a b) := by
  rw [cmp.eq_def]
  simp [discrIdx]

theorem hsList_nil : hsList [] = .ok [] := by
  simp [hsList]

theorem hsList_cons {x : Value} {xs : List Value} :
    hsList (x :: xs) =
      match hashStream x with
      | .err f => .err f
      | .ok ts =>
        match hsList xs with
        | .err f => .err f
        | .ok ts2 => .ok (ts ++ ts2) := by
  rw [hsList.eq_def]

theorem hashStream_int {n : Int} : hashStream (.int n) = .ok [.discr 0, .int n] := by
  rw [hashStream.eq_def]

theorem hashSetLike_eval {v : Value} {l s : List Value} {ts : List HTok}
    (h1 : as_set v = .ok l) (h2 : sortL l = .ok s) (h3 : hsList s = .ok ts) :
    hashSetLike v = .ok (.discr (discrIdx v) :: ts) := by
  simp only [sortL] at h2
  rw [hashSetLike.eq_def]
  split
  · rename_i f hf
    rw [h1] at hf
    cases hf
  · rename_i l' hl'
    rw [h1] at hl'
    cases hl'
    split
    · rename_i f hf
      rw [hf] at h2
      cases h2
    · rename_i s' hs' hr
      rw [hr] at h2
      simp only [Res.ok.injEq] at h2
      subst h2
      rw [h3]

theorem hashStream_set_eval {xs s : List Value} {ts : List HTok}
    (h2 : sortL xs = .ok s) (h3 : hsList s = .ok ts) :
    hashStream (.set xs) = .ok (.discr 3 :: ts) := by
  simp only [sortL] at h2
  rw [hashStream.eq_def]
  show (match sortE xs with
    | Res.err f => Res.err f
    | Res.ok ⟨s, _⟩ =>
      match hsList s with
      | Res.err f => Res.err f
      | Res.ok ts => Res.ok (HTok.discr 3 :: ts)) = Res.ok (HTok.discr 3 :: ts)
  cases hs : sortE xs with
  | err f => rw [hs] at h2; cases h2
  | ok r =>
    rw [hs] at h2
    simp only [Res.ok.injEq] at h2
    obtain ⟨l', hl'⟩ := r
    simp only at h2
    subst h2
    dsimp only
    rw [h3]

theorem hashStream_interval {lo hi : Int} :
    hashStream (.interval lo hi) = hashSetLike (.interval lo hi) := by
  rw [hashStream.eq_def]

/-! Per-arm equations of `veq` and its helpers, for use in proofs. -/

theorem veq_int {a b : Int} : veq (.int a) (.int b) = .ok (a == b) := by
  rw [veq.eq_def]

theorem veq_bool {a b : Bool} : veq (.bool a) (.bool b) = .ok (a == b) := by
  rw [veq.eq_def]

theorem veq_str {a b : String} : veq (.str a) (.str b) = .ok (a == b) := by
  rw [veq.eq_def]

theorem veq_set {a b : List Value} : veq (.set a) (.set b) = setEqR a b := by
  rw [veq.eq_def]

theorem veq_tuple {a b : List Value} : veq (.tuple a) (.tuple b) = veqVec a b := by
  rw [veq.eq_def]

theorem veq_record {a b : List (String × Value)} :
    veq (.record a) (.record b) = recEqR a b := by
  rw [veq.eq_def]

theorem veq_map {a b : List (Value × Value)} :
    veq (.map a) (.map b) = mapEqR a b := by
  rw [veq.eq_def]

theorem veq_list {a b : List Value} : veq (.list a) (.list b) = veqVec a b := by
  rw [veq.eq_def]

theorem veq_lambda {p b p2 b2 : Nat} :
    veq (.lambda p b) (.lambda p2 b2) = .err .unsupported := by
  rw [veq.eq_def]

theorem veq_variant {la lb : String} {va vb : Value} :
    veq (.variant la va) (.variant lb vb) =
      if la = lb then veq va vb else .ok false := by
  rw [veq.eq_def]

theorem veq_interval {a1 a2 b1 b2 : Int} :
    veq (.interval a1 a2) (.interval b1 b2) = .ok (a1 == b1 && a2 == b2) := by
  rw [veq.eq_def]

theorem veq_cross {a b : List Value} :
    veq (.crossProduct a) (.crossProduct b) = veqVec a b := by
  rw [veq.eq_def]

theorem veq_power {a b : Value} : veq (.powerSet a) (.powerSet b) = veq a b := by
  rw [veq.eq_def]

theorem veq_mapset {d1 r1 d2 r2 : Value} :
    veq (.mapSet d1 r1) (.mapSet d2 r2) =
      match veq d1 d2 with
      | .err f => .err f
      | .ok false => .ok false
      | .ok true => veq r1 r2 := by
  rw [veq.eq_def]

theorem vmemR_nil {x : Value} : vmemR x [] = .ok false := by
  rw [vmemR.eq_def]

theorem vmemR_cons {x y : Value} {ys : List Value} :
    vmemR x (y :: ys) =
      match veq x y with
      | .err f => .err f
      | .ok true => .ok true
      | .ok false => vmemR x ys := by
  rw [vmemR.eq_def]

theorem allInR_nil {b : List Value} : allInR [] b = .ok true := by
  rw [allInR.eq_def]

theorem allInR_cons {x : Value} {xs b : List Value} :
    allInR (x :: xs) b =
      match vmemR x b with
      | .err f => .err f
      | .ok false => .ok false
      | .ok true => allInR xs b := by
  rw [allInR.eq_def]

theorem setEqR_def {a b : List Value} :
    setEqR a b = if a.length = b.length then allInR a b else .ok false := by
  rw [setEqR.eq_def]

theorem veqVec_def {a b : List Value} :
    veqVec a b = if a.length = b.length then veqZip a b else .ok false := by
  rw [veqVec.eq_def]

theorem veqZip_nil_left {b : List Value} : veqZip [] b = .ok true := by
  rcases b with _ | ⟨y, ys⟩ <;> rw [veqZip.eq_def]

theorem veqZip_nil_right {x : Value} {xs : List Value} :
    veqZip (x :: xs) [] = .ok true := by
  rw [veqZip.eq_def]

theorem veqZip_cons {x y : Value} {xs ys : List Value} :
    veqZip (x :: xs) (y :: ys) =
      match veq x y with
      | .err f => .err f
      | .ok false => .ok false
      | .ok true => veqZip xs ys := by
  rw [veqZip.eq_def]

theorem recEqR_def {a b : List (String × Value)} :
    recEqR a b = if a.length = b.length then recAllR a b else .ok false := by
  rw [recEqR.eq_def]

theorem recAllR_nil {b : List (String × Value)} : recAllR [] b = .ok true := by
  rw [recAllR.eq_def]

theorem recAllR_cons {k : String} {v : Value} {xs b : List (String × Value)} :
    recAllR ((k, v) :: xs) b =
      match recLookup k b with
      | none => .ok false
      | some v2 =>
        match veq v v2 with
        | .err f => .err f
        | .ok false => .ok false
        | .ok true => recAllR xs b := by
  rw [recAllR.eq_def]
  dsimp only
  split
  · rename_i heq
    rw [heq]
  · rename_i v2 heq
    rw [heq]

theorem mapEqR_def {a b : List (Value × Value)} :
    mapEqR a b = if a.length = b.length then mapAllR a b else .ok false := by
  rw [mapEqR.eq_def]

theorem mapAllR_nil {b : List (Value × Value)} : mapAllR [] b = .ok true := by
  rw [mapAllR.eq_def]

theorem mapAllR_cons {k v : Value} {xs b : List (Value × Value)} :
    mapAllR ((k, v) :: xs) b =
      match mapLookupR k v b with
      | .err f => .err f
      | .ok false => .ok false
      | .ok true => mapAllR xs b := by
  rw [mapAllR.eq_def]

theorem mapLookupR_nil {k v : Value} : mapLookupR k v [] = .ok false := by
  rw [mapLookupR.eq_def]

theorem mapLookupR_cons {k v k2 v2 : Value} {rest : List (Value × Value)} :
    mapLookupR k v ((k2, v2) :: rest) =
      match veq k k2 with
      | .err f => .err f
      | .ok true => veq v v2
      | .ok false => mapLookupR k v rest := by
  rw [mapLookupR.eq_def]

/-- Cross-kind pairs where the set-like guard fails are simply unequal. -/
theorem veq_ne_kind_not_both_set {a b : Value} (hne : discrIdx a ≠ discrIdx b)
    (hns : is_set a = false ∨ is_set b = false) : veq a b = .ok false := by
  cases a <;> cases b <;>
    first
    | (exfalso; exact hne rfl)
    | (rw [veq.eq_def]; rfl)
    | (rcases hns with h | h <;> simp [is_set] at h)

/-- Cross-kind set-like pairs take the enumerate-both-sides fallback. -/
theorem veq_fallback {a b : Value} (hA : is_set a = true) (hB : is_set b = true)
    (hne : discrIdx a ≠ discrIdx b) :
    veq a b =
      match as_set a with
      | .err f => .err f
      | .ok l1 =>
        match as_set b with
        | .err f => .err f
        | .ok l2 => setEqR l1 l2 := by
  cases a <;> cases b <;>
    first
    | (exfalso; exact hne rfl)
    | (simp [is_set] at hA; done)
    | (simp [is_set] at hB; done)
    | (rw [veq.eq_def]
       dsimp only
       rw [if_pos (by simp [is_set])]
       split
       · rename_i f heq
         rw [heq]
       · rename_i l1 heq
         rw [heq]
         split
         · rename_i f heq2
           rw [heq2]
         · rename_i l2 heq2
           rw [heq2])

/-! Propositional bridges between the Boolean invariants and the
quantified statements they encode. -/

theorem memV_nil {x : Value} : ¬ MemV x [] := by
  rintro ⟨y, hy, _⟩
  cases hy

theorem memV_cons {x y : Value} {ys : List Value} :
    MemV x (y :: ys) ↔ EqV x y ∨ MemV x ys := by
  constructor
  · rintro ⟨z, hz, hez⟩
    rcases List.mem_cons.mp hz with rfl | hz2
    · exact Or.inl hez
    · exact Or.inr ⟨z, hz2, hez⟩
  · rintro (h | ⟨z, hz, hez⟩)
    · exact ⟨y, List.mem_cons_self _ _, h⟩
    · exact ⟨z, List.mem_cons_of_mem _ hz, hez⟩

theorem allNotInB_iff {x : Value} {l : List Value} :
    allNotInB x l = true ↔ ∀ y ∈ l, veq x y = .ok false := by
  induction l with
  | nil => simp [allNotInB]
  | cons y ys ih => simp [allNotInB, ih]

theorem ndB_pairwise {l : List Value} :
    ndB l = true ↔ List.Pairwise (fun x y => veq x y = .ok false) l := by
  induction l with
  | nil => simp [ndB]
  | cons x xs ih => simp [ndB, allNotInB_iff, ih, List.pairwise_cons]

theorem keyNotInP_iff {k : Value} {l : List (Value × Value)} :
    keyNotInP k l = true ↔ ∀ q ∈ l, veq k q.1 = .ok false := by
  induction l with
  | nil => simp [keyNotInP]
  | cons q rest ih =>
    obtain ⟨k2, v2⟩ := q
    simp [keyNotInP, ih]

theorem ndKeysP_pairwise {l : List (Value × Value)} :
    ndKeysP l = true ↔ List.Pairwise (fun p q => veq p.1 q.1 = .ok false) l := by
  induction l with
  | nil => simp [ndKeysP]
  | cons q rest ih =>
    obtain ⟨k, v⟩ := q
    simp [ndKeysP, keyNotInP_iff, ih, List.pairwise_cons]

theorem keyNotInS_iff {k : String} {l : List (String × Value)} :
    keyNotInS k l = true ↔ ∀ q ∈ l, q.1 ≠ k := by
  induction l with
  | nil => simp [keyNotInS]
  | cons q rest ih =>
    obtain ⟨k2, v2⟩ := q
    simp [keyNotInS, ih]

theorem ndKeysS_pairwise {l : List (String × Value)} :
    ndKeysS l = true ↔ List.Pairwise (fun p q => q.1 ≠ p.1) l := by
  induction l with
  | nil => simp [ndKeysS]
  | cons q rest ih =>
    obtain ⟨k, v⟩ := q
    simp [ndKeysS, keyNotInS_iff, ih, List.pairwise_cons]

theorem matList_iff {l : List Value} :
    MatList l = true ↔ ∀ x ∈ l, Mat x = true := by
  induction l with
  | nil => rw [MatList.eq_def]; simp
  | cons x xs ih => rw [MatList.eq_def]; simp [ih]

theorem matFields_iff {l : List (String × Value)} :
    MatFields l = true ↔ ∀ q ∈ l, Mat q.2 = true := by
  induction l with
  | nil => rw [MatFields.eq_def]; simp
  | cons q rest ih =>
    obtain ⟨k, v⟩ := q
    rw [MatFields.eq_def]
    simp [ih]

theorem matPairs_iff {l : List (Value × Value)} :
    MatPairs l = true ↔ ∀ q ∈ l, Mat q.1 = true ∧ Mat q.2 = true := by
  induction l with
  | nil => rw [MatPairs.eq_def]; simp
  | cons q rest ih =>
    obtain ⟨k, v⟩ := q
    rw [MatPairs.eq_def]
    simp [ih]

theorem setLikeWFList_iff {l : List Value} :
    SetLikeWFList l = true ↔ ∀ m ∈ l, SetLikeWF m = true := by
  induction l with
  | nil => rw [SetLikeWFList.eq_def]; simp
  | cons m ms ih => rw [SetLikeWFList.eq_def]; simp [ih]

theorem mat_int {n : Int} : Mat (.int n) = true := by rw [Mat.eq_def]

theorem mat_bool {b : Bool} : Mat (.bool b) = true := by rw [Mat.eq_def]

theorem mat_str {s : String} : Mat (.str s) = true := by rw [Mat.eq_def]

theorem mat_set_iff {xs : List Value} :
    Mat (.set xs) = true ↔ MatList xs = true ∧ ndB xs = true := by
  rw [Mat.eq_def]; simp

theorem mat_tuple_iff {xs : List Value} :
    Mat (.tuple xs) = true ↔ MatList xs = true := by rw [Mat.eq_def]

theorem mat_record_iff {fs : List (String × Value)} :
    Mat (.record fs) = true ↔ MatFields fs = true ∧ ndKeysS fs = true := by
  rw [Mat.eq_def]; simp

theorem mat_map_iff {ps : List (Value × Value)} :
    Mat (.map ps) = true ↔ MatPairs ps = true ∧ ndKeysP ps = true := by
  rw [Mat.eq_def]; simp

theorem mat_list_iff {xs : List Value} :
    Mat (.list xs) = true ↔ MatList xs = true := by rw [Mat.eq_def]

theorem mat_variant_iff {s : String} {v : Value} :
    Mat (.variant s v) = true ↔ Mat v = true := by rw [Mat.eq_def]

theorem mat_lambda {p b : Nat} : Mat (.lambda p b) = false := by rw [Mat.eq_def]

theorem mat_interval {lo hi : Int} : Mat (.interval lo hi) = false := by
  rw [Mat.eq_def]

theorem mat_cross {ms : List Value} : Mat (.crossProduct ms) = false := by
  rw [Mat.eq_def]

theorem mat_power {b : Value} : Mat (.powerSet b) = false := by rw [Mat.eq_def]

theorem mat_mapset {d r : Value} : Mat (.mapSet d r) = false := by
  rw [Mat.eq_def]

/-- The only materialized set-like kind is `Set`. -/
theorem mat_is_set {a : Value} (hm : Mat a = true) (hs : is_set a = true) :
    ∃ xs, a = .set xs := by
  cases a <;>
    first
    | exact ⟨_, rfl⟩
    | (rw [Mat.eq_def] at hm; simp at hm; done)
    | (simp [is_set] at hs; done)

/-- Two materialized values of differing kinds are unequal: the only
materialized kind passing the set-like guard of the catch-all is `Set`,
which never reaches it against another `Set`. -/
theorem veq_mat_ne_kind {a b : Value} (hma : Mat a = true) (hmb : Mat b = true)
    (hne : discrIdx a ≠ discrIdx b) : veq a b = .ok false := by
  apply veq_ne_kind_not_both_set hne
  by_cases hsa : is_set a = true
  · obtain ⟨xs, rfl⟩ := mat_is_set hma hsa
    by_cases hsb : is_set b = true
    · obtain ⟨ys, rfl⟩ := mat_is_set hmb hsb
      exact absurd rfl hne
    · exact Or.inr (by simpa using hsb)
  · exact Or.inl (by simpa using hsa)

/-- On materialized values, equality only holds within one kind. -/
theorem veq_true_same_kind {a b : Value} (hma : Mat a = true)
    (hmb : Mat b = true) (h : veq a b = .ok true) :
    discrIdx a = discrIdx b := by
  by_contra hne
  rw [veq_mat_ne_kind hma hmb hne] at h
  cases h

/-! Characterizations of the element-level comparison scans, assuming the
comparisons they perform along the way return results. -/

theorem recLookup_mem {k : String} {b : List (String × Value)} {v : Value}
    (h : recLookup k b = some v) : (k, v) ∈ b := by
  induction b with
  | nil => cases h
  | cons p rest ih =>
    obtain ⟨k2, v2⟩ := p
    simp only [recLookup] at h
    split at h
    · rename_i heq
      cases h
      subst heq
      exact List.mem_cons_self _ _
    · exact List.mem_cons_of_mem _ (ih h)

theorem recLookup_of_mem {k : String} {v : Value} {b : List (String × Value)}
    (hnd : ndKeysS b = true) (hm : (k, v) ∈ b) : recLookup k b = some v := by
  induction b with
  | nil => cases hm
  | cons p rest ih =>
    obtain ⟨k2, v2⟩ := p
    rcases List.mem_cons.mp hm with heq | hm2
    · cases heq
      simp [recLookup]
    · simp only [ndKeysS, Bool.and_eq_true] at hnd
      have hk : k2 ≠ k := by
        have := (keyNotInS_iff).mp hnd.1 (k, v) hm2
        exact fun h => (by simpa using this : ¬k = k2) h.symm
      simp only [recLookup, if_neg hk]
      exact ih hnd.2 hm2

theorem vmemR_char {x : Value} {l : List Value}
    (ht : ∀ y ∈ l, ∃ r, veq x y = .ok r) :
    ∃ r, vmemR x l = .ok r ∧ (r = true ↔ MemV x l) := by
  induction l with
  | nil =>
    refine ⟨false, vmemR_nil, ?_⟩
    simp [memV_nil]
  | cons y ys ih =>
    obtain ⟨ry, hry⟩ := ht y (List.mem_cons_self _ _)
    cases ry with
    | true =>
      refine ⟨true, ?_, ?_⟩
      · rw [vmemR_cons, hry]
      · simp [memV_cons]
        exact Or.inl hry
    | false =>
      obtain ⟨r, hr, hiff⟩ := ih (fun y2 hy2 => ht y2 (List.mem_cons_of_mem _ hy2))
      refine ⟨r, ?_, ?_⟩
      · rw [vmemR_cons, hry, hr]
      · rw [hiff, memV_cons]
        constructor
        · exact Or.inr
        · rintro (h | h)
          · rw [EqV, hry] at h
            cases h
          · exact h

theorem allInR_char {l b : List Value}
    (ht : ∀ x ∈ l, ∀ y ∈ b, ∃ r, veq x y = .ok r) :
    ∃ r, allInR l b = .ok r ∧ (r = true ↔ SubV l b) := by
  induction l with
  | nil =>
    refine ⟨true, allInR_nil, ?_⟩
    simp [SubV]
  | cons x xs ih =>
    obtain ⟨rx, hrx, hxiff⟩ := vmemR_char (ht x (List.mem_cons_self _ _))
    cases rx with
    | false =>
      refine ⟨false, ?_, ?_⟩
      · rw [allInR_cons, hrx]
      · constructor
        · intro h
          cases h
        · intro h
          exact absurd (hxiff.mpr (h x (List.mem_cons_self _ _))) (by simp)
    | true =>
      obtain ⟨r, hr, hiff⟩ := ih (fun x2 hx2 => ht x2 (List.mem_cons_of_mem _ hx2))
      refine ⟨r, ?_, ?_⟩
      · rw [allInR_cons, hrx, hr]
      · rw [hiff]
        constructor
        · intro h x2 hx2
          rcases List.mem_cons.mp hx2 with rfl | hx3
          · exact hxiff.mp rfl
          · exact h x2 hx3
        · intro h x2 hx2
          exact h x2 (List.mem_cons_of_mem _ hx2)

theorem veqZip_char : ∀ {l1 l2 : List Value}, l1.length = l2.length →
    (∀ p ∈ l1.zip l2, ∃ r, veq p.1 p.2 = .ok r) →
    ∃ r, veqZip l1 l2 = .ok r ∧ (r = true ↔ List.Forall₂ EqV l1 l2) := by
  intro l1
  induction l1 with
  | nil =>
    intro l2 hlen _
    cases l2 with
    | nil => exact ⟨true, veqZip_nil_left, by simp⟩
    | cons y ys => cases hlen
  | cons x xs ih =>
    intro l2 hlen ht
    cases l2 with
    | nil => cases hlen
    | cons y ys =>
      obtain ⟨rxy, hrxy⟩ := ht (x, y) (by simp [List.zip_cons_cons])
      cases rxy with
      | false =>
        refine ⟨false, ?_, ?_⟩
        · rw [veqZip_cons, hrxy]
        · constructor
          · intro h
            cases h
          · intro h
            cases h with
            | cons hxy _ =>
              rw [EqV, hrxy] at hxy
              cases hxy
      | true =>
        obtain ⟨r, hr, hiff⟩ := ih (by simpa using hlen)
          (fun p hp => ht p (by simp [List.zip_cons_cons, hp]))
        refine ⟨r, ?_, ?_⟩
        · rw [veqZip_cons, hrxy, hr]
        · rw [hiff]
          constructor
          · intro h
            exact .cons hrxy h
          · intro h
            cases h with
            | cons _ htail => exact htail

theorem recAllR_char {xs b : List (String × Value)}
    (ht : ∀ q ∈ xs, ∀ v2, recLookup q.1 b = some v2 → ∃ r, veq q.2 v2 = .ok r) :
    ∃ r, recAllR xs b = .ok r ∧
      (r = true ↔ ∀ q ∈ xs, ∃ v2, recLookup q.1 b = some v2 ∧ veq q.2 v2 = .ok true) := by
  induction xs with
  | nil =>
    refine ⟨true, recAllR_nil, ?_⟩
    simp
  | cons q rest ih =>
    obtain ⟨k, v⟩ := q
    cases hl : recLookup k b with
    | none =>
      refine ⟨false, ?_, ?_⟩
      · rw [recAllR_cons, hl]
      · constructor
        · intro h
          cases h
        · intro h
          obtain ⟨v2, hv2, _⟩ := h (k, v) (List.mem_cons_self _ _)
          rw [hl] at hv2
          cases hv2
    | some v2 =>
      obtain ⟨rv, hrv0⟩ := ht (k, v) (List.mem_cons_self _ _) v2 hl
      have hrv : veq v v2 = .ok rv := hrv0
      cases rv with
      | false =>
        refine ⟨false, ?_, ?_⟩
        · rw [recAllR_cons, hl]
          dsimp only
          rw [hrv]
        · constructor
          · intro h
            cases h
          · intro h
            obtain ⟨v3, hv3, hveq⟩ := h (k, v) (List.mem_cons_self _ _)
            rw [hl] at hv3
            cases hv3
            rw [hrv] at hveq
            cases hveq
      | true =>
        obtain ⟨r, hr, hiff⟩ := ih (fun q hq => ht q (List.mem_cons_of_mem _ hq))
        refine ⟨r, ?_, ?_⟩
        · rw [recAllR_cons, hl]
          dsimp only
          rw [hrv]
          dsimp only
          rw [hr]
        · rw [hiff]
          constructor
          · intro h q hq
            rcases List.mem_cons.mp hq with rfl | hq2
            · exact ⟨v2, hl, hrv⟩
            · exact h q hq2
          · intro h q hq
            exact h q (List.mem_cons_of_mem _ hq)

theorem mapLookupR_char {k v : Value} {b : List (Value × Value)}
    (htk : ∀ q ∈ b, ∃ r, veq k q.1 = .ok r)
    (htv : ∀ q ∈ b, veq k q.1 = .ok true → ∃ r, veq v q.2 = .ok r)
    (huniq : List.Pairwise (fun q q2 => veq k q.1 = .ok true → veq k q2.1 = .ok false) b) :
    ∃ r, mapLookupR k v b = .ok r ∧
      (r = true ↔ ∃ q ∈ b, veq k q.1 = .ok true ∧ veq v q.2 = .ok true) := by
  induction b with
  | nil =>
    refine ⟨false, mapLookupR_nil, ?_⟩
    simp
  | cons q rest ih =>
    obtain ⟨k2, v2⟩ := q
    obtain ⟨rk, hrk0⟩ := htk (k2, v2) (List.mem_cons_self _ _)
    have hrk : veq k k2 = .ok rk := hrk0
    cases rk with
    | true =>
      obtain ⟨rv, hrv0⟩ := htv (k2, v2) (List.mem_cons_self _ _) hrk
      have hrv : veq v v2 = .ok rv := hrv0
      refine ⟨rv, ?_, ?_⟩
      · rw [mapLookupR_cons, hrk, hrv]
      · constructor
        · intro h
          exact ⟨(k2, v2), List.mem_cons_self _ _, hrk, h ▸ hrv⟩
        · rintro ⟨q2, hq2, hqk, hqv⟩
          rcases List.mem_cons.mp hq2 with rfl | hq3
          · rw [hrv] at hqv
            cases hqv
            rfl
          · have := (List.pairwise_cons.mp huniq).1 q2 hq3 hrk
            rw [this] at hqk
            cases hqk
    | false =>
      obtain ⟨r, hr, hiff⟩ := ih (fun q hq => htk q (List.mem_cons_of_mem _ hq))
        (fun q hq => htv q (List.mem_cons_of_mem _ hq))
        (List.pairwise_cons.mp huniq).2
      refine ⟨r, ?_, ?_⟩
      · rw [mapLookupR_cons, hrk, hr]
      · rw [hiff]
        constructor
        · rintro ⟨q2, hq2, hqk, hqv⟩
          exact ⟨q2, List.mem_cons_of_mem _ hq2, hqk, hqv⟩
        · rintro ⟨q2, hq2, hqk, hqv⟩
          rcases List.mem_cons.mp hq2 with rfl | hq3
          · rw [hrk] at hqk
            cases hqk
          · exact ⟨q2, hq3, hqk, hqv⟩

theorem mapAllR_char {xs b : List (Value × Value)}
    (ht : ∀ q ∈ xs, ∃ r, mapLookupR q.1 q.2 b = .ok r ∧
          (r = true ↔ ∃ p ∈ b, veq q.1 p.1 = .ok true ∧ veq q.2 p.2 = .ok true)) :
    ∃ r, mapAllR xs b = .ok r ∧
      (r = true ↔ ∀ q ∈ xs, ∃ p ∈ b, veq q.1 p.1 = .ok true ∧ veq q.2 p.2 = .ok true) := by
  induction xs with
  | nil =>
    refine ⟨true, mapAllR_nil, ?_⟩
    simp
  | cons q rest ih =>
    obtain ⟨k, v⟩ := q
    obtain ⟨rq, hrq0, hqiff0⟩ := ht (k, v) (List.mem_cons_self _ _)
    have hrq : mapLookupR k v b = .ok rq := hrq0
    have hqiff : rq = true ↔ ∃ p ∈ b, veq k p.1 = .ok true ∧ veq v p.2 = .ok true := hqiff0
    cases rq with
    | false =>
      refine ⟨false, ?_, ?_⟩
      · rw [mapAllR_cons, hrq]
      · constructor
        · intro h
          cases h
        · intro h
          exact absurd (hqiff.mpr (h (k, v) (List.mem_cons_self _ _))) (by simp)
    | true =>
      obtain ⟨r, hr, hiff⟩ := ih (fun q hq => ht q (List.mem_cons_of_mem _ hq))
      refine ⟨r, ?_, ?_⟩
      · rw [mapAllR_cons, hrq, hr]
      · rw [hiff]
        constructor
        · intro h q hq
          rcases List.mem_cons.mp hq with rfl | hq2
          · exact hqiff.mp rfl
          · exact h q hq2
        · intro h q hq
          exact h q (List.mem_cons_of_mem _ hq)

/-! Pointwise-equality plumbing and the counting lemmas used to reverse
one-directional containments between deduplicated enumerations. -/

theorem forall2_eqv_flip {xs ys : List Value}
    (hs : ∀ x ∈ xs, ∀ y ∈ ys, EqV x y → EqV y x)
    (h : List.Forall₂ EqV xs ys) : List.Forall₂ EqV ys xs := by
  induction h with
  | nil => exact .nil
  | @cons x y xs2 ys2 hxy _ ih =>
    refine .cons (hs x (List.mem_cons_self _ _) y (List.mem_cons_self _ _) hxy) ?_
    exact ih fun x2 hx2 y2 hy2 =>
      hs x2 (List.mem_cons_of_mem _ hx2) y2 (List.mem_cons_of_mem _ hy2)

theorem forall2_eqv_trans {xs ys zs : List Value}
    (hc : ∀ x ∈ xs, ∀ y ∈ ys, ∀ z ∈ zs, EqV x y → EqV y z → EqV x z)
    (h12 : List.Forall₂ EqV xs ys) (h23 : List.Forall₂ EqV ys zs) :
    List.Forall₂ EqV xs zs := by
  induction h12 generalizing zs with
  | nil =>
    cases h23
    exact .nil
  | @cons x y xs2 ys2 hxy _ ih =>
    cases h23 with
    | @cons _ z _ zs2 hyz htail =>
      refine .cons
        (hc x (List.mem_cons_self _ _) y (List.mem_cons_self _ _) z
          (List.mem_cons_self _ _) hxy hyz) ?_
      exact ih
        (fun x2 hx2 y2 hy2 z2 hz2 => hc x2 (List.mem_cons_of_mem _ hx2) y2
          (List.mem_cons_of_mem _ hy2) z2 (List.mem_cons_of_mem _ hz2))
        htail

/-- A list relating injectively into another is no longer than it: each
element of `l1` has a partner in `l2` and no two elements of `l1` share a
partner. -/
theorem length_le_of_rel {α β : Type} {R : α → β → Prop} :
    ∀ {l1 : List α} {l2 : List β},
    (∀ x ∈ l1, ∃ y ∈ l2, R x y) →
    List.Pairwise (fun x x2 => ∀ y, R x y → ¬ R x2 y) l1 →
    l1.length ≤ l2.length := by
  intro l1
  induction l1 with
  | nil => simp
  | cons x xs ih =>
    intro l2 hsub hpw
    obtain ⟨y, hy, hRxy⟩ := hsub x (List.mem_cons_self _ _)
    obtain ⟨s, t, rfl⟩ := List.append_of_mem hy
    have hpc := List.pairwise_cons.mp hpw
    have hsub2 : ∀ x2 ∈ xs, ∃ y2 ∈ s ++ t, R x2 y2 := by
      intro x2 hx2
      obtain ⟨y2, hy2, hR2⟩ := hsub x2 (List.mem_cons_of_mem _ hx2)
      refine ⟨y2, ?_, hR2⟩
      rcases List.mem_append.mp hy2 with h | h
      · exact List.mem_append.mpr (Or.inl h)
      · rcases List.mem_cons.mp h with rfl | h2
        · exact absurd hR2 (hpc.1 x2 hx2 y2 hRxy)
        · exact List.mem_append.mpr (Or.inr h2)
    have := ih hsub2 hpc.2
    simp only [List.length_cons, List.length_append] at *
    omega

/-- The counting converse: if the injective relation's source is at least
as long as the target, every target element has a source partner. -/
theorem rel_surj {α β : Type} {R : α → β → Prop} {l1 : List α} {l2 : List β}
    (hsub : ∀ x ∈ l1, ∃ y ∈ l2, R x y)
    (hpw : List.Pairwise (fun x x2 => ∀ y, R x y → ¬ R x2 y) l1)
    (hlen : l2.length ≤ l1.length) :
    ∀ y0 ∈ l2, ∃ x ∈ l1, R x y0 := by
  intro y0 hy0
  by_contra hno
  push_neg at hno
  obtain ⟨s, t, rfl⟩ := List.append_of_mem hy0
  have hsub2 : ∀ x ∈ l1, ∃ y ∈ s ++ t, R x y := by
    intro x hx
    obtain ⟨y, hy, hR⟩ := hsub x hx
    refine ⟨y, ?_, hR⟩
    rcases List.mem_append.mp hy with h | h
    · exact List.mem_append.mpr (Or.inl h)
    · rcases List.mem_cons.mp h with rfl | h2
      · exact absurd hR (hno x hx)
      · exact List.mem_append.mpr (Or.inr h2)
  have := length_le_of_rel hsub2 hpw
  simp only [List.length_append, List.length_cons] at *
  omega

/-! The equivalence-relation properties of canonical equality on
materialized values, established by strong induction on rank.  `VP n`
bundles totality, symmetry, transitivity and reflexivity for values of
rank at most `n`. -/

def VeqTotal (n : Nat) : Prop :=
  ∀ a b, Mat a = true → Mat b = true → max (rank a) (rank b) ≤ n →
    ∃ r, veq a b = .ok r

def VeqSymmT (n : Nat) : Prop :=
  ∀ a b, Mat a = true → Mat b = true → max (rank a) (rank b) ≤ n →
    veq a b = .ok true → veq b a = .ok true

def VeqTrans (n : Nat) : Prop :=
  ∀ a b c, Mat a = true → Mat b = true → Mat c = true →
    max (max (rank a) (rank b)) (rank c) ≤ n →
    veq a b = .ok true → veq b c = .ok true → veq a c = .ok true

def VeqRefl (n : Nat) : Prop :=
  ∀ a, Mat a = true → rank a ≤ n → veq a a = .ok true

def VP (n : Nat) : Prop := VeqTotal n ∧ VeqSymmT n ∧ VeqTrans n ∧ VeqRefl n

theorem vpe_total {n : Nat} (ih : ∀ m, m < n → VP m) {x y : Value}
    (hx : Mat x = true) (hy : Mat y = true) (hb : max (rank x) (rank y) < n) :
    ∃ r, veq x y = .ok r :=
  (ih _ hb).1 x y hx hy le_rfl

theorem vpe_symm {n : Nat} (ih : ∀ m, m < n → VP m) {x y : Value}
    (hx : Mat x = true) (hy : Mat y = true) (hb : max (rank x) (rank y) < n)
    (h : veq x y = .ok true) : veq y x = .ok true :=
  (ih _ hb).2.1 x y hx hy le_rfl h

theorem vpe_trans {n : Nat} (ih : ∀ m, m < n → VP m) {x y z : Value}
    (hx : Mat x = true) (hy : Mat y = true) (hz : Mat z = true)
    (hb : max (max (rank x) (rank y)) (rank z) < n)
    (h1 : veq x y = .ok true) (h2 : veq y z = .ok true) :
    veq x z = .ok true :=
  (ih _ hb).2.2.1 x y z hx hy hz le_rfl h1 h2

theorem vpe_refl {n : Nat} (ih : ∀ m, m < n → VP m) {x : Value}
    (hx : Mat x = true) (hb : rank x < n) : veq x x = .ok true :=
  (ih _ hb).2.2.2 x hx le_rfl

theorem vpe_symm_res {n : Nat} (ih : ∀ m, m < n → VP m) {x y : Value}
    {r : Bool} (hx : Mat x = true) (hy : Mat y = true)
    (hb : max (rank x) (rank y) < n) (h : veq x y = .ok r) :
    veq y x = .ok r := by
  have hb2 : max (rank y) (rank x) < n := by rw [max_comm]; exact hb
  cases r with
  | true => exact vpe_symm ih hx hy hb h
  | false =>
    obtain ⟨r2, hr2⟩ := vpe_total ih hy hx hb2
    cases r2 with
    | false => exact hr2
    | true =>
      rw [vpe_symm ih hy hx hb2 hr2] at h
      cases h

/-- Under the key-dedup invariant of the target entry list, at most one
entry's key matches any probe key. -/
theorem mapKey_uniq {n : Nat} (ih : ∀ m, m < n → VP m) {k : Value}
    {b : List (Value × Value)} (hmk : Mat k = true) (hmb : MatPairs b = true)
    (hnd : ndKeysP b = true) (hk : rank k < n) (hb : maxRP b < n) :
    List.Pairwise (fun q q2 => veq k q.1 = .ok true → veq k q2.1 = .ok false) b := by
  refine (ndKeysP_pairwise.mp hnd).imp_of_mem ?_
  intro q q2 hq hq2 hkk hkq
  have hmq1 := (matPairs_iff.mp hmb q hq).1
  have hmq2 := (matPairs_iff.mp hmb q2 hq2).1
  have hb1 : rank q.1 ≤ maxRP b := (rank_le_maxRP hq).1
  have hb2 : rank q2.1 ≤ maxRP b := (rank_le_maxRP hq2).1
  obtain ⟨r, hr⟩ := vpe_total ih hmk hmq2
    (max_lt_iff.mpr ⟨hk, lt_of_le_of_lt hb2 hb⟩)
  cases r with
  | false => exact hr
  | true =>
    have h1 : veq q.1 k = .ok true := vpe_symm ih hmk hmq1
      (max_lt_iff.mpr ⟨hk, lt_of_le_of_lt hb1 hb⟩) hkq
    have h2 : veq q.1 q2.1 = .ok true := vpe_trans ih hmq1 hmk hmq2
      (max_lt_iff.mpr ⟨max_lt_iff.mpr ⟨lt_of_le_of_lt hb1 hb, hk⟩,
        lt_of_le_of_lt hb2 hb⟩) h1 hr
    rw [hkk] at h2
    cases h2

/-- Full characterization of persistent-set equality on materialized,
bounded-rank element lists. -/
theorem setEqR_full {n : Nat} (ih : ∀ m, m < n → VP m) {xs ys : List Value}
    (hmx : MatList xs = true) (hmy : MatList ys = true)
    (hx : maxR xs < n) (hy : maxR ys < n) :
    ∃ r, setEqR xs ys = .ok r ∧
      (r = true ↔ xs.length = ys.length ∧ SubV xs ys) := by
  have htot : ∀ x ∈ xs, ∀ y ∈ ys, ∃ r, veq x y = .ok r := by
    intro x hxm y hym
    exact vpe_total ih (matList_iff.mp hmx x hxm) (matList_iff.mp hmy y hym)
      (max_lt_iff.mpr ⟨lt_of_le_of_lt (rank_le_maxR hxm) hx,
        lt_of_le_of_lt (rank_le_maxR hym) hy⟩)
  rw [setEqR_def]
  by_cases hlen : xs.length = ys.length
  · rw [if_pos hlen]
    obtain ⟨r, hr, hiff⟩ := allInR_char htot
    exact ⟨r, hr, by rw [hiff, SubV]; tauto⟩
  · rw [if_neg hlen]
    exact ⟨false, rfl, by simp [hlen]⟩

/-- Full characterization of persistent-vector equality on materialized,
bounded-rank element lists. -/
theorem veqVec_full {n : Nat} (ih : ∀ m, m < n → VP m) {xs ys : List Value}
    (hmx : MatList xs = true) (hmy : MatList ys = true)
    (hx : maxR xs < n) (hy : maxR ys < n) :
    ∃ r, veqVec xs ys = .ok r ∧
      (r = true ↔ List.Forall₂ EqV xs ys) := by
  rw [veqVec_def]
  by_cases hlen : xs.length = ys.length
  · rw [if_pos hlen]
    have htot : ∀ p ∈ xs.zip ys, ∃ r, veq p.1 p.2 = .ok r := by
      intro p hp
      have hmem := List.of_mem_zip hp
      exact vpe_total ih (matList_iff.mp hmx p.1 hmem.1)
        (matList_iff.mp hmy p.2 hmem.2)
        (max_lt_iff.mpr ⟨lt_of_le_of_lt (rank_le_maxR hmem.1) hx,
          lt_of_le_of_lt (rank_le_maxR hmem.2) hy⟩)
    exact veqZip_char hlen htot
  · rw [if_neg hlen]
    refine ⟨false, rfl, ?_⟩
    constructor
    · intro h
      cases h
    · intro h
      exact absurd (List.Forall₂.length_eq h) hlen

/-- Full characterization of record equality on materialized,
bounded-rank field lists. -/
theorem recEqR_full {n : Nat} (ih : ∀ m, m < n → VP m)
    {fs gs : List (String × Value)}
    (hmf : MatFields fs = true) (hmg : MatFields gs = true)
    (hf : maxRS fs < n) (hg : maxRS gs < n) :
    ∃ r, recEqR fs gs = .ok r ∧
      (r = true ↔ fs.length = gs.length ∧
        ∀ q ∈ fs, ∃ v2, recLookup q.1 gs = some v2 ∧ veq q.2 v2 = .ok true) := by
  have htot : ∀ q ∈ fs, ∀ v2, recLookup q.1 gs = some v2 → ∃ r, veq q.2 v2 = .ok r := by
    intro q hq v2 hv2
    exact vpe_total ih (matFields_iff.mp hmf q hq)
      (matFields_iff.mp hmg (q.1, v2) (recLookup_mem hv2))
      (max_lt_iff.mpr ⟨lt_of_le_of_lt (rank_le_maxRS hq) hf,
        lt_of_le_of_lt (recLookup_rank hv2) hg⟩)
  rw [recEqR_def]
  by_cases hlen : fs.length = gs.length
  · rw [if_pos hlen]
    obtain ⟨r, hr, hiff⟩ := recAllR_char htot
    exact ⟨r, hr, by rw [hiff]; tauto⟩
  · rw [if_neg hlen]
    exact ⟨false, rfl, by simp [hlen]⟩

/-- Full characterization of map equality on materialized entry lists
whose target satisfies the key-dedup invariant. -/
theorem mapEqR_full {n : Nat} (ih : ∀ m, m < n → VP m)
    {ps qs : List (Value × Value)}
    (hmp : MatPairs ps = true) (hmq : MatPairs qs = true)
    (hndq : ndKeysP qs = true) (hp : maxRP ps < n) (hq : maxRP qs < n) :
    ∃ r, mapEqR ps qs = .ok r ∧
      (r = true ↔ ps.length = qs.length ∧
        ∀ p ∈ ps, ∃ q ∈ qs, veq p.1 q.1 = .ok true ∧ veq p.2 q.2 = .ok true) := by
  have hent : ∀ p ∈ ps, ∃ r, mapLookupR p.1 p.2 qs = .ok r ∧
      (r = true ↔ ∃ q ∈ qs, veq p.1 q.1 = .ok true ∧ veq p.2 q.2 = .ok true) := by
    intro p hpm
    have hmp1 := (matPairs_iff.mp hmp p hpm).1
    have hmp2 := (matPairs_iff.mp hmp p hpm).2
    have hbp1 : rank p.1 ≤ maxRP ps := (rank_le_maxRP hpm).1
    have hbp2 : rank p.2 ≤ maxRP ps := (rank_le_maxRP hpm).2
    refine mapLookupR_char ?_ ?_
      (mapKey_uniq ih hmp1 hmq hndq (lt_of_le_of_lt hbp1 hp) hq)
    · intro q hqm
      exact vpe_total ih hmp1 (matPairs_iff.mp hmq q hqm).1
        (max_lt_iff.mpr ⟨lt_of_le_of_lt hbp1 hp,
          lt_of_le_of_lt (rank_le_maxRP hqm).1 hq⟩)
    · intro q hqm _
      exact vpe_total ih hmp2 (matPairs_iff.mp hmq q hqm).2
        (max_lt_iff.mpr ⟨lt_of_le_of_lt hbp2 hp,
          lt_of_le_of_lt (rank_le_maxRP hqm).2 hq⟩)
  rw [mapEqR_def]
  by_cases hlen : ps.length = qs.length
  · rw [if_pos hlen]
    obtain ⟨r, hr, hiff⟩ := mapAllR_char hent
    exact ⟨r, hr, by rw [hiff]; tauto⟩
  · rw [if_neg hlen]
    exact ⟨false, rfl, by simp [hlen]⟩

theorem discr_inv_int {c : Value} (h : discrIdx c = 0) : ∃ m, c = .int m := by
  cases c <;> first | exact ⟨_, rfl⟩ | (simp [discrIdx] at h)

theorem discr_inv_bool {c : Value} (h : discrIdx c = 1) : ∃ x, c = .bool x := by
  cases c <;> first | exact ⟨_, rfl⟩ | (simp [discrIdx] at h)

theorem discr_inv_str {c : Value} (h : discrIdx c = 2) : ∃ s, c = .str s := by
  cases c <;> first | exact ⟨_, rfl⟩ | (simp [discrIdx] at h)

theorem discr_inv_set {c : Value} (h : discrIdx c = 3) : ∃ zs, c = .set zs := by
  cases c <;> first | exact ⟨_, rfl⟩ | (simp [discrIdx] at h)

theorem discr_inv_tuple {c : Value} (h : discrIdx c = 4) : ∃ zs, c = .tuple zs := by
  cases c <;> first | exact ⟨_, rfl⟩ | (simp [discrIdx] at h)

theorem discr_inv_record {c : Value} (h : discrIdx c = 5) :
    ∃ hs, c = .record hs := by
  cases c <;> first | exact ⟨_, rfl⟩ | (simp [discrIdx] at h)

theorem discr_inv_map {c : Value} (h : discrIdx c = 6) : ∃ rs, c = .map rs := by
  cases c <;> first | exact ⟨_, rfl⟩ | (simp [discrIdx] at h)

theorem discr_inv_list {c : Value} (h : discrIdx c = 7) : ∃ zs, c = .list zs := by
  cases c <;> first | exact ⟨_, rfl⟩ | (simp [discrIdx] at h)

theorem discr_inv_variant {c : Value} (h : discrIdx c = 9) :
    ∃ s v, c = .variant s v := by
  cases c <;> first | exact ⟨_, _, rfl⟩ | (simp [discrIdx] at h)

theorem vp_total {n : Nat} (ih : ∀ m, m < n → VP m) : VeqTotal n := by
  intro a b hma hmb hle
  have hA : rank a ≤ n := le_trans (le_max_left _ _) hle
  have hB : rank b ≤ n := le_trans (le_max_right _ _) hle
  by_cases hd : discrIdx a = discrIdx b
  · cases a <;> cases b <;> try (simp [discrIdx] at hd; done)
    all_goals try (rw [Mat.eq_def] at hma; simp at hma; done)
    case pos.int.int x y => exact ⟨_, veq_int⟩
    case pos.bool.bool x y => exact ⟨_, veq_bool⟩
    case pos.str.str x y => exact ⟨_, veq_str⟩
    case pos.set.set xs ys =>
      simp only [rank] at hA hB
      rw [veq_set]
      exact (setEqR_full ih (mat_set_iff.mp hma).1 (mat_set_iff.mp hmb).1
        (by omega) (by omega)).imp (fun r hr => hr.1)
    case pos.tuple.tuple xs ys =>
      simp only [rank] at hA hB
      rw [veq_tuple]
      exact (veqVec_full ih (mat_tuple_iff.mp hma) (mat_tuple_iff.mp hmb)
        (by omega) (by omega)).imp (fun r hr => hr.1)
    case pos.record.record fs gs =>
      simp only [rank] at hA hB
      rw [veq_record]
      exact (recEqR_full ih (mat_record_iff.mp hma).1 (mat_record_iff.mp hmb).1
        (by omega) (by omega)).imp (fun r hr => hr.1)
    case pos.map.map ps qs =>
      simp only [rank] at hA hB
      rw [veq_map]
      exact (mapEqR_full ih (mat_map_iff.mp hma).1 (mat_map_iff.mp hmb).1
        (mat_map_iff.mp hmb).2 (by omega) (by omega)).imp (fun r hr => hr.1)
    case pos.list.list xs ys =>
      simp only [rank] at hA hB
      rw [veq_list]
      exact (veqVec_full ih (mat_list_iff.mp hma) (mat_list_iff.mp hmb)
        (by omega) (by omega)).imp (fun r hr => hr.1)
    case pos.variant.variant la va lb vb =>
      simp only [rank] at hA hB
      rw [veq_variant]
      by_cases hlab : la = lb
      · rw [if_pos hlab]
        exact vpe_total ih (mat_variant_iff.mp hma) (mat_variant_iff.mp hmb)
          (max_lt_iff.mpr ⟨by omega, by omega⟩)
      · rw [if_neg hlab]
        exact ⟨false, rfl⟩
  · exact ⟨false, veq_mat_ne_kind hma hmb hd⟩

theorem vp_symm {n : Nat} (ih : ∀ m, m < n → VP m) : VeqSymmT n := by
  intro a b hma hmb hle h
  have hA : rank a ≤ n := le_trans (le_max_left _ _) hle
  have hB : rank b ≤ n := le_trans (le_max_right _ _) hle
  have hd : discrIdx a = discrIdx b := veq_true_same_kind hma hmb h
  cases a <;> cases b <;> try (simp [discrIdx] at hd; done)
  all_goals try (rw [Mat.eq_def] at hma; simp at hma; done)
  case int.int x y =>
    rw [veq_int] at h
    rw [veq_int]
    simp only [Res.ok.injEq, beq_iff_eq] at h ⊢
    exact h.symm
  case bool.bool x y =>
    rw [veq_bool] at h
    rw [veq_bool]
    simp only [Res.ok.injEq, beq_iff_eq] at h ⊢
    exact h.symm
  case str.str x y =>
    rw [veq_str] at h
    rw [veq_str]
    simp only [Res.ok.injEq, beq_iff_eq] at h ⊢
    exact h.symm
  case set.set xs ys =>
    simp only [rank] at hA hB
    have hmx := mat_set_iff.mp hma
    have hmy := mat_set_iff.mp hmb
    rw [veq_set] at h
    rw [veq_set]
    obtain ⟨r1, hr1, hiff1⟩ := setEqR_full ih hmx.1 hmy.1 (by omega) (by omega)
    rw [hr1] at h
    simp only [Res.ok.injEq] at h
    subst h
    obtain ⟨hlen, hsub⟩ := hiff1.mp rfl
    have hsymmE : ∀ x ∈ xs, ∀ y ∈ ys, EqV x y → EqV y x := by
      intro x hx y hy hxy
      have hrx := rank_le_maxR hx
      have hry := rank_le_maxR hy
      exact vpe_symm ih (matList_iff.mp hmx.1 x hx) (matList_iff.mp hmy.1 y hy)
        (max_lt_iff.mpr ⟨by omega, by omega⟩) hxy
    have hpw : List.Pairwise
        (fun x x2 => ∀ y, (y ∈ ys ∧ EqV x y) → ¬(y ∈ ys ∧ EqV x2 y)) xs := by
      refine (ndB_pairwise.mp hmx.2).imp_of_mem ?_
      intro x x2 hx hx2 hff y hc1 hc2
      obtain ⟨hy, hxy⟩ := hc1
      obtain ⟨_, hx2y⟩ := hc2
      have hrx := rank_le_maxR hx
      have hrx2 := rank_le_maxR hx2
      have hry := rank_le_maxR hy
      have h1 : EqV y x2 := hsymmE x2 hx2 y hy hx2y
      have h2 : veq x x2 = .ok true := vpe_trans ih (matList_iff.mp hmx.1 x hx)
        (matList_iff.mp hmy.1 y hy) (matList_iff.mp hmx.1 x2 hx2)
        (max_lt_iff.mpr ⟨max_lt_iff.mpr ⟨by omega, by omega⟩, by omega⟩) hxy h1
      rw [hff] at h2
      cases h2
    have hsurj := @rel_surj Value Value (fun x y => y ∈ ys ∧ EqV x y) xs ys
      (fun x hx => by
        obtain ⟨y, hy, he⟩ := hsub x hx
        exact ⟨y, hy, hy, he⟩)
      hpw (le_of_eq hlen.symm)
    have hsub2 : SubV ys xs := by
      intro y0 hy0
      obtain ⟨x, hx, _, hxy⟩ := hsurj y0 hy0
      exact ⟨x, hx, hsymmE x hx y0 hy0 hxy⟩
    obtain ⟨r2, hr2, hiff2⟩ := setEqR_full ih hmy.1 hmx.1 (by omega) (by omega)
    have hr2t : r2 = true := hiff2.mpr ⟨hlen.symm, hsub2⟩
    subst hr2t
    exact hr2
  case tuple.tuple xs ys =>
    simp only [rank] at hA hB
    have hmx := mat_tuple_iff.mp hma
    have hmy := mat_tuple_iff.mp hmb
    rw [veq_tuple] at h
    rw [veq_tuple]
    obtain ⟨r1, hr1, hiff1⟩ := veqVec_full ih hmx hmy (by omega) (by omega)
    rw [hr1] at h
    simp only [Res.ok.injEq] at h
    subst h
    have hf := hiff1.mp rfl
    have hsymmE : ∀ x ∈ xs, ∀ y ∈ ys, EqV x y → EqV y x := by
      intro x hx y hy hxy
      have hrx := rank_le_maxR hx
      have hry := rank_le_maxR hy
      exact vpe_symm ih (matList_iff.mp hmx x hx) (matList_iff.mp hmy y hy)
        (max_lt_iff.mpr ⟨by omega, by omega⟩) hxy
    obtain ⟨r2, hr2, hiff2⟩ := veqVec_full ih hmy hmx (by omega) (by omega)
    have hr2t : r2 = true := hiff2.mpr (forall2_eqv_flip hsymmE hf)
    subst hr2t
    exact hr2
  case list.list xs ys =>
    simp only [rank] at hA hB
    have hmx := mat_list_iff.mp hma
    have hmy := mat_list_iff.mp hmb
    rw [veq_list] at h
    rw [veq_list]
    obtain ⟨r1, hr1, hiff1⟩ := veqVec_full ih hmx hmy (by omega) (by omega)
    rw [hr1] at h
    simp only [Res.ok.injEq] at h
    subst h
    have hf := hiff1.mp rfl
    have hsymmE : ∀ x ∈ xs, ∀ y ∈ ys, EqV x y → EqV y x := by
      intro x hx y hy hxy
      have hrx := rank_le_maxR hx
      have hry := rank_le_maxR hy
      exact vpe_symm ih (matList_iff.mp hmx x hx) (matList_iff.mp hmy y hy)
        (max_lt_iff.mpr ⟨by omega, by omega⟩) hxy
    obtain ⟨r2, hr2, hiff2⟩ := veqVec_full ih hmy hmx (by omega) (by omega)
    have hr2t : r2 = true := hiff2.mpr (forall2_eqv_flip hsymmE hf)
    subst hr2t
    exact hr2
  case record.record fs gs =>
    simp only [rank] at hA hB
    have hmf := mat_record_iff.mp hma
    have hmg := mat_record_iff.mp hmb
    rw [veq_record] at h
    rw [veq_record]
    obtain ⟨r1, hr1, hiff1⟩ := recEqR_full ih hmf.1 hmg.1 (by omega) (by omega)
    rw [hr1] at h
    simp only [Res.ok.injEq] at h
    subst h
    obtain ⟨hlen, hfwd⟩ := hiff1.mp rfl
    have hpw : List.Pairwise (fun p p2 => ∀ q,
        (q ∈ gs ∧ p.1 = q.1 ∧ EqV p.2 q.2) →
        ¬(q ∈ gs ∧ p2.1 = q.1 ∧ EqV p2.2 q.2)) fs := by
      refine (ndKeysS_pairwise.mp hmf.2).imp_of_mem ?_
      intro p p2 hp hp2 hne q hc1 hc2
      exact hne (hc2.2.1.trans hc1.2.1.symm)
    have hsurj := @rel_surj (String × Value) (String × Value)
      (fun p q => q ∈ gs ∧ p.1 = q.1 ∧ EqV p.2 q.2) fs gs
      (fun p hp => by
        obtain ⟨v2, hv2, he⟩ := hfwd p hp
        exact ⟨(p.1, v2), recLookup_mem hv2, recLookup_mem hv2, rfl, he⟩)
      hpw (le_of_eq hlen.symm)
    obtain ⟨r2, hr2, hiff2⟩ := recEqR_full ih hmg.1 hmf.1 (by omega) (by omega)
    have hr2t : r2 = true := by
      refine hiff2.mpr ⟨hlen.symm, ?_⟩
      intro q hq
      obtain ⟨p, hp, _, hk, he⟩ := hsurj q hq
      obtain ⟨pk, pv⟩ := p
      obtain ⟨qk, qv⟩ := q
      simp only at hk he ⊢
      subst hk
      refine ⟨pv, recLookup_of_mem hmf.2 hp, ?_⟩
      have hrq : rank qv ≤ maxRS gs := rank_le_maxRS hq
      have hrp : rank pv ≤ maxRS fs := rank_le_maxRS hp
      exact vpe_symm ih (matFields_iff.mp hmf.1 (pk, pv) hp)
        (matFields_iff.mp hmg.1 (pk, qv) hq)
        (max_lt_iff.mpr ⟨by omega, by omega⟩) he
    subst hr2t
    exact hr2
  case map.map ps qs =>
    simp only [rank] at hA hB
    have hmp := mat_map_iff.mp hma
    have hmq := mat_map_iff.mp hmb
    rw [veq_map] at h
    rw [veq_map]
    obtain ⟨r1, hr1, hiff1⟩ := mapEqR_full ih hmp.1 hmq.1 hmq.2 (by omega) (by omega)
    rw [hr1] at h
    simp only [Res.ok.injEq] at h
    subst h
    obtain ⟨hlen, hfwd⟩ := hiff1.mp rfl
    have hsymK : ∀ p ∈ ps, ∀ q ∈ qs, EqV p.1 q.1 → EqV q.1 p.1 := by
      intro p hp q hq he
      have h1 := (rank_le_maxRP hp).1
      have h2 := (rank_le_maxRP hq).1
      exact vpe_symm ih (matPairs_iff.mp hmp.1 p hp).1 (matPairs_iff.mp hmq.1 q hq).1
        (max_lt_iff.mpr ⟨by omega, by omega⟩) he
    have hsymV : ∀ p ∈ ps, ∀ q ∈ qs, EqV p.2 q.2 → EqV q.2 p.2 := by
      intro p hp q hq he
      have h1 := (rank_le_maxRP hp).2
      have h2 := (rank_le_maxRP hq).2
      exact vpe_symm ih (matPairs_iff.mp hmp.1 p hp).2 (matPairs_iff.mp hmq.1 q hq).2
        (max_lt_iff.mpr ⟨by omega, by omega⟩) he
    have hpw : List.Pairwise (fun p p2 => ∀ q,
        (q ∈ qs ∧ EqV p.1 q.1 ∧ EqV p.2 q.2) →
        ¬(q ∈ qs ∧ EqV p2.1 q.1 ∧ EqV p2.2 q.2)) ps := by
      refine (ndKeysP_pairwise.mp hmp.2).imp_of_mem ?_
      intro p p2 hp hp2 hff q hc1 hc2
      obtain ⟨hq, hk1, _⟩ := hc1
      obtain ⟨_, hk2, _⟩ := hc2
      have h1 := (rank_le_maxRP hp).1
      have h2 := (rank_le_maxRP hp2).1
      have h3 := (rank_le_maxRP hq).1
      have hq1 : EqV q.1 p2.1 := hsymK p2 hp2 q hq hk2
      have hcontra : veq p.1 p2.1 = .ok true := vpe_trans ih
        (matPairs_iff.mp hmp.1 p hp).1
        (matPairs_iff.mp hmq.1 q hq).1 (matPairs_iff.mp hmp.1 p2 hp2).1
        (max_lt_iff.mpr ⟨max_lt_iff.mpr ⟨by omega, by omega⟩, by omega⟩) hk1 hq1
      rw [hff] at hcontra
      cases hcontra
    have hsurj := @rel_surj (Value × Value) (Value × Value)
      (fun p q => q ∈ qs ∧ EqV p.1 q.1 ∧ EqV p.2 q.2) ps qs
      (fun p hp => by
        obtain ⟨q, hq, he1, he2⟩ := hfwd p hp
        exact ⟨q, hq, hq, he1, he2⟩)
      hpw (le_of_eq hlen.symm)
    obtain ⟨r2, hr2, hiff2⟩ := mapEqR_full ih hmq.1 hmp.1 hmp.2 (by omega) (by omega)
    have hr2t : r2 = true := by
      refine hiff2.mpr ⟨hlen.symm, ?_⟩
      intro q hq
      obtain ⟨p, hp, _, hk, hv⟩ := hsurj q hq
      exact ⟨p, hp, hsymK p hp q hq hk, hsymV p hp q hq hv⟩
    subst hr2t
    exact hr2
  case variant.variant la va lb vb =>
    simp only [rank] at hA hB
    rw [veq_variant] at h
    by_cases hlab : la = lb
    · rw [if_pos hlab] at h
      subst hlab
      rw [veq_variant, if_pos rfl]
      exact vpe_symm ih (mat_variant_iff.mp hma) (mat_variant_iff.mp hmb)
        (max_lt_iff.mpr ⟨by omega, by omega⟩) h
    · rw [if_neg hlab] at h
      cases h

theorem vp_trans {n : Nat} (ih : ∀ m, m < n → VP m) : VeqTrans n := by
  intro a b c hma hmb hmc hle h1 h2
  have hA : rank a ≤ n := le_trans (le_max_left _ _) (le_trans (le_max_left _ _) hle)
  have hB : rank b ≤ n := le_trans (le_max_right _ _) (le_trans (le_max_left _ _) hle)
  have hC : rank c ≤ n := le_trans (le_max_right _ _) hle
  have hd1 : discrIdx a = discrIdx b := veq_true_same_kind hma hmb h1
  have hd2 : discrIdx b = discrIdx c := veq_true_same_kind hmb hmc h2
  cases a <;> cases b <;> try (simp [discrIdx] at hd1; done)
  all_goals try (rw [Mat.eq_def] at hma; simp at hma; done)
  case int.int x y =>
    obtain ⟨z, rfl⟩ := discr_inv_int (by simp [discrIdx] at hd2; exact hd2.symm)
    rw [veq_int] at h1 h2
    rw [veq_int]
    simp only [Res.ok.injEq, beq_iff_eq] at h1 h2 ⊢
    omega
  case bool.bool x y =>
    obtain ⟨z, rfl⟩ := discr_inv_bool (by simp [discrIdx] at hd2; exact hd2.symm)
    rw [veq_bool] at h1 h2
    rw [veq_bool]
    simp only [Res.ok.injEq, beq_iff_eq] at h1 h2 ⊢
    exact h1.trans h2
  case str.str x y =>
    obtain ⟨z, rfl⟩ := discr_inv_str (by simp [discrIdx] at hd2; exact hd2.symm)
    rw [veq_str] at h1 h2
    rw [veq_str]
    simp only [Res.ok.injEq, beq_iff_eq] at h1 h2 ⊢
    exact h1.trans h2
  case set.set xs ys =>
    obtain ⟨zs, rfl⟩ := discr_inv_set (by simp [discrIdx] at hd2; exact hd2.symm)
    simp only [rank] at hA hB hC
    have hmx := mat_set_iff.mp hma
    have hmy := mat_set_iff.mp hmb
    have hmz := mat_set_iff.mp hmc
    rw [veq_set] at h1 h2
    rw [veq_set]
    obtain ⟨r1, hr1, hiff1⟩ := setEqR_full ih hmx.1 hmy.1 (by omega) (by omega)
    rw [hr1] at h1
    simp only [Res.ok.injEq] at h1
    subst h1
    obtain ⟨hlen1, hsub1⟩ := hiff1.mp rfl
    obtain ⟨r2, hr2, hiff2⟩ := setEqR_full ih hmy.1 hmz.1 (by omega) (by omega)
    rw [hr2] at h2
    simp only [Res.ok.injEq] at h2
    subst h2
    obtain ⟨hlen2, hsub2⟩ := hiff2.mp rfl
    obtain ⟨r3, hr3, hiff3⟩ := setEqR_full ih hmx.1 hmz.1 (by omega) (by omega)
    have hr3t : r3 = true := by
      refine hiff3.mpr ⟨hlen1.trans hlen2, ?_⟩
      intro x hx
      obtain ⟨y, hy, hxy⟩ := hsub1 x hx
      obtain ⟨z, hz, hyz⟩ := hsub2 y hy
      refine ⟨z, hz, ?_⟩
      have b1 := rank_le_maxR hx
      have b2 := rank_le_maxR hy
      have b3 := rank_le_maxR hz
      exact vpe_trans ih (matList_iff.mp hmx.1 x hx) (matList_iff.mp hmy.1 y hy)
        (matList_iff.mp hmz.1 z hz)
        (max_lt_iff.mpr ⟨max_lt_iff.mpr ⟨by omega, by omega⟩, by omega⟩) hxy hyz
    subst hr3t
    exact hr3
  case tuple.tuple xs ys =>
    obtain ⟨zs, rfl⟩ := discr_inv_tuple (by simp [discrIdx] at hd2; exact hd2.symm)
    simp only [rank] at hA hB hC
    have hmx := mat_tuple_iff.mp hma
    have hmy := mat_tuple_iff.mp hmb
    have hmz := mat_tuple_iff.mp hmc
    rw [veq_tuple] at h1 h2
    rw [veq_tuple]
    obtain ⟨r1, hr1, hiff1⟩ := veqVec_full ih hmx hmy (by omega) (by omega)
    rw [hr1] at h1
    simp only [Res.ok.injEq] at h1
    subst h1
    obtain ⟨r2, hr2, hiff2⟩ := veqVec_full ih hmy hmz (by omega) (by omega)
    rw [hr2] at h2
    simp only [Res.ok.injEq] at h2
    subst h2
    obtain ⟨r3, hr3, hiff3⟩ := veqVec_full ih hmx hmz (by omega) (by omega)
    have hcomp : ∀ x ∈ xs, ∀ y ∈ ys, ∀ z ∈ zs, EqV x y → EqV y z → EqV x z := by
      intro x hx y hy z hz hxy hyz
      have b1 := rank_le_maxR hx
      have b2 := rank_le_maxR hy
      have b3 := rank_le_maxR hz
      exact vpe_trans ih (matList_iff.mp hmx x hx) (matList_iff.mp hmy y hy)
        (matList_iff.mp hmz z hz)
        (max_lt_iff.mpr ⟨max_lt_iff.mpr ⟨by omega, by omega⟩, by omega⟩) hxy hyz
    have hr3t : r3 = true := hiff3.mpr
      (forall2_eqv_trans hcomp (hiff1.mp rfl) (hiff2.mp rfl))
    subst hr3t
    exact hr3
  case list.list xs ys =>
    obtain ⟨zs, rfl⟩ := discr_inv_list (by simp [discrIdx] at hd2; exact hd2.symm)
    simp only [rank] at hA hB hC
    have hmx := mat_list_iff.mp hma
    have hmy := mat_list_iff.mp hmb
    have hmz := mat_list_iff.mp hmc
    rw [veq_list] at h1 h2
    rw [veq_list]
    obtain ⟨r1, hr1, hiff1⟩ := veqVec_full ih hmx hmy (by omega) (by omega)
    rw [hr1] at h1
    simp only [Res.ok.injEq] at h1
    subst h1
    obtain ⟨r2, hr2, hiff2⟩ := veqVec_full ih hmy hmz (by omega) (by omega)
    rw [hr2] at h2
    simp only [Res.ok.injEq] at h2
    subst h2
    obtain ⟨r3, hr3, hiff3⟩ := veqVec_full ih hmx hmz (by omega) (by omega)
    have hcomp : ∀ x ∈ xs, ∀ y ∈ ys, ∀ z ∈ zs, EqV x y → EqV y z → EqV x z := by
      intro x hx y hy z hz hxy hyz
      have b1 := rank_le_maxR hx
      have b2 := rank_le_maxR hy
      have b3 := rank_le_maxR hz
      exact vpe_trans ih (matList_iff.mp hmx x hx) (matList_iff.mp hmy y hy)
        (matList_iff.mp hmz z hz)
        (max_lt_iff.mpr ⟨max_lt_iff.mpr ⟨by omega, by omega⟩, by omega⟩) hxy hyz
    have hr3t : r3 = true := hiff3.mpr
      (forall2_eqv_trans hcomp (hiff1.mp rfl) (hiff2.mp rfl))
    subst hr3t
    exact hr3
  case record.record fs gs =>
    obtain ⟨hs, rfl⟩ := discr_inv_record (by simp [discrIdx] at hd2; exact hd2.symm)
    simp only [rank] at hA hB hC
    have hmf := mat_record_iff.mp hma
    have hmg := mat_record_iff.mp hmb
    have hmh := mat_record_iff.mp hmc
    rw [veq_record] at h1 h2
    rw [veq_record]
    obtain ⟨r1, hr1, hiff1⟩ := recEqR_full ih hmf.1 hmg.1 (by omega) (by omega)
    rw [hr1] at h1
    simp only [Res.ok.injEq] at h1
    subst h1
    obtain ⟨hlen1, hfwd1⟩ := hiff1.mp rfl
    obtain ⟨r2, hr2, hiff2⟩ := recEqR_full ih hmg.1 hmh.1 (by omega) (by omega)
    rw [hr2] at h2
    simp only [Res.ok.injEq] at h2
    subst h2
    obtain ⟨hlen2, hfwd2⟩ := hiff2.mp rfl
    obtain ⟨r3, hr3, hiff3⟩ := recEqR_full ih hmf.1 hmh.1 (by omega) (by omega)
    have hr3t : r3 = true := by
      refine hiff3.mpr ⟨hlen1.trans hlen2, ?_⟩
      intro q hq
      obtain ⟨v2, hv2, he2⟩ := hfwd1 q hq
      obtain ⟨v3, hv3, he3⟩ := hfwd2 (q.1, v2) (recLookup_mem hv2)
      refine ⟨v3, hv3, ?_⟩
      have b1 := rank_le_maxRS hq
      have b2 := recLookup_rank hv2
      have b3 := recLookup_rank hv3
      have hmv2 : Mat v2 = true :=
        matFields_iff.mp hmg.1 (q.1, v2) (recLookup_mem hv2)
      have hmv3 : Mat v3 = true :=
        matFields_iff.mp hmh.1 ((q.1, v2).1, v3) (recLookup_mem hv3)
      exact vpe_trans ih (matFields_iff.mp hmf.1 q hq) hmv2 hmv3
        (max_lt_iff.mpr ⟨max_lt_iff.mpr ⟨by omega, by omega⟩, by omega⟩) he2 he3
    subst hr3t
    exact hr3
  case map.map ps qs =>
    obtain ⟨rs, rfl⟩ := discr_inv_map (by simp [discrIdx] at hd2; exact hd2.symm)
    simp only [rank] at hA hB hC
    have hmp := mat_map_iff.mp hma
    have hmq := mat_map_iff.mp hmb
    have hmr := mat_map_iff.mp hmc
    rw [veq_map] at h1 h2
    rw [veq_map]
    obtain ⟨r1, hr1, hiff1⟩ := mapEqR_full ih hmp.1 hmq.1 hmq.2 (by omega) (by omega)
    rw [hr1] at h1
    simp only [Res.ok.injEq] at h1
    subst h1
    obtain ⟨hlen1, hfwd1⟩ := hiff1.mp rfl
    obtain ⟨r2, hr2, hiff2⟩ := mapEqR_full ih hmq.1 hmr.1 hmr.2 (by omega) (by omega)
    rw [hr2] at h2
    simp only [Res.ok.injEq] at h2
    subst h2
    obtain ⟨hlen2, hfwd2⟩ := hiff2.mp rfl
    obtain ⟨r3, hr3, hiff3⟩ := mapEqR_full ih hmp.1 hmr.1 hmr.2 (by omega) (by omega)
    have hr3t : r3 = true := by
      refine hiff3.mpr ⟨hlen1.trans hlen2, ?_⟩
      intro p hp
      obtain ⟨q, hq, hk1, hv1⟩ := hfwd1 p hp
      obtain ⟨t, ht, hk2, hv2⟩ := hfwd2 q hq
      refine ⟨t, ht, ?_, ?_⟩
      · have b1 := (rank_le_maxRP hp).1
        have b2 := (rank_le_maxRP hq).1
        have b3 := (rank_le_maxRP ht).1
        exact vpe_trans ih (matPairs_iff.mp hmp.1 p hp).1
          (matPairs_iff.mp hmq.1 q hq).1 (matPairs_iff.mp hmr.1 t ht).1
          (max_lt_iff.mpr ⟨max_lt_iff.mpr ⟨by omega, by omega⟩, by omega⟩) hk1 hk2
      · have b1 := (rank_le_maxRP hp).2
        have b2 := (rank_le_maxRP hq).2
        have b3 := (rank_le_maxRP ht).2
        exact vpe_trans ih (matPairs_iff.mp hmp.1 p hp).2
          (matPairs_iff.mp hmq.1 q hq).2 (matPairs_iff.mp hmr.1 t ht).2
          (max_lt_iff.mpr ⟨max_lt_iff.mpr ⟨by omega, by omega⟩, by omega⟩) hv1 hv2
    subst hr3t
    exact hr3
  case variant.variant la va lb vb =>
    obtain ⟨lc, vc, rfl⟩ := discr_inv_variant (by simp [discrIdx] at hd2; exact hd2.symm)
    simp only [rank] at hA hB hC
    rw [veq_variant] at h1 h2
    rw [veq_variant]
    by_cases h12 : la = lb
    · rw [if_pos h12] at h1
      by_cases h23 : lb = lc
      · rw [if_pos h23] at h2
        rw [if_pos (h12.trans h23)]
        exact vpe_trans ih (mat_variant_iff.mp hma) (mat_variant_iff.mp hmb)
          (mat_variant_iff.mp hmc)
          (max_lt_iff.mpr ⟨max_lt_iff.mpr ⟨by omega, by omega⟩, by omega⟩) h1 h2
      · rw [if_neg h23] at h2
        cases h2
    · rw [if_neg h12] at h1
      cases h1

theorem vp_refl {n : Nat} (ih : ∀ m, m < n → VP m) : VeqRefl n := by
  intro a hma hA
  cases a
  all_goals try (rw [Mat.eq_def] at hma; simp at hma; done)
  case int x => rw [veq_int]; simp
  case bool x => rw [veq_bool]; simp
  case str x => rw [veq_str]; simp
  case set xs =>
    simp only [rank] at hA
    have hmx := mat_set_iff.mp hma
    rw [veq_set]
    obtain ⟨r, hr, hiff⟩ := setEqR_full ih hmx.1 hmx.1 (by omega) (by omega)
    have hrt : r = true := by
      refine hiff.mpr ⟨rfl, ?_⟩
      intro x hx
      have b1 := rank_le_maxR hx
      exact ⟨x, hx, vpe_refl ih (matList_iff.mp hmx.1 x hx) (by omega)⟩
    subst hrt
    exact hr
  case tuple xs =>
    simp only [rank] at hA
    have hmx := mat_tuple_iff.mp hma
    rw [veq_tuple]
    obtain ⟨r, hr, hiff⟩ := veqVec_full ih hmx hmx (by omega) (by omega)
    have hrt : r = true := by
      refine hiff.mpr (List.forall₂_same.mpr ?_)
      intro x hx
      have b1 := rank_le_maxR hx
      exact vpe_refl ih (matList_iff.mp hmx x hx) (by omega)
    subst hrt
    exact hr
  case list xs =>
    simp only [rank] at hA
    have hmx := mat_list_iff.mp hma
    rw [veq_list]
    obtain ⟨r, hr, hiff⟩ := veqVec_full ih hmx hmx (by omega) (by omega)
    have hrt : r = true := by
      refine hiff.mpr (List.forall₂_same.mpr ?_)
      intro x hx
      have b1 := rank_le_maxR hx
      exact vpe_refl ih (matList_iff.mp hmx x hx) (by omega)
    subst hrt
    exact hr
  case record fs =>
    simp only [rank] at hA
    have hmf := mat_record_iff.mp hma
    rw [veq_record]
    obtain ⟨r, hr, hiff⟩ := recEqR_full ih hmf.1 hmf.1 (by omega) (by omega)
    have hrt : r = true := by
      refine hiff.mpr ⟨rfl, ?_⟩
      intro q hq
      have b1 := rank_le_maxRS hq
      refine ⟨q.2, recLookup_of_mem hmf.2 (by simpa using hq), ?_⟩
      exact vpe_refl ih (matFields_iff.mp hmf.1 q hq) (by omega)
    subst hrt
    exact hr
  case map ps =>
    simp only [rank] at hA
    have hmp := mat_map_iff.mp hma
    rw [veq_map]
    obtain ⟨r, hr, hiff⟩ := mapEqR_full ih hmp.1 hmp.1 hmp.2 (by omega) (by omega)
    have hrt : r = true := by
      refine hiff.mpr ⟨rfl, ?_⟩
      intro q hq
      have b1 := (rank_le_maxRP hq).1
      have b2 := (rank_le_maxRP hq).2
      exact ⟨q, hq, vpe_refl ih (matPairs_iff.mp hmp.1 q hq).1 (by omega),
        vpe_refl ih (matPairs_iff.mp hmp.1 q hq).2 (by omega)⟩
    subst hrt
    exact hr
  case variant s v =>
    simp only [rank] at hA
    rw [veq_variant, if_pos rfl]
    exact vpe_refl ih (mat_variant_iff.mp hma) (by omega)

theorem VP_all : ∀ n, VP n := by
  intro n
  induction n using Nat.strong_induction_on with
  | _ n ih => exact ⟨vp_total ih, vp_symm ih, vp_trans ih, vp_refl ih⟩

/-- Reflexivity of canonical equality on materialized values. -/
theorem veq_refl {a : Value} (ha : Mat a = true) : veq a a = .ok true :=
  (VP_all (rank a)).2.2.2 a ha le_rfl

/-- Symmetry of canonical equality on materialized values. -/
theorem veq_symm {a b : Value} {r : Bool} (ha : Mat a = true)
    (hb : Mat b = true) (h : veq a b = .ok r) : veq b a = .ok r :=
  @vpe_symm_res (max (rank a) (rank b) + 1) (fun m _ => VP_all m) a b r ha hb
    (Nat.lt_succ_self _) h

/-- Transitivity of canonical equality on materialized values. -/
theorem veq_trans {a b c : Value} (ha : Mat a = true) (hb : Mat b = true)
    (hc : Mat c = true) (h1 : veq a b = .ok true) (h2 : veq b c = .ok true) :
    veq a c = .ok true :=
  (VP_all (max (max (rank a) (rank b)) (rank c))).2.2.1 a b c ha hb hc le_rfl h1 h2

/-! Measure-free characterizations, and the counting facts for
deduplicated enumerations. -/

theorem setEqR_ok {l1 l2 : List Value} (hm1 : MatList l1 = true)
    (hm2 : MatList l2 = true) :
    ∃ r, setEqR l1 l2 = .ok r ∧
      (r = true ↔ l1.length = l2.length ∧ SubV l1 l2) :=
  @setEqR_full (max (maxR l1) (maxR l2) + 1) (fun m _ => VP_all m) l1 l2 hm1 hm2
    (Nat.lt_succ_of_le (le_max_left _ _)) (Nat.lt_succ_of_le (le_max_right _ _))

theorem veqVec_ok {l1 l2 : List Value} (hm1 : MatList l1 = true)
    (hm2 : MatList l2 = true) :
    ∃ r, veqVec l1 l2 = .ok r ∧ (r = true ↔ List.Forall₂ EqV l1 l2) :=
  @veqVec_full (max (maxR l1) (maxR l2) + 1) (fun m _ => VP_all m) l1 l2 hm1 hm2
    (Nat.lt_succ_of_le (le_max_left _ _)) (Nat.lt_succ_of_le (le_max_right _ _))

theorem recEqR_ok {fs gs : List (String × Value)} (hm1 : MatFields fs = true)
    (hm2 : MatFields gs = true) :
    ∃ r, recEqR fs gs = .ok r ∧
      (r = true ↔ fs.length = gs.length ∧
        ∀ q ∈ fs, ∃ v2, recLookup q.1 gs = some v2 ∧ veq q.2 v2 = .ok true) :=
  @recEqR_full (max (maxRS fs) (maxRS gs) + 1) (fun m _ => VP_all m) fs gs hm1 hm2
    (Nat.lt_succ_of_le (le_max_left _ _)) (Nat.lt_succ_of_le (le_max_right _ _))

theorem mapEqR_ok {ps qs : List (Value × Value)} (hm1 : MatPairs ps = true)
    (hm2 : MatPairs qs = true) (hnd2 : ndKeysP qs = true) :
    ∃ r, mapEqR ps qs = .ok r ∧
      (r = true ↔ ps.length = qs.length ∧
        ∀ p ∈ ps, ∃ q ∈ qs, veq p.1 q.1 = .ok true ∧ veq p.2 q.2 = .ok true) :=
  @mapEqR_full (max (maxRP ps) (maxRP qs) + 1) (fun m _ => VP_all m) ps qs hm1 hm2
    hnd2 (Nat.lt_succ_of_le (le_max_left _ _)) (Nat.lt_succ_of_le (le_max_right _ _))

theorem memV_of_eqv {x y : Value} {l : List Value} (hx : Mat x = true)
    (hy : Mat y = true) (hml : MatList l = true) (he : EqV x y)
    (hm : MemV y l) : MemV x l := by
  obtain ⟨z, hz, hyz⟩ := hm
  exact ⟨z, hz, veq_trans hx hy (matList_iff.mp hml z hz) he hyz⟩

theorem subV_trans {l1 l2 l3 : List Value} (h1 : MatList l1 = true)
    (h2 : MatList l2 = true) (h3 : MatList l3 = true)
    (hs1 : SubV l1 l2) (hs2 : SubV l2 l3) : SubV l1 l3 := by
  intro x hx
  obtain ⟨y, hy, hxy⟩ := hs1 x hx
  exact memV_of_eqv (matList_iff.mp h1 x hx) (matList_iff.mp h2 y hy) h3 hxy
    (hs2 y hy)

theorem subV_refl {l : List Value} (hm : MatList l = true) : SubV l l :=
  fun x hx => ⟨x, hx, veq_refl (matList_iff.mp hm x hx)⟩

/-- A deduplicated enumeration contained in another is no longer than
it. -/
theorem subV_length_le {l1 l2 : List Value} (hm1 : MatList l1 = true)
    (hm2 : MatList l2 = true) (hnd1 : ndB l1 = true) (hsub : SubV l1 l2) :
    l1.length ≤ l2.length := by
  refine @length_le_of_rel Value Value (fun x y => y ∈ l2 ∧ EqV x y) l1 l2
    (fun x hx => by
      obtain ⟨y, hy, he⟩ := hsub x hx
      exact ⟨y, hy, hy, he⟩) ?_
  refine (ndB_pairwise.mp hnd1).imp_of_mem ?_
  intro x x2 hx hx2 hff y hc1 hc2
  obtain ⟨hy, hxy⟩ := hc1
  obtain ⟨_, hx2y⟩ := hc2
  have hmy := matList_iff.mp hm2 y hy
  have h1 : EqV y x2 := veq_symm (matList_iff.mp hm1 x2 hx2) hmy hx2y
  have h2 : veq x x2 = .ok true := veq_trans (matList_iff.mp hm1 x hx) hmy
    (matList_iff.mp hm1 x2 hx2) hxy h1
  rw [hff] at h2
  cases h2

/-- The counting converse on deduplicated enumerations: a containment
between lists of equal length is mutual. -/
theorem subV_flip_of_length {l1 l2 : List Value} (hm1 : MatList l1 = true)
    (hm2 : MatList l2 = true) (hnd1 : ndB l1 = true)
    (hlen : l2.length ≤ l1.length) (hsub : SubV l1 l2) : SubV l2 l1 := by
  have hsurj := @rel_surj Value Value (fun x y => y ∈ l2 ∧ EqV x y) l1 l2
    (fun x hx => by
      obtain ⟨y, hy, he⟩ := hsub x hx
      exact ⟨y, hy, hy, he⟩)
    (by
      refine (ndB_pairwise.mp hnd1).imp_of_mem ?_
      intro x x2 hx hx2 hff y hc1 hc2
      obtain ⟨hy, hxy⟩ := hc1
      obtain ⟨_, hx2y⟩ := hc2
      have hmy := matList_iff.mp hm2 y hy
      have h1 : EqV y x2 := veq_symm (matList_iff.mp hm1 x2 hx2) hmy hx2y
      have h2 : veq x x2 = .ok true := veq_trans (matList_iff.mp hm1 x hx) hmy
        (matList_iff.mp hm1 x2 hx2) hxy h1
      rw [hff] at h2
      cases h2)
    hlen
  intro y hy
  obtain ⟨x, hx, _, hxy⟩ := hsurj y hy
  exact ⟨x, hx, veq_symm (matList_iff.mp hm1 x hx) (matList_iff.mp hm2 y hy) hxy⟩

/-- Persistent-set equality agrees with mutual enumerated containment on
deduplicated materialized element lists. -/
theorem setEqR_iff {l1 l2 : List Value} (hm1 : MatList l1 = true)
    (hm2 : MatList l2 = true) (hnd1 : ndB l1 = true) (hnd2 : ndB l2 = true) :
    ∃ r, setEqR l1 l2 = .ok r ∧ (r = true ↔ SubV l1 l2 ∧ SubV l2 l1) := by
  obtain ⟨r, hr, hiff⟩ := setEqR_ok hm1 hm2
  refine ⟨r, hr, ?_⟩
  rw [hiff]
  constructor
  · rintro ⟨hlen, hsub⟩
    exact ⟨hsub, subV_flip_of_length hm1 hm2 hnd1 (le_of_eq hlen.symm) hsub⟩
  · rintro ⟨hsub, hsub2⟩
    exact ⟨le_antisymm (subV_length_le hm1 hm2 hnd1 hsub)
      (subV_length_le hm2 hm1 hnd2 hsub2), hsub⟩

theorem ndB_get_ne {l : List Value} (hm : MatList l = true) (hnd : ndB l = true)
    {s t : Nat} (hs : s < l.length) (ht : t < l.length) (hne : s ≠ t) :
    veq (l.get ⟨s, hs⟩) (l.get ⟨t, ht⟩) = .ok false := by
  have hpw := List.pairwise_iff_get.mp (ndB_pairwise.mp hnd)
  rcases Nat.lt_or_ge s t with h | h
  · exact hpw ⟨s, hs⟩ ⟨t, ht⟩ h
  · have hts : t < s := by omega
    exact veq_symm (matList_iff.mp hm _ (l.get_mem _ _))
      (matList_iff.mp hm _ (l.get_mem _ _)) (hpw ⟨t, ht⟩ ⟨s, hs⟩ hts)

/-! Per-arm equations of `cardinality`, `as_set` and the well-formedness
predicate, and combinatorial facts about the enumeration builders. -/

theorem cardinality_set {xs : List Value} :
    cardinality (.set xs) = .ok xs.length := by
  rw [cardinality.eq_def]

theorem cardinality_interval {lo hi : Int} :
    cardinality (.interval lo hi) =
      if 0 ≤ hi - lo + 1 then .ok (hi - lo + 1).toNat else .err .conversion := by
  rw [cardinality.eq_def]

theorem cardinality_cross {ms : List Value} :
    cardinality (.crossProduct ms) = cardProd ms 1 := by
  rw [cardinality.eq_def]

theorem cardinality_power {b : Value} :
    cardinality (.powerSet b) =
      match cardinality b with
      | .ok n => .ok (2 ^ n)
      | .err f => .err f := by
  rw [cardinality.eq_def]

theorem cardinality_mapset {d r : Value} :
    cardinality (.mapSet d r) =
      match cardinality r with
      | .ok nr =>
        match cardinality d with
        | .ok nd => .ok (nr ^ nd)
        | .err f => .err f
      | .err f => .err f := by
  rw [cardinality.eq_def]

theorem cardProd_nil {acc : Nat} : cardProd [] acc = .ok acc := by
  rw [cardProd.eq_def]

theorem cardProd_cons {m : Value} {ms : List Value} {acc : Nat} :
    cardProd (m :: ms) acc =
      match cardinality m with
      | .ok n => cardProd ms (acc * n)
      | .err f => .err f := by
  rw [cardProd.eq_def]

theorem as_set_set {xs : List Value} : as_set (.set xs) = .ok xs := by
  rw [as_set.eq_def]

theorem as_set_interval {lo hi : Int} :
    as_set (.interval lo hi) = .ok (intRange lo hi) := by
  rw [as_set.eq_def]

theorem as_set_cross {ms : List Value} :
    as_set (.crossProduct ms) =
      match cardinality (.crossProduct ms) with
      | .err f => .err f
      | .ok n =>
        if n = 0 then .ok []
        else
          match asSetList ms with
          | .err f => .err f
          | .ok ls => .ok ((multiCartesian ls).map Value.tuple) := by
  rw [as_set.eq_def]

theorem multiCartesian_ne {ls : List (List Value)} (h : ls ≠ []) :
    multiCartesian ls = productLists ls := by
  unfold multiCartesian
  rw [if_neg (by simpa [List.isEmpty_iff] using h)]

theorem asSetList_ne_nil {ms : List Value} {ls : List (List Value)}
    (hf : List.Forall₂ (fun m l => as_set m = .ok l) ms ls) (h : ms ≠ []) :
    ls ≠ [] := by
  intro h2
  subst h2
  cases hf
  exact h rfl

theorem ne_nil_of_not_isEmpty {ms : List Value} (h : (!ms.isEmpty) = true) :
    ms ≠ [] := by
  intro h2
  subst h2
  simp at h

theorem as_set_power {b : Value} :
    as_set (.powerSet b) =
      match as_set b with
      | .err f => .err f
      | .ok base => .ok ((List.range (2 ^ base.length)).map (powerset_at_index base)) := by
  rw [as_set.eq_def]

theorem as_set_mapset {d r : Value} :
    as_set (.mapSet d r) =
      match cardinality d with
      | .err f => .err f
      | .ok nd =>
        if nd = 0 then .ok [.map []]
        else
          match cardinality r with
          | .err f => .err f
          | .ok nr =>
            if nr = 0 then .ok []
            else
              match as_set d with
              | .err f => .err f
              | .ok dvec =>
                match as_set r with
                | .err f => .err f
                | .ok rvec => .ok (mapsList dvec rvec) := by
  rw [as_set.eq_def]

theorem asSetList_nil : asSetList [] = .ok [] := by
  rw [asSetList.eq_def]

theorem asSetList_cons {m : Value} {ms : List Value} :
    asSetList (m :: ms) =
      match as_set m with
      | .err f => .err f
      | .ok l =>
        match asSetList ms with
        | .err f => .err f
        | .ok ls => .ok (l :: ls) := by
  rw [asSetList.eq_def]

theorem setLikeWF_set {xs : List Value} :
    SetLikeWF (.set xs) = Mat (.set xs) := by
  rw [SetLikeWF.eq_def]

theorem setLikeWF_interval {lo hi : Int} :
    SetLikeWF (.interval lo hi) = decide (lo ≤ hi + 1) := by
  rw [SetLikeWF.eq_def]

theorem setLikeWF_cross {ms : List Value} :
    SetLikeWF (.crossProduct ms) = (!ms.isEmpty && SetLikeWFList ms) := by
  rw [SetLikeWF.eq_def]

theorem setLikeWF_power {b : Value} : SetLikeWF (.powerSet b) = SetLikeWF b := by
  rw [SetLikeWF.eq_def]

theorem setLikeWF_mapset {d r : Value} :
    SetLikeWF (.mapSet d r) = (SetLikeWF d && SetLikeWF r) := by
  rw [SetLikeWF.eq_def]

theorem intRange_length {lo hi : Int} :
    (intRange lo hi).length = (hi + 1 - lo).toNat := by
  unfold intRange
  rw [List.length_map, List.length_range]

theorem intRange_mat {lo hi : Int} : MatList (intRange lo hi) = true := by
  rw [matList_iff]
  intro x hx
  obtain ⟨k, rfl⟩ := mem_intRange hx
  exact mat_int

theorem intRange_nd {lo hi : Int} : ndB (intRange lo hi) = true := by
  rw [ndB_pairwise]
  unfold intRange
  refine List.Pairwise.map _ ?_ (List.pairwise_lt_range _)
  intro a b hab
  rw [veq_int]
  have h2 : (lo + Int.ofNat a == lo + Int.ofNat b) = false := by
    refine beq_eq_false_iff_ne.mpr ?_
    simp only [Int.ofNat_eq_natCast]
    omega
  rw [h2]

theorem sum_map_const_nat {α : Type} (l : List α) (c : Nat) :
    (l.map (fun _ => c)).sum = l.length * c := by
  induction l with
  | nil => simp
  | cons x xs ih =>
    simp only [List.map_cons, List.sum_cons, List.length_cons, ih]
    ring

theorem productLists_length {ls : List (List Value)} :
    (productLists ls).length = (ls.map List.length).prod := by
  induction ls with
  | nil => rfl
  | cons l ls ih =>
    simp only [productLists, List.map_cons, List.prod_cons]
    rw [List.length_flatMap]
    simp only [Function.comp_def, List.length_map]
    rw [sum_map_const_nat, ih]

theorem productLists_mem_length {ls : List (List Value)} {cs : List Value}
    (h : cs ∈ productLists ls) : cs.length = ls.length :=
  List.Forall₂.length_eq (mem_productLists.mp h)

theorem productLists_exists {cs : List Value} {ls1 ls2 : List (List Value)}
    (h : List.Forall₂ (fun c li => c ∈ li) cs ls1)
    (hsub : List.Forall₂ SubV ls1 ls2) :
    ∃ ds, ds ∈ productLists ls2 ∧ List.Forall₂ EqV cs ds := by
  induction h generalizing ls2 with
  | nil =>
    cases hsub
    exact ⟨[], by simp [productLists], .nil⟩
  | @cons c l1 cs2 ls1b hc _ ih =>
    cases hsub with
    | @cons _ l2 _ ls2b hsubh hsubt =>
      obtain ⟨d, hd, he⟩ := hsubh c hc
      obtain ⟨ds, hds, hfs⟩ := ih hsubt
      refine ⟨d :: ds, ?_, .cons he hfs⟩
      rw [mem_productLists]
      exact .cons hd (mem_productLists.mp hds)

theorem productLists_pairwise : ∀ {ls : List (List Value)},
    (∀ l ∈ ls, MatList l = true) → (∀ l ∈ ls, ndB l = true) →
    List.Pairwise (fun cs ds => veqZip cs ds = .ok false) (productLists ls) := by
  intro ls
  induction ls with
  | nil =>
    intro _ _
    simp [productLists]
  | cons l ls ih =>
    intro hm hnd
    simp only [productLists]
    have htail := ih (fun l2 h2 => hm l2 (List.mem_cons_of_mem _ h2))
      (fun l2 h2 => hnd l2 (List.mem_cons_of_mem _ h2))
    have hml : MatList l = true := hm l (List.mem_cons_self _ _)
    have hndl : ndB l = true := hnd l (List.mem_cons_self _ _)
    clear hm hnd ih
    induction l with
    | nil => simp
    | cons x xs ihx =>
      rw [List.flatMap_cons, List.pairwise_append]
      simp only [MatList, Bool.and_eq_true] at hml
      simp only [ndB, Bool.and_eq_true] at hndl
      refine ⟨?_, ?_, ?_⟩
      · rw [List.pairwise_map]
        refine htail.imp ?_
        intro cs ds hf
        rw [veqZip_cons, veq_refl hml.1, hf]
      · exact ihx hml.2 hndl.2
      · intro a ha b hb
        simp only [List.mem_map] at ha
        obtain ⟨cs, _, rfl⟩ := ha
        simp only [List.mem_flatMap, List.mem_map] at hb
        obtain ⟨x2, hx2, ds, _, rfl⟩ := hb
        have hxx2 : veq x x2 = .ok false :=
          allNotInB_iff.mp hndl.1 x2 hx2
        rw [veqZip_cons, hxx2]

theorem maskFilter_sublist {base : List Value} {i : Nat} :
    List.Sublist (maskFilter base i) base := by
  have h1 : List.Sublist (base.enum.filter (fun p => i.testBit p.1)) base.enum :=
    List.filter_sublist _
  have h2 := h1.map Prod.snd
  rwa [List.enum_map_snd] at h2

theorem matList_sublist {l1 l2 : List Value} (h : List.Sublist l1 l2)
    (hm : MatList l2 = true) : MatList l1 = true := by
  rw [matList_iff] at *
  exact fun x hx => hm x (h.subset hx)

theorem ndB_sublist {l1 l2 : List Value} (h : List.Sublist l1 l2)
    (hnd : ndB l2 = true) : ndB l1 = true :=
  ndB_pairwise.mpr ((ndB_pairwise.mp hnd).sublist h)

theorem mem_maskFilter_iff {base : List Value} {i : Nat} {x : Value} :
    x ∈ maskFilter base i ↔
      ∃ j, ∃ hj : j < base.length, i.testBit j = true ∧ base.get ⟨j, hj⟩ = x := by
  simp only [maskFilter, List.mem_map, List.mem_filter]
  constructor
  · rintro ⟨⟨j, y⟩, ⟨hmem, hbit⟩, rfl⟩
    have hget := List.mem_enum_iff_get?.mp hmem
    obtain ⟨hj, hgety⟩ := List.get?_eq_some.mp hget
    exact ⟨j, hj, hbit, hgety⟩
  · rintro ⟨j, hj, hbit, rfl⟩
    refine ⟨(j, base.get ⟨j, hj⟩), ⟨?_, hbit⟩, rfl⟩
    rw [List.mem_enum_iff_get?]
    exact List.get?_eq_get hj

theorem buildPairs_keys {rvec : List Value} :
    ∀ {ks : List Value} {i : Nat}, (buildPairs rvec ks i).map Prod.fst = ks := by
  intro ks
  induction ks with
  | nil => intro i; rfl
  | cons k ks ih =>
    intro i
    simp only [buildPairs, List.map_cons]
    rw [ih]

theorem buildPairs_length {rvec ks : List Value} {i : Nat} :
    (buildPairs rvec ks i).length = ks.length := by
  calc (buildPairs rvec ks i).length
      = ((buildPairs rvec ks i).map Prod.fst).length := (List.length_map _ _).symm
    _ = ks.length := by rw [buildPairs_keys]

theorem buildPairs_get {rvec : List Value} :
    ∀ {ks : List Value} {i j : Nat} (hj : j < ks.length)
      (hj2 : j < (buildPairs rvec ks i).length),
    (buildPairs rvec ks i).get ⟨j, hj2⟩ =
      (ks.get ⟨j, hj⟩, rvec.getD ((i / rvec.length ^ j) % rvec.length) (.int 0)) := by
  intro ks
  induction ks with
  | nil =>
    intro i j hj
    exact absurd hj (by simp)
  | cons k ks ih =>
    intro i j hj hj2
    cases j with
    | zero =>
      simp only [buildPairs, List.get, Nat.pow_zero, Nat.div_one]
    | succ j =>
      simp only [buildPairs, List.get_cons_succ]
      rw [ih (by simpa using hj)]
      have e1 : i / rvec.length / rvec.length ^ j = i / rvec.length ^ (j + 1) := by
        rw [Nat.div_div_eq_div_mul, ← pow_succ']
      rw [e1]

theorem buildPairs_val_mem {rvec ks : List Value} {i : Nat} (hr : rvec ≠ [])
    {q : Value × Value} (h : q ∈ buildPairs rvec ks i) : q.2 ∈ rvec := by
  rcases (mem_buildPairs h).2 with h2 | h2
  · exact absurd h2 hr
  · exact h2

theorem digits_ne {r : Nat} (hr : 0 < r) :
    ∀ {n i j : Nat}, i < r ^ n → j < r ^ n → i ≠ j →
    ∃ p, p < n ∧ (i / r ^ p) % r ≠ (j / r ^ p) % r := by
  intro n
  induction n with
  | zero =>
    intro i j hi hj hne
    simp [Nat.pow_zero] at hi hj
    omega
  | succ n ih =>
    intro i j hi hj hne
    by_cases h0 : i % r = j % r
    · have hdiv : i / r ≠ j / r := by
        intro hd
        have h1 := Nat.div_add_mod i r
        have h2 := Nat.div_add_mod j r
        rw [hd] at h1
        omega
      have hi2 : i / r < r ^ n := by
        rw [Nat.div_lt_iff_lt_mul hr]
        calc i < r ^ (n + 1) := hi
          _ = r ^ n * r := pow_succ r n
      have hj2 : j / r < r ^ n := by
        rw [Nat.div_lt_iff_lt_mul hr]
        calc j < r ^ (n + 1) := hj
          _ = r ^ n * r := pow_succ r n
      obtain ⟨p, hp, hne2⟩ := ih hi2 hj2 hdiv
      refine ⟨p + 1, by omega, ?_⟩
      have e1 : i / r ^ (p + 1) = i / r / r ^ p := by
        rw [Nat.div_div_eq_div_mul, ← pow_succ']
      have e2 : j / r ^ (p + 1) = j / r / r ^ p := by
        rw [Nat.div_div_eq_div_mul, ← pow_succ']
      rw [e1, e2]
      exact hne2
    · exact ⟨0, Nat.succ_pos n, by simpa [Nat.pow_zero] using h0⟩

theorem digits_encode {r : Nat} (hr : 0 < r) :
    ∀ {ds : List Nat}, (∀ d ∈ ds, d < r) →
    ∃ i, i < r ^ ds.length ∧ ∀ p (hp : p < ds.length),
      (i / r ^ p) % r = ds.get ⟨p, hp⟩ := by
  intro ds
  induction ds with
  | nil =>
    intro _
    exact ⟨0, by simp, fun p hp => absurd hp (by simp)⟩
  | cons d ds ih =>
    intro hall
    obtain ⟨i, hi, hdig⟩ := ih (fun x hx => hall x (List.mem_cons_of_mem _ hx))
    have hd := hall d (List.mem_cons_self _ _)
    refine ⟨d + r * i, ?_, ?_⟩
    · simp only [List.length_cons]
      calc d + r * i < r + r * i := by omega
        _ = r * (i + 1) := by ring
        _ ≤ r * r ^ ds.length := Nat.mul_le_mul_left r (by omega)
        _ = r ^ (ds.length + 1) := (pow_succ' r _).symm
    · intro p hp
      cases p with
      | zero =>
        simp only [Nat.pow_zero, Nat.div_one, List.get]
        rw [Nat.add_mul_mod_self_left]
        exact Nat.mod_eq_of_lt hd
      | succ p =>
        have e1 : (d + r * i) / r ^ (p + 1) = i / r ^ p := by
          rw [pow_succ', ← Nat.div_div_eq_div_mul]
          congr 1
          rw [Nat.add_mul_div_left _ _ hr, Nat.div_eq_of_lt hd, Nat.zero_add]
        rw [e1]
        simp only [List.get_cons_succ]
        exact hdig p (by simpa using hp)

/-! Well-formedness and dedup facts for the three lazy enumerations. -/

theorem forall₂_mem_right {α β : Type} {R : α → β → Prop} {as : List α}
    {bs : List β} (h : List.Forall₂ R as bs) {b : β} (hb : b ∈ bs) :
    ∃ a ∈ as, R a b := by
  induction h with
  | nil => cases hb
  | cons hR _ ih =>
    rcases List.mem_cons.mp hb with h2 | h2
    · exact ⟨_, List.mem_cons_self _ _, h2 ▸ hR⟩
    · obtain ⟨a, h3, h4⟩ := ih h2
      exact ⟨a, List.mem_cons_of_mem _ h3, h4⟩

theorem forall₂_imp_mem {α β : Type} {R S : α → β → Prop} {as : List α}
    {bs : List β} (h : List.Forall₂ R as bs)
    (himp : ∀ a ∈ as, ∀ b ∈ bs, R a b → S a b) : List.Forall₂ S as bs := by
  induction h with
  | nil => exact .nil
  | @cons a b as2 bs2 hR _ ih =>
    refine .cons (himp a (List.mem_cons_self _ _) b (List.mem_cons_self _ _) hR) ?_
    exact ih fun a2 ha2 b2 hb2 =>
      himp a2 (List.mem_cons_of_mem _ ha2) b2 (List.mem_cons_of_mem _ hb2)

theorem cardProd_spec {ms : List Value} {ks : List Nat}
    (h : List.Forall₂ (fun m k => cardinality m = .ok k) ms ks) :
    ∀ acc, cardProd ms acc = .ok (acc * ks.prod) := by
  induction h with
  | nil =>
    intro acc
    rw [cardProd_nil]
    simp
  | @cons m k ms2 ks2 hmk _ ih =>
    intro acc
    rw [cardProd_cons, hmk]
    dsimp only
    rw [ih]
    rw [List.prod_cons]
    congr 1
    ring

theorem asSetList_spec {ms : List Value} (h : ∀ m ∈ ms, ∃ l, as_set m = .ok l) :
    ∃ ls, asSetList ms = .ok ls ∧
      List.Forall₂ (fun m l => as_set m = .ok l) ms ls := by
  induction ms with
  | nil => exact ⟨[], asSetList_nil, .nil⟩
  | cons m ms ih =>
    obtain ⟨l, hl⟩ := h m (List.mem_cons_self _ _)
    obtain ⟨ls, hls, hf⟩ := ih (fun m2 h2 => h m2 (List.mem_cons_of_mem _ h2))
    refine ⟨l :: ls, ?_, .cons hl hf⟩
    rw [asSetList_cons, hl, hls]

theorem productTuples_mat {ls : List (List Value)}
    (hm : ∀ l ∈ ls, MatList l = true) :
    MatList ((productLists ls).map Value.tuple) = true := by
  rw [matList_iff]
  intro x hx
  simp only [List.mem_map] at hx
  obtain ⟨cs, hcs, rfl⟩ := hx
  rw [mat_tuple_iff, matList_iff]
  intro c hc
  obtain ⟨li, hli, hcli⟩ := forall₂_mem_left (mem_productLists.mp hcs) hc
  exact matList_iff.mp (hm li hli) c hcli

theorem productTuples_nd {ls : List (List Value)}
    (hm : ∀ l ∈ ls, MatList l = true) (hnd : ∀ l ∈ ls, ndB l = true) :
    ndB ((productLists ls).map Value.tuple) = true := by
  rw [ndB_pairwise, List.pairwise_map]
  refine (productLists_pairwise hm hnd).imp_of_mem ?_
  intro cs ds hcs hds hzip
  rw [veq_tuple, veqVec_def]
  have hlen : cs.length = ds.length :=
    (productLists_mem_length hcs).trans (productLists_mem_length hds).symm
  rw [if_pos hlen, hzip]

theorem mem_mapsList {dvec rvec : List Value} {x : Value} :
    x ∈ mapsList dvec rvec ↔
      ∃ i, i < rvec.length ^ dvec.length ∧ mapAtIndex dvec rvec i = x := by
  simp [mapsList]

theorem mapsList_length {dvec rvec : List Value} :
    (mapsList dvec rvec).length = rvec.length ^ dvec.length := by
  simp [mapsList]

theorem buildPairs_matPairs {rvec dvec : List Value} {i : Nat}
    (hmd : MatList dvec = true) (hmr : MatList rvec = true) (hr : rvec ≠ []) :
    MatPairs (buildPairs rvec dvec i) = true := by
  rw [matPairs_iff]
  intro q hq
  exact ⟨matList_iff.mp hmd q.1 (mem_buildPairs hq).1,
    matList_iff.mp hmr q.2 (buildPairs_val_mem hr hq)⟩

theorem buildPairs_ndKeys {rvec dvec : List Value} {i : Nat}
    (hnd : ndB dvec = true) : ndKeysP (buildPairs rvec dvec i) = true := by
  rw [ndKeysP_pairwise]
  have h2 : List.Pairwise (fun a b => veq a b = .ok false)
      ((buildPairs rvec dvec i).map Prod.fst) := by
    rw [buildPairs_keys]
    exact ndB_pairwise.mp hnd
  rw [List.pairwise_map] at h2
  exact h2

theorem mapAtIndex_mat {dvec rvec : List Value} {i : Nat}
    (hmd : MatList dvec = true) (hmr : MatList rvec = true)
    (hndd : ndB dvec = true) (hr : rvec ≠ []) :
    Mat (mapAtIndex dvec rvec i) = true := by
  unfold mapAtIndex
  rw [mat_map_iff]
  exact ⟨buildPairs_matPairs hmd hmr hr, buildPairs_ndKeys hndd⟩

theorem mapsList_mat {dvec rvec : List Value}
    (hmd : MatList dvec = true) (hmr : MatList rvec = true)
    (hndd : ndB dvec = true) (hr : rvec ≠ []) :
    MatList (mapsList dvec rvec) = true := by
  rw [matList_iff]
  intro x hx
  obtain ⟨i, _, rfl⟩ := mem_mapsList.mp hx
  exact mapAtIndex_mat hmd hmr hndd hr

theorem mapAtIndex_veq_ne {dvec rvec : List Value}
    (hmd : MatList dvec = true) (hmr : MatList rvec = true)
    (hndd : ndB dvec = true) (hndr : ndB rvec = true) (hr : rvec ≠ [])
    {i j : Nat} (hi : i < rvec.length ^ dvec.length)
    (hj : j < rvec.length ^ dvec.length) (hne : i ≠ j) :
    veq (mapAtIndex dvec rvec i) (mapAtIndex dvec rvec j) = .ok false := by
  have hr0 : 0 < rvec.length := List.length_pos.mpr hr
  obtain ⟨p, hp, hdne⟩ := digits_ne hr0 hi hj hne
  unfold mapAtIndex
  rw [veq_map]
  obtain ⟨rq, hrq, hiff⟩ := mapEqR_ok (buildPairs_matPairs hmd hmr hr)
    (buildPairs_matPairs hmd hmr hr) (buildPairs_ndKeys hndd)
  cases rq with
  | false => exact hrq
  | true =>
    exfalso
    obtain ⟨_, hfwd⟩ := hiff.mp rfl
    have hp2 : p < (buildPairs rvec dvec i).length := by
      rw [buildPairs_length]
      exact hp
    have hqmem := (buildPairs rvec dvec i).get_mem p hp2
    obtain ⟨q2, hq2mem, hkeq, hveq⟩ := hfwd _ hqmem
    obtain ⟨fs, rfl⟩ := List.mem_iff_get.mp hq2mem
    obtain ⟨s, hs⟩ := fs
    have hs2 : s < dvec.length := by
      have h2 := hs
      rw [buildPairs_length] at h2
      exact h2
    rw [@buildPairs_get rvec dvec i p hp hp2] at hkeq hveq
    rw [@buildPairs_get rvec dvec j s hs2 hs] at hkeq hveq
    simp only at hkeq hveq
    have hps : p = s := by
      by_contra hps
      have := ndB_get_ne hmd hndd hp hs2 hps
      rw [this] at hkeq
      cases hkeq
    subst hps
    set di := (i / rvec.length ^ p) % rvec.length with hdi
    set dj := (j / rvec.length ^ p) % rvec.length with hdj
    have hdi2 : di < rvec.length := Nat.mod_lt _ hr0
    have hdj2 : dj < rvec.length := Nat.mod_lt _ hr0
    rw [List.getD_eq_getElem _ _ hdi2, List.getD_eq_getElem _ _ hdj2] at hveq
    have hne2 := ndB_get_ne hmr hndr hdi2 hdj2 hdne
    simp only [List.get_eq_getElem] at hne2
    rw [hne2] at hveq
    cases hveq

theorem mapsList_nd {dvec rvec : List Value}
    (hmd : MatList dvec = true) (hmr : MatList rvec = true)
    (hndd : ndB dvec = true) (hndr : ndB rvec = true) (hr : rvec ≠ []) :
    ndB (mapsList dvec rvec) = true := by
  rw [ndB_pairwise]
  unfold mapsList
  have hpw : List.Pairwise
      (fun a b => a < b ∧ a < rvec.length ^ dvec.length ∧
        b < rvec.length ^ dvec.length) (List.range (rvec.length ^ dvec.length)) := by
    refine (List.pairwise_lt_range _).imp_of_mem ?_
    intro a b ha hb hab
    exact ⟨hab, List.mem_range.mp ha, List.mem_range.mp hb⟩
  refine List.Pairwise.map _ ?_ hpw
  intro a b hab
  exact mapAtIndex_veq_ne hmd hmr hndd hndr hr hab.2.1 hab.2.2 (Nat.ne_of_lt hab.1)

theorem maskFilter_not_memV {base : List Value} (hm : MatList base = true)
    (hnd : ndB base = true) {j t : Nat} (htlen : t < base.length)
    (hbj : j.testBit t = false) :
    ¬ MemV (base.get ⟨t, htlen⟩) (maskFilter base j) := by
  rintro ⟨y, hy, hey⟩
  obtain ⟨s, hslen, hbjs, rfl⟩ := mem_maskFilter_iff.mp hy
  by_cases hts : t = s
  · subst hts
    rw [hbj] at hbjs
    cases hbjs
  · have hfalse := ndB_get_ne hm hnd htlen hslen hts
    have hey2 : veq (base.get ⟨t, htlen⟩) (base.get ⟨s, hslen⟩) = .ok true := hey
    rw [hfalse] at hey2
    cases hey2

theorem maskFilter_veq_ne {base : List Value} (hm : MatList base = true)
    (hnd : ndB base = true) {i j : Nat} (hi : i < 2 ^ base.length)
    (hj : j < 2 ^ base.length) (hne : i ≠ j) :
    veq (powerset_at_index base i) (powerset_at_index base j) = .ok false := by
  unfold powerset_at_index
  rw [veq_set]
  obtain ⟨rq, hrq, hiff⟩ := setEqR_iff (matList_sublist maskFilter_sublist hm)
    (matList_sublist maskFilter_sublist hm)
    (ndB_sublist maskFilter_sublist hnd) (ndB_sublist maskFilter_sublist hnd)
  cases rq with
  | false => exact hrq
  | true =>
    exfalso
    obtain ⟨hsub1, hsub2⟩ := hiff.mp rfl
    have hbits : ∃ t, i.testBit t ≠ j.testBit t := by
      by_contra hcon
      push_neg at hcon
      exact hne (Nat.eq_of_testBit_eq hcon)
    obtain ⟨t, ht⟩ := hbits
    have htlen : t < base.length := by
      by_contra hge
      push_neg at hge
      have h1 : i.testBit t = false :=
        Nat.testBit_lt_two_pow (lt_of_lt_of_le hi (Nat.pow_le_pow_right (by omega) hge))
      have h2 : j.testBit t = false :=
        Nat.testBit_lt_two_pow (lt_of_lt_of_le hj (Nat.pow_le_pow_right (by omega) hge))
      rw [h1, h2] at ht
      exact ht rfl
    rcases Bool.eq_false_or_eq_true (i.testBit t) with hbi | hbi
    · have hbjt : j.testBit t = false := by
        cases hbj : j.testBit t
        · rfl
        · exact absurd (hbi.trans hbj.symm) ht
      have hmem : base.get ⟨t, htlen⟩ ∈ maskFilter base i :=
        mem_maskFilter_iff.mpr ⟨t, htlen, hbi, rfl⟩
      exact maskFilter_not_memV hm hnd htlen hbjt (hsub1 _ hmem)
    · have hbjt : j.testBit t = true := by
        cases hbj : j.testBit t
        · exact absurd (hbi.trans hbj.symm) ht
        · rfl
      have hmem : base.get ⟨t, htlen⟩ ∈ maskFilter base j :=
        mem_maskFilter_iff.mpr ⟨t, htlen, hbjt, rfl⟩
      exact maskFilter_not_memV hm hnd htlen hbi (hsub2 _ hmem)

theorem powersetList_mat {base : List Value} (hm : MatList base = true)
    (hnd : ndB base = true) :
    MatList ((List.range (2 ^ base.length)).map (powerset_at_index base)) = true := by
  rw [matList_iff]
  intro x hx
  simp only [List.mem_map] at hx
  obtain ⟨i, _, rfl⟩ := hx
  unfold powerset_at_index
  rw [mat_set_iff]
  exact ⟨matList_sublist maskFilter_sublist hm, ndB_sublist maskFilter_sublist hnd⟩

theorem powersetList_nd {base : List Value} (hm : MatList base = true)
    (hnd : ndB base = true) :
    ndB ((List.range (2 ^ base.length)).map (powerset_at_index base)) = true := by
  rw [ndB_pairwise]
  have hpw : List.Pairwise
      (fun a b => a < b ∧ a < 2 ^ base.length ∧ b < 2 ^ base.length)
      (List.range (2 ^ base.length)) := by
    refine (List.pairwise_lt_range _).imp_of_mem ?_
    intro a b ha hb hab
    exact ⟨hab, List.mem_range.mp ha, List.mem_range.mp hb⟩
  refine List.Pairwise.map _ ?_ hpw
  intro a b hab
  exact maskFilter_veq_ne hm hnd hab.2.1 hab.2.2 (Nat.ne_of_lt hab.1)

/-- Enumeration goodness: on the well-formed fragment, `as_set` succeeds,
`cardinality` returns exactly the enumerated size, and the produced
elements are materialized and pairwise distinct (so the persistent set's
deduplication is a no-op, as the model assumes). -/
theorem as_set_good : ∀ {v : Value}, SetLikeWF v = true →
    ∃ l, as_set v = .ok l ∧ cardinality v = .ok l.length ∧
      MatList l = true ∧ ndB l = true := by
  suffices h : ∀ n v, rank v ≤ n → SetLikeWF v = true →
      ∃ l, as_set v = .ok l ∧ cardinality v = .ok l.length ∧
        MatList l = true ∧ ndB l = true by
    exact fun {v} hwf => h (rank v) v le_rfl hwf
  intro n
  induction n using Nat.strong_induction_on with
  | _ n ih =>
    intro v hr hwf
    cases v with
    | int m => rw [SetLikeWF.eq_def] at hwf; cases hwf
    | bool b => rw [SetLikeWF.eq_def] at hwf; cases hwf
    | str s => rw [SetLikeWF.eq_def] at hwf; cases hwf
    | tuple xs => rw [SetLikeWF.eq_def] at hwf; cases hwf
    | record fs => rw [SetLikeWF.eq_def] at hwf; cases hwf
    | map ps => rw [SetLikeWF.eq_def] at hwf; cases hwf
    | list xs => rw [SetLikeWF.eq_def] at hwf; cases hwf
    | lambda p b => rw [SetLikeWF.eq_def] at hwf; cases hwf
    | variant s v2 => rw [SetLikeWF.eq_def] at hwf; cases hwf
    | set xs =>
      rw [setLikeWF_set] at hwf
      exact ⟨xs, as_set_set, cardinality_set, (mat_set_iff.mp hwf).1,
        (mat_set_iff.mp hwf).2⟩
    | interval lo hi =>
      rw [setLikeWF_interval] at hwf
      have hle : lo ≤ hi + 1 := of_decide_eq_true hwf
      refine ⟨intRange lo hi, as_set_interval, ?_, intRange_mat, intRange_nd⟩
      rw [cardinality_interval, if_pos (by omega), intRange_length]
      congr 1
      omega
    | crossProduct ms =>
      rw [setLikeWF_cross] at hwf
      rw [Bool.and_eq_true] at hwf
      have hms : ∀ m ∈ ms, SetLikeWF m = true := setLikeWFList_iff.mp hwf.2
      have hrk : rank (Value.crossProduct ms) = 2 + maxR ms := by simp [rank]
      have hmem : ∀ m ∈ ms, ∃ l, as_set m = .ok l ∧
          cardinality m = .ok l.length ∧ MatList l = true ∧ ndB l = true := by
        intro m hm
        have hrm : rank m ≤ maxR ms := rank_le_maxR hm
        exact ih (rank m) (by omega) m le_rfl (hms m hm)
      obtain ⟨ls, hls, hf⟩ := asSetList_spec
        (fun m hm => (hmem m hm).imp (fun l h => h.1))
      have hcard : List.Forall₂ (fun m k => cardinality m = .ok k) ms
          (ls.map List.length) := by
        rw [List.forall₂_map_right_iff]
        refine forall₂_imp_mem hf ?_
        intro m hm l _ hml
        obtain ⟨l2, ha2, hc2, _, _⟩ := hmem m hm
        rw [hml] at ha2
        simp only [Res.ok.injEq] at ha2
        rw [← ha2] at hc2
        exact hc2
      have hgood : ∀ l ∈ ls, MatList l = true ∧ ndB l = true := by
        intro l hl
        obtain ⟨m, hm, hml⟩ := forall₂_mem_right hf hl
        obtain ⟨l2, ha2, _, hm2, hn2⟩ := hmem m hm
        rw [hml] at ha2
        simp only [Res.ok.injEq] at ha2
        rw [← ha2] at hm2 hn2
        exact ⟨hm2, hn2⟩
      have hprod := cardProd_spec hcard 1
      rw [Nat.one_mul] at hprod
      have hcardv : cardinality (Value.crossProduct ms) =
          .ok (List.map List.length ls).prod := by
        rw [cardinality_cross, hprod]
      by_cases h0 : (List.map List.length ls).prod = 0
      · have hset : as_set (Value.crossProduct ms) = .ok [] := by
          rw [as_set_cross, hcardv]
          dsimp only
          rw [if_pos h0]
        refine ⟨[], hset, ?_, ?_, ?_⟩
        · rw [hcardv, h0]
          rfl
        · rw [MatList.eq_def]
        · rfl
      · have hlsne : ls ≠ [] :=
          asSetList_ne_nil hf (ne_nil_of_not_isEmpty hwf.1)
        have hset : as_set (Value.crossProduct ms) =
            .ok ((productLists ls).map Value.tuple) := by
          rw [as_set_cross, hcardv]
          dsimp only
          rw [if_neg h0, hls]
          dsimp only
          rw [multiCartesian_ne hlsne]
        refine ⟨(productLists ls).map Value.tuple, hset, ?_,
          productTuples_mat (fun l hl => (hgood l hl).1),
          productTuples_nd (fun l hl => (hgood l hl).1)
            (fun l hl => (hgood l hl).2)⟩
        rw [hcardv, List.length_map, productLists_length]
    | powerSet b =>
      rw [setLikeWF_power] at hwf
      have hrk : rank (Value.powerSet b) = 2 + rank b := by simp [rank]
      obtain ⟨basel, hbase, hbcard, hbm, hbnd⟩ :=
        ih (rank b) (by omega) b le_rfl hwf
      have hset : as_set (Value.powerSet b) =
          .ok ((List.range (2 ^ basel.length)).map (powerset_at_index basel)) := by
        rw [as_set_power, hbase]
      refine ⟨_, hset, ?_, powersetList_mat hbm hbnd, powersetList_nd hbm hbnd⟩
      rw [cardinality_power, hbcard, List.length_map, List.length_range]
    | mapSet d r =>
      rw [setLikeWF_mapset] at hwf
      rw [Bool.and_eq_true] at hwf
      have hrk : rank (Value.mapSet d r) = 2 + max (rank d) (rank r) := by
        simp [rank]
      have hmx : max (rank d) (rank r) ≤ max (rank d) (rank r) := le_rfl
      obtain ⟨dvec, hdas, hdcard, hdm, hdnd⟩ :=
        ih (rank d) (by have := le_max_left (rank d) (rank r); omega) d le_rfl hwf.1
      obtain ⟨rvec, hras, hrcard, hrm, hrnd⟩ :=
        ih (rank r) (by have := le_max_right (rank d) (rank r); omega) r le_rfl hwf.2
      by_cases h0 : dvec.length = 0
      · have hset : as_set (Value.mapSet d r) = .ok [.map []] := by
          rw [as_set_mapset, hdcard]
          dsimp only
          rw [if_pos h0]
        have hcardv : cardinality (Value.mapSet d r) = .ok 1 := by
          rw [cardinality_mapset, hrcard]
          dsimp only
          rw [hdcard]
          dsimp only
          rw [h0]
          rfl
        refine ⟨[.map []], hset, by rw [hcardv]; rfl, ?_, ?_⟩
        · rw [matList_iff]
          intro x hx
          rw [List.mem_singleton] at hx
          subst hx
          rw [mat_map_iff]
          constructor
          · rw [MatPairs.eq_def]
          · rfl
        · simp [ndB, allNotInB]
      · by_cases hr0 : rvec.length = 0
        · have hset : as_set (Value.mapSet d r) = .ok [] := by
            rw [as_set_mapset, hdcard]
            dsimp only
            rw [if_neg h0, hrcard]
            dsimp only
            rw [if_pos hr0]
          have hcardv : cardinality (Value.mapSet d r) = .ok 0 := by
            rw [cardinality_mapset, hrcard]
            dsimp only
            rw [hdcard]
            dsimp only
            rw [hr0, Nat.zero_pow (by omega)]
          refine ⟨[], hset, by rw [hcardv]; rfl, ?_, rfl⟩
          rw [MatList.eq_def]
        · have hrne : rvec ≠ [] := fun h => hr0 (by simp [h])
          have hset : as_set (Value.mapSet d r) = .ok (mapsList dvec rvec) := by
            rw [as_set_mapset, hdcard]
            dsimp only
            rw [if_neg h0, hrcard]
            dsimp only
            rw [if_neg hr0, hdas]
            dsimp only
            rw [hras]
          have hcardv : cardinality (Value.mapSet d r) =
              .ok (rvec.length ^ dvec.length) := by
            rw [cardinality_mapset, hrcard]
            dsimp only
            rw [hdcard]
          refine ⟨mapsList dvec rvec, hset, ?_,
            mapsList_mat hdm hrm hdnd hrne,
            mapsList_nd hdm hrm hdnd hrnd hrne⟩
          rw [hcardv, mapsList_length]

/-! Forward (totality-free) directions of the scans, and the witness
construction for the powerset bijection: the mask encoding a given
subset of the base. -/

theorem vmemR_true {x : Value} {l : List Value} (h : vmemR x l = .ok true) :
    MemV x l := by
  induction l with
  | nil => rw [vmemR_nil] at h; cases h
  | cons y ys ih =>
    rw [vmemR_cons] at h
    cases hv : veq x y with
    | err f => rw [hv] at h; cases h
    | ok b =>
      cases b with
      | true => exact ⟨y, List.mem_cons_self _ _, hv⟩
      | false =>
        rw [hv] at h
        obtain ⟨z, hz, he⟩ := ih h
        exact ⟨z, List.mem_cons_of_mem _ hz, he⟩

theorem allInR_true {l b : List Value} (h : allInR l b = .ok true) :
    SubV l b := by
  induction l with
  | nil => intro x hx; cases hx
  | cons x xs ih =>
    rw [allInR_cons] at h
    cases hv : vmemR x b with
    | err f => rw [hv] at h; cases h
    | ok r =>
      cases r with
      | false => rw [hv] at h; cases h
      | true =>
        rw [hv] at h
        intro z hz
        rcases List.mem_cons.mp hz with rfl | hz2
        · exact vmemR_true hv
        · exact ih h z hz2

theorem veqZip_true : ∀ {l1 l2 : List Value}, veqZip l1 l2 = .ok true →
    l1.length = l2.length → List.Forall₂ (fun x y => veq x y = .ok true) l1 l2 := by
  intro l1
  induction l1 with
  | nil =>
    intro l2 _ hlen
    cases l2 with
    | nil => exact .nil
    | cons y ys => cases hlen
  | cons x xs ih =>
    intro l2 h hlen
    cases l2 with
    | nil => cases hlen
    | cons y ys =>
      rw [veqZip_cons] at h
      cases hv : veq x y with
      | err f => rw [hv] at h; cases h
      | ok r =>
        cases r with
        | false => rw [hv] at h; cases h
        | true =>
          rw [hv] at h
          exact .cons hv (ih h (by simpa using hlen))

theorem setLikeWF_is_set {v : Value} (h : SetLikeWF v = true) :
    is_set v = true := by
  cases v <;> first
  | rfl
  | (rw [SetLikeWF.eq_def] at h; cases h)

/-- Executable test used to build the powerset witness mask: whether some
element of `es` is canonically equal to `x`. -/
def anyEq (x : Value) (es : List Value) : Bool :=
  es.any (fun y => veq x y == .ok true)

theorem anyEq_iff {x : Value} {es : List Value} :
    anyEq x es = true ↔ ∃ y ∈ es, veq x y = .ok true := by
  simp [anyEq, List.any_eq_true, beq_iff_eq]

/-- The mask whose bit `t` records whether base element `t` occurs in
`es`. -/
def maskOf (es : List Value) : List Value → Nat
  | [] => 0
  | b :: bs => (if anyEq b es then 1 else 0) + 2 * maskOf es bs

theorem maskOf_lt {es : List Value} : ∀ {bs : List Value},
    maskOf es bs < 2 ^ bs.length := by
  intro bs
  induction bs with
  | nil => simp [maskOf]
  | cons b bs ih =>
    simp only [maskOf, List.length_cons, pow_succ]
    by_cases h : anyEq b es
    · rw [if_pos h]
      omega
    · rw [if_neg h]
      omega

theorem maskOf_testBit {es : List Value} : ∀ {bs : List Value} {t : Nat}
    (ht : t < bs.length),
    (maskOf es bs).testBit t = anyEq (bs.get ⟨t, ht⟩) es := by
  intro bs
  induction bs with
  | nil =>
    intro t ht
    exact absurd ht (by simp)
  | cons b bs ih =>
    intro t ht
    cases t with
    | zero =>
      rw [Nat.testBit_to_div_mod]
      simp only [maskOf, Nat.pow_zero, Nat.div_one, List.get]
      by_cases h : anyEq b es
      · rw [if_pos h, h]
        simp [Nat.add_mul_mod_self_left]
      · rw [if_neg h]
        simp only [Nat.zero_add, Nat.mul_mod_right]
        simp [h]
    | succ t =>
      rw [Nat.testBit_to_div_mod]
      simp only [maskOf, List.get_cons_succ]
      have e1 : ((if anyEq b es then 1 else 0) + 2 * maskOf es bs) / 2 ^ (t + 1) =
          maskOf es bs / 2 ^ t := by
        rw [pow_succ', ← Nat.div_div_eq_div_mul]
        congr 1
        by_cases h : anyEq b es
        · rw [if_pos h]
          omega
        · rw [if_neg h]
          omega
      simp only [e1]
      rw [← Nat.testBit_to_div_mod]
      exact ih (by simpa using ht)

/-- Every deduplicated materialized subset of the base is canonically
equal to the mask-indexed subset selected by its characteristic mask. -/
theorem powerset_surj {base es : List Value} (hmb : MatList base = true)
    (hndb : ndB base = true) (hme : MatList es = true) (hnde : ndB es = true)
    (hsub : SubV es base) :
    ∃ i, i < 2 ^ base.length ∧
      veq (.set es) (powerset_at_index base i) = .ok true := by
  refine ⟨maskOf es base, maskOf_lt, ?_⟩
  unfold powerset_at_index
  rw [veq_set]
  obtain ⟨r, hr, hiff⟩ := setEqR_iff hme (matList_sublist maskFilter_sublist hmb)
    hnde (ndB_sublist maskFilter_sublist hndb)
  have hr1 : SubV es (maskFilter base (maskOf es base)) := by
    intro x hx
    obtain ⟨y, hy, he⟩ := hsub x hx
    obtain ⟨fy, rfl⟩ := List.mem_iff_get.mp hy
    obtain ⟨t, htl⟩ := fy
    have hbit : (maskOf es base).testBit t = true := by
      rw [maskOf_testBit htl, anyEq_iff]
      exact ⟨x, hx, veq_symm (matList_iff.mp hme x hx)
        (matList_iff.mp hmb _ (base.get_mem t htl)) he⟩
    exact ⟨base.get ⟨t, htl⟩,
      mem_maskFilter_iff.mpr ⟨t, htl, hbit, rfl⟩, he⟩
  have hr2 : SubV (maskFilter base (maskOf es base)) es := by
    intro y hy
    obtain ⟨t, htl, hbit, rfl⟩ := mem_maskFilter_iff.mp hy
    rw [maskOf_testBit htl, anyEq_iff] at hbit
    obtain ⟨z, hz, he⟩ := hbit
    exact ⟨z, hz, he⟩
  have hrt : r = true := hiff.mpr ⟨hr1, hr2⟩
  subst hrt
  exact hr

/-! The witness construction for the `MapSet` enumeration: every map whose
key set matches the domain enumeration and whose values lie in the range
enumeration is canonically equal to a decoded index map. -/

theorem matPairs_keys {m : List (Value × Value)} (h : MatPairs m = true) :
    MatList (m.map Prod.fst) = true := by
  rw [matList_iff]
  intro x hx
  obtain ⟨q, hq, rfl⟩ := List.mem_map.mp hx
  exact (matPairs_iff.mp h q hq).1

theorem ndKeysP_keys {m : List (Value × Value)} (h : ndKeysP m = true) :
    ndB (m.map Prod.fst) = true := by
  rw [ndB_pairwise, List.pairwise_map]
  exact ndKeysP_pairwise.mp h

theorem ndKeysP_unique {m : List (Value × Value)} (hm : MatPairs m = true)
    (hnd : ndKeysP m = true) {q1 q2 : Value × Value} (h1 : q1 ∈ m) (h2 : q2 ∈ m)
    (hke : veq q1.1 q2.1 = .ok true) : q1 = q2 := by
  by_contra hne
  have hpw : List.Pairwise
      (fun p q => veq p.1 q.1 = .ok false ∧ veq q.1 p.1 = .ok false) m := by
    refine (ndKeysP_pairwise.mp hnd).imp_of_mem ?_
    intro p q hp hq hf
    exact ⟨hf, veq_symm (matPairs_iff.mp hm p hp).1 (matPairs_iff.mp hm q hq).1 hf⟩
  have hsym : Symmetric
      (fun p q : Value × Value => veq p.1 q.1 = .ok false ∧ veq q.1 p.1 = .ok false) :=
    fun _ _ h => ⟨h.2, h.1⟩
  have hf := (List.Pairwise.forall hsym hpw) h1 h2 hne
  rw [hke] at hf
  cases hf.1

/-- Index of the first element of the list canonically equal to `x`. -/
def idxEq (x : Value) : List Value → Nat
  | [] => 0
  | y :: ys => if veq x y == .ok true then 0 else idxEq x ys + 1

theorem idxEq_spec {x : Value} : ∀ {l : List Value},
    (∃ y ∈ l, veq x y = .ok true) →
    ∃ hlt : idxEq x l < l.length, veq x (l.get ⟨idxEq x l, hlt⟩) = .ok true := by
  intro l
  induction l with
  | nil =>
    rintro ⟨y, hy, _⟩
    cases hy
  | cons y ys ih =>
    rintro ⟨z, hz, hez⟩
    by_cases hhead : veq x y = .ok true
    · refine ⟨?_, ?_⟩ <;> simp [idxEq, hhead]
    · have hne : (veq x y == Res.ok true) = false := by
        simp [beq_eq_false_iff_ne, hhead]
      have hz2 : z ∈ ys := by
        rcases List.mem_cons.mp hz with rfl | h2
        · exact absurd hez hhead
        · exact h2
      obtain ⟨hlt, hveq⟩ := ih ⟨z, hz2, hez⟩
      refine ⟨?_, ?_⟩
      · simp only [idxEq, hne, Bool.false_eq_true, if_false, List.length_cons]
        omega
      · simp only [idxEq, hne, Bool.false_eq_true, if_false, List.get_cons_succ]
        exact hveq

/-- The value stored under the first key canonically equal to `k`
(the model of the map's `get`). -/
def findV (k : Value) : List (Value × Value) → Value
  | [] => .int 0
  | q :: m => if veq k q.1 == .ok true then q.2 else findV k m

theorem findV_eq {kp : Value} {m : List (Value × Value)} {q0 : Value × Value}
    (hm : MatPairs m = true) (hkp : Mat kp = true) (hnd : ndKeysP m = true)
    (hq0 : q0 ∈ m) (hmatch : veq kp q0.1 = .ok true) : findV kp m = q0.2 := by
  induction m with
  | nil => cases hq0
  | cons q m2 ih =>
    by_cases hh : veq kp q.1 = .ok true
    · have hb : (veq kp q.1 == Res.ok true) = true := by simp [hh]
      simp only [findV, hb, if_true]
      rcases List.mem_cons.mp hq0 with rfl | h2
      · rfl
      · exfalso
        have hq1 : veq q.1 kp = .ok true :=
          veq_symm hkp (matPairs_iff.mp hm q (List.mem_cons_self _ _)).1 hh
        have hqq0 : veq q.1 q0.1 = .ok true :=
          veq_trans (matPairs_iff.mp hm q (List.mem_cons_self _ _)).1 hkp
            (matPairs_iff.mp hm q0 hq0).1 hq1 hmatch
        have := (List.pairwise_cons.mp (ndKeysP_pairwise.mp hnd)).1 q0 h2
        rw [this] at hqq0
        cases hqq0
    · have hb : (veq kp q.1 == Res.ok true) = false := by
        simp [beq_eq_false_iff_ne, hh]
      simp only [findV, hb, if_false]
      have hq02 : q0 ∈ m2 := by
        rcases List.mem_cons.mp hq0 with rfl | h2
        · exact absurd hmatch hh
        · exact h2
      have hm2 : MatPairs m2 = true := by
        rw [matPairs_iff] at hm ⊢
        exact fun q2 h2 => hm q2 (List.mem_cons_of_mem _ h2)
      have hnd2 : ndKeysP m2 = true := by
        obtain ⟨k2, v2⟩ := q
        simp only [ndKeysP, Bool.and_eq_true] at hnd
        exact hnd.2
      exact ih hm2 hnd2 hq02

/-- Surjectivity of the `MapSet` index decoding: a deduplicated
materialized map whose keys enumerate the domain and whose values lie in
the range enumeration equals some decoded index map. -/
theorem mapsList_surj {dvec rvec : List Value} {m : List (Value × Value)}
    (hd : MatList dvec = true) (hr : MatList rvec = true)
    (hndd : ndB dvec = true) (hrne : rvec ≠ [])
    (hm : MatPairs m = true) (hndm : ndKeysP m = true)
    (hk1 : SubV (m.map Prod.fst) dvec) (hk2 : SubV dvec (m.map Prod.fst))
    (hvals : ∀ q ∈ m, MemV q.2 rvec) :
    ∃ i, i < rvec.length ^ dvec.length ∧
      veq (.map m) (mapAtIndex dvec rvec i) = .ok true := by
  have hr0 : 0 < rvec.length := List.length_pos.mpr hrne
  have hfind : ∀ k ∈ dvec, ∃ q0 ∈ m, findV k m = q0.2 ∧ veq k q0.1 = .ok true := by
    intro k hk
    obtain ⟨k0, hk0, hke⟩ := hk2 k hk
    obtain ⟨q0, hq0, rfl⟩ := List.mem_map.mp hk0
    exact ⟨q0, hq0, findV_eq hm (matList_iff.mp hd k hk) hndm hq0 hke, hke⟩
  have hdsall : ∀ d ∈ dvec.map (fun k => idxEq (findV k m) rvec), d < rvec.length := by
    intro d hd2
    obtain ⟨k, hk, rfl⟩ := List.mem_map.mp hd2
    obtain ⟨q0, hq0, hfv, _⟩ := hfind k hk
    rw [hfv]
    obtain ⟨hlt, _⟩ := idxEq_spec (hvals q0 hq0)
    exact hlt
  obtain ⟨i, hi, hdig⟩ := digits_encode hr0 hdsall
  rw [List.length_map] at hi
  refine ⟨i, hi, ?_⟩
  unfold mapAtIndex
  rw [veq_map]
  obtain ⟨rq, hrq, hiff⟩ := mapEqR_ok hm (buildPairs_matPairs hd hr hrne)
    (buildPairs_ndKeys hndd)
  have hrt : rq = true := by
    refine hiff.mpr ⟨?_, ?_⟩
    · have hlen2 : (buildPairs rvec dvec i).length = dvec.length := buildPairs_length
      rw [hlen2]
      have hndk := ndKeysP_keys hndm
      have hmk := matPairs_keys hm
      have h1 := subV_length_le hmk hd hndk hk1
      have h2 := subV_length_le hd hmk hndd hk2
      rw [List.length_map] at h1 h2
      omega
    · intro q hq
      obtain ⟨k0, hk0mem, hke⟩ := hk1 q.1 (List.mem_map_of_mem _ hq)
      obtain ⟨fp, rfl⟩ := List.mem_iff_get.mp hk0mem
      obtain ⟨p, hp⟩ := fp
      have hp2 : p < (buildPairs rvec dvec i).length := by
        rw [buildPairs_length]
        exact hp
      refine ⟨(buildPairs rvec dvec i).get ⟨p, hp2⟩,
        (buildPairs rvec dvec i).get_mem p hp2, ?_, ?_⟩
      · rw [@buildPairs_get rvec dvec i p hp hp2]
        exact hke
      · rw [@buildPairs_get rvec dvec i p hp hp2]
        have hplen : p < (dvec.map (fun k => idxEq (findV k m) rvec)).length := by
          rw [List.length_map]
          exact hp
        have hdv := hdig p hplen
        have hgm : (dvec.map (fun k => idxEq (findV k m) rvec)).get ⟨p, hplen⟩ =
            idxEq (findV (dvec.get ⟨p, hp⟩) m) rvec := by
          simp [List.get_eq_getElem, List.getElem_map]
        rw [hgm] at hdv
        obtain ⟨q0, hq0, hfv, hkq0⟩ := hfind (dvec.get ⟨p, hp⟩) (dvec.get_mem p hp)
        have hq0eq : q0 = q := by
          refine ndKeysP_unique hm hndm hq0 hq ?_
          have hkm : Mat (dvec.get ⟨p, hp⟩) = true :=
            matList_iff.mp hd _ (dvec.get_mem p hp)
          have hqm : Mat q.1 = true := (matPairs_iff.mp hm q hq).1
          have hq0m : Mat q0.1 = true := (matPairs_iff.mp hm q0 hq0).1
          exact veq_trans hq0m hkm hqm
            (veq_symm hkm hq0m hkq0) (veq_symm hqm hkm hke)
        subst hq0eq
        obtain ⟨hlt, hveq⟩ := idxEq_spec (hvals q0 hq0)
        have hdval : (i / rvec.length ^ p) % rvec.length = idxEq q0.2 rvec := by
          rw [hdv, hfv]
        rw [hdval, List.getD_eq_getElem _ _ hlt]
        simp only [List.get_eq_getElem] at hveq
        exact hveq
  subst hrt
  exact hrq

theorem veqVec_true {l1 l2 : List Value} (h : veqVec l1 l2 = .ok true) :
    l1.length = l2.length ∧ List.Forall₂ (fun x y => veq x y = .ok true) l1 l2 := by
  rw [veqVec_def] at h
  by_cases hlen : l1.length = l2.length
  · rw [if_pos hlen] at h
    exact ⟨hlen, veqZip_true h hlen⟩
  · rw [if_neg hlen] at h
    cases h

theorem forall₂_subV_of {ms1 ms2 : List Value} {ls1 ls2 : List (List Value)}
    (h1 : List.Forall₂ (fun m l => as_set m = .ok l) ms1 ls1)
    (h2 : List.Forall₂ (fun m l => as_set m = .ok l) ms2 ls2)
    (hv : List.Forall₂ (fun x y => veq x y = .ok true) ms1 ms2)
    (hcomp : ∀ m1 ∈ ms1, ∀ m2 ∈ ms2, ∀ l1 l2, as_set m1 = .ok l1 →
      as_set m2 = .ok l2 → veq m1 m2 = .ok true → SubV l1 l2 ∧ SubV l2 l1) :
    List.Forall₂ (fun l1 l2 => SubV l1 l2 ∧ SubV l2 l1) ls1 ls2 := by
  induction h1 generalizing ms2 ls2 with
  | nil =>
    cases hv
    cases h2
    exact .nil
  | @cons m1 l1 ms1b ls1b ha1 _ ih =>
    cases hv with
    | @cons _ m2 _ ms2b hv1 hvt =>
      cases h2 with
      | @cons _ l2 _ ls2b ha2 h2t =>
        refine .cons
          (hcomp m1 (List.mem_cons_self _ _) m2 (List.mem_cons_self _ _)
            l1 l2 ha1 ha2 hv1) ?_
        exact ih h2t hvt (fun a1 ha1b a2 ha2b => hcomp a1
          (List.mem_cons_of_mem _ ha1b) a2 (List.mem_cons_of_mem _ ha2b))

theorem productTuples_subV {ls1 ls2 : List (List Value)}
    (hm1 : ∀ l ∈ ls1, MatList l = true) (hm2 : ∀ l ∈ ls2, MatList l = true)
    (hsub : List.Forall₂ SubV ls1 ls2) :
    SubV ((productLists ls1).map Value.tuple)
      ((productLists ls2).map Value.tuple) := by
  intro x hx
  simp only [List.mem_map] at hx
  obtain ⟨cs, hcs, rfl⟩ := hx
  obtain ⟨ds, hds, hf⟩ := productLists_exists (mem_productLists.mp hcs) hsub
  have hcm : MatList cs = true := by
    rw [matList_iff]
    intro c hc
    obtain ⟨li, hli, hcli⟩ := forall₂_mem_left (mem_productLists.mp hcs) hc
    exact matList_iff.mp (hm1 li hli) c hcli
  have hdm : MatList ds = true := by
    rw [matList_iff]
    intro c hc
    obtain ⟨li, hli, hcli⟩ := forall₂_mem_left (mem_productLists.mp hds) hc
    exact matList_iff.mp (hm2 li hli) c hcli
  obtain ⟨r, hr, hiff⟩ := veqVec_ok hcm hdm
  have hrt : r = true := hiff.mpr hf
  subst hrt
  refine ⟨Value.tuple ds, ?_, ?_⟩
  · exact List.mem_map_of_mem _ hds
  · rw [EqV, veq_tuple]
    exact hr

theorem masks_subV {b1 b2 : List Value} (hm1 : MatList b1 = true)
    (hnd1 : ndB b1 = true) (hm2 : MatList b2 = true) (hnd2 : ndB b2 = true)
    (hsub : SubV b1 b2) :
    SubV ((List.range (2 ^ b1.length)).map (powerset_at_index b1))
      ((List.range (2 ^ b2.length)).map (powerset_at_index b2)) := by
  intro x hx
  simp only [List.mem_map, List.mem_range] at hx
  obtain ⟨i, hi, rfl⟩ := hx
  have hes_sub : SubV (maskFilter b1 i) b2 := by
    intro y hy
    exact hsub y (maskFilter_sublist.subset hy)
  obtain ⟨j, hj, hveq⟩ := powerset_surj hm2 hnd2
    (matList_sublist maskFilter_sublist hm1)
    (ndB_sublist maskFilter_sublist hnd1) hes_sub
  refine ⟨powerset_at_index b2 j, ?_, hveq⟩
  simp only [List.mem_map, List.mem_range]
  exact ⟨j, hj, rfl⟩

theorem mapsList_subV {d1 r1 d2 r2 : List Value}
    (hd1 : MatList d1 = true) (hr1 : MatList r1 = true)
    (hndd1 : ndB d1 = true)
    (hd2 : MatList d2 = true) (hr2 : MatList r2 = true)
    (hndd2 : ndB d2 = true)
    (hr1ne : r1 ≠ []) (hr2ne : r2 ≠ [])
    (hdsub1 : SubV d1 d2) (hdsub2 : SubV d2 d1) (hrsub : SubV r1 r2) :
    SubV (mapsList d1 r1) (mapsList d2 r2) := by
  intro x hx
  obtain ⟨i, hi, rfl⟩ := mem_mapsList.mp hx
  obtain ⟨j, hj, hveq⟩ := mapsList_surj hd2 hr2 hndd2 hr2ne
    (buildPairs_matPairs hd1 hr1 hr1ne) (buildPairs_ndKeys hndd1)
    (by rw [@buildPairs_keys r1 d1 i]; exact hdsub1)
    (by rw [@buildPairs_keys r1 d1 i]; exact hdsub2)
    (fun q hq => hrsub q.2 (buildPairs_val_mem hr1ne hq))
  exact ⟨mapAtIndex d2 r2 j, mem_mapsList.mpr ⟨j, hj, rfl⟩, hveq⟩

theorem forall₂_len_map_eq {ls1 ls2 : List (List Value)}
    (h : List.Forall₂ (fun l1 l2 => l1.length = l2.length) ls1 ls2) :
    ls1.map List.length = ls2.map List.length := by
  induction h with
  | nil => rfl
  | cons h1 _ ih => simp only [List.map_cons, ih, h1]

/-- Canonical equality of two well-formed set-like values implies mutual
containment of their enumerations: the structural same-kind comparisons
and the enumerate-both-sides fallback both respect enumeration. -/
theorem veq_true_eqEnum : ∀ {a b : Value} {la lb : List Value},
    SetLikeWF a = true → SetLikeWF b = true →
    as_set a = .ok la → as_set b = .ok lb →
    veq a b = .ok true → SubV la lb ∧ SubV lb la := by
  suffices h : ∀ n a b la lb, rank a + rank b ≤ n → SetLikeWF a = true →
      SetLikeWF b = true → as_set a = .ok la → as_set b = .ok lb →
      veq a b = .ok true → SubV la lb ∧ SubV lb la by
    intro a b la lb hwa hwb ha hb hv
    exact h (rank a + rank b) a b la lb le_rfl hwa hwb ha hb hv
  intro n
  induction n using Nat.strong_induction_on with
  | _ n ih =>
    intro a b la lb hr hwa hwb ha hb hv
    obtain ⟨la2, ha2, hcarda, hma, hnda⟩ := as_set_good hwa
    rw [ha] at ha2
    simp only [Res.ok.injEq] at ha2
    subst ha2
    obtain ⟨lb2, hb2, hcardb, hmb, hndb⟩ := as_set_good hwb
    rw [hb] at hb2
    simp only [Res.ok.injEq] at hb2
    subst hb2
    by_cases hd : discrIdx a = discrIdx b
    case neg =>
      have hfb := veq_fallback (setLikeWF_is_set hwa) (setLikeWF_is_set hwb) hd
      rw [hfb, ha] at hv
      dsimp only at hv
      rw [hb] at hv
      dsimp only at hv
      obtain ⟨r, hrr, hiff⟩ := setEqR_iff hma hmb hnda hndb
      rw [hrr] at hv
      simp only [Res.ok.injEq] at hv
      subst hv
      exact hiff.mp rfl
    case pos =>
      cases a <;> try (rw [SetLikeWF.eq_def] at hwa; simp at hwa; done)
      case set xs =>
        cases b <;> try (simp [discrIdx] at hd; done)
        case set ys =>
          rw [as_set_set] at ha hb
          simp only [Res.ok.injEq] at ha hb
          subst ha
          subst hb
          rw [veq_set] at hv
          obtain ⟨r, hrr, hiff⟩ := setEqR_iff hma hmb hnda hndb
          rw [hrr] at hv
          simp only [Res.ok.injEq] at hv
          subst hv
          exact hiff.mp rfl
      case interval lo1 hi1 =>
        cases b <;> try (simp [discrIdx] at hd; done)
        case interval lo2 hi2 =>
          rw [veq_interval] at hv
          simp only [Res.ok.injEq, Bool.and_eq_true, beq_iff_eq] at hv
          obtain ⟨h1, h2⟩ := hv
          subst h1
          subst h2
          rw [ha] at hb
          simp only [Res.ok.injEq] at hb
          subst hb
          exact ⟨subV_refl hma, subV_refl hma⟩
      case crossProduct ms1 =>
        cases b <;> try (simp [discrIdx] at hd; done)
        case crossProduct ms2 =>
          rw [veq_cross] at hv
          obtain ⟨hlen, hvf⟩ := veqVec_true hv
          rw [setLikeWF_cross, Bool.and_eq_true] at hwa hwb
          have hms1 : ∀ m ∈ ms1, SetLikeWF m = true := setLikeWFList_iff.mp hwa.2
          have hms2 : ∀ m ∈ ms2, SetLikeWF m = true := setLikeWFList_iff.mp hwb.2
          obtain ⟨ls1, hls1, hf1⟩ := asSetList_spec
            (fun m hm => (as_set_good (hms1 m hm)).imp (fun l h => h.1))
          obtain ⟨ls2, hls2, hf2⟩ := asSetList_spec
            (fun m hm => (as_set_good (hms2 m hm)).imp (fun l h => h.1))
          have hrk1 : rank (Value.crossProduct ms1) = 2 + maxR ms1 := by
            simp [rank]
          have hrk2 : rank (Value.crossProduct ms2) = 2 + maxR ms2 := by
            simp [rank]
          have hcomp : ∀ m1 ∈ ms1, ∀ m2 ∈ ms2, ∀ l1 l2, as_set m1 = .ok l1 →
              as_set m2 = .ok l2 → veq m1 m2 = .ok true →
              SubV l1 l2 ∧ SubV l2 l1 := by
            intro m1 hm1 m2 hm2 l1 l2 hl1 hl2 hv12
            have hb1 := rank_le_maxR hm1
            have hb2 := rank_le_maxR hm2
            exact ih (rank m1 + rank m2) (by omega) m1 m2 l1 l2 le_rfl
              (hms1 m1 hm1) (hms2 m2 hm2) hl1 hl2 hv12
          have hsubs := forall₂_subV_of hf1 hf2 hvf hcomp
          have hgood1 : ∀ l ∈ ls1, MatList l = true ∧ ndB l = true := by
            intro l hl
            obtain ⟨m, hm, hml⟩ := forall₂_mem_right hf1 hl
            obtain ⟨l2, ha2, _, hm2, hn2⟩ := as_set_good (hms1 m hm)
            rw [hml] at ha2
            simp only [Res.ok.injEq] at ha2
            rw [← ha2] at hm2 hn2
            exact ⟨hm2, hn2⟩
          have hgood2 : ∀ l ∈ ls2, MatList l = true ∧ ndB l = true := by
            intro l hl
            obtain ⟨m, hm, hml⟩ := forall₂_mem_right hf2 hl
            obtain ⟨l2, ha2, _, hm2, hn2⟩ := as_set_good (hms2 m hm)
            rw [hml] at ha2
            simp only [Res.ok.injEq] at ha2
            rw [← ha2] at hm2 hn2
            exact ⟨hm2, hn2⟩
          have hlens : List.Forall₂ (fun l1 l2 => l1.length = l2.length) ls1 ls2 := by
            refine forall₂_imp_mem hsubs ?_
            intro l1 h1 l2 h2 hs
            exact le_antisymm
              (subV_length_le (hgood1 l1 h1).1 (hgood2 l2 h2).1 (hgood1 l1 h1).2 hs.1)
              (subV_length_le (hgood2 l2 h2).1 (hgood1 l1 h1).1 (hgood2 l2 h2).2 hs.2)
          have hcard1 : List.Forall₂ (fun m k => cardinality m = .ok k) ms1
              (ls1.map List.length) := by
            rw [List.forall₂_map_right_iff]
            refine forall₂_imp_mem hf1 ?_
            intro m hm l _ hml
            obtain ⟨l2, ha2, hc2, _, _⟩ := as_set_good (hms1 m hm)
            rw [hml] at ha2
            simp only [Res.ok.injEq] at ha2
            rw [← ha2] at hc2
            exact hc2
          have hn1 : cardinality (Value.crossProduct ms1) =
              .ok (ls1.map List.length).prod := by
            rw [cardinality_cross]
            have := cardProd_spec hcard1 1
            rw [Nat.one_mul] at this
            exact this
          have hcard2 : List.Forall₂ (fun m k => cardinality m = .ok k) ms2
              (ls2.map List.length) := by
            rw [List.forall₂_map_right_iff]
            refine forall₂_imp_mem hf2 ?_
            intro m hm l _ hml
            obtain ⟨l2, ha2, hc2, _, _⟩ := as_set_good (hms2 m hm)
            rw [hml] at ha2
            simp only [Res.ok.injEq] at ha2
            rw [← ha2] at hc2
            exact hc2
          have hn2 : cardinality (Value.crossProduct ms2) =
              .ok (ls2.map List.length).prod := by
            rw [cardinality_cross]
            have := cardProd_spec hcard2 1
            rw [Nat.one_mul] at this
            exact this
          have hmapeq : ls1.map List.length = ls2.map List.length :=
            forall₂_len_map_eq hlens
          rw [as_set_cross, hn1] at ha
          dsimp only at ha
          rw [as_set_cross, hn2] at hb
          dsimp only at hb
          by_cases h0 : (ls1.map List.length).prod = 0
          · rw [if_pos h0] at ha
            rw [if_pos (by rw [← hmapeq]; exact h0)] at hb
            simp only [Res.ok.injEq] at ha hb
            subst ha
            subst hb
            exact ⟨fun x hx => absurd hx (List.not_mem_nil _),
              fun x hx => absurd hx (List.not_mem_nil _)⟩
          · have hlsne1 : ls1 ≠ [] :=
              asSetList_ne_nil hf1 (ne_nil_of_not_isEmpty hwa.1)
            have hlsne2 : ls2 ≠ [] :=
              asSetList_ne_nil hf2 (ne_nil_of_not_isEmpty hwb.1)
            rw [if_neg h0, hls1] at ha
            rw [if_neg (by rw [← hmapeq]; exact h0), hls2] at hb
            dsimp only at ha hb
            rw [multiCartesian_ne hlsne1] at ha
            rw [multiCartesian_ne hlsne2] at hb
            simp only [Res.ok.injEq] at ha hb
            subst ha
            subst hb
            refine ⟨productTuples_subV (fun l hl => (hgood1 l hl).1)
              (fun l hl => (hgood2 l hl).1) (hsubs.imp (fun _ _ h => h.1)), ?_⟩
            refine productTuples_subV (fun l hl => (hgood2 l hl).1)
              (fun l hl => (hgood1 l hl).1) ?_
            exact (hsubs.imp (fun _ _ h => h.2)).flip
      case powerSet b1 =>
        cases b <;> try (simp [discrIdx] at hd; done)
        case powerSet b2 =>
          rw [veq_power] at hv
          rw [setLikeWF_power] at hwa hwb
          obtain ⟨bl1, hbl1, hbc1, hbm1, hbnd1⟩ := as_set_good hwa
          obtain ⟨bl2, hbl2, hbc2, hbm2, hbnd2⟩ := as_set_good hwb
          have hrk1 : rank (Value.powerSet b1) = 2 + rank b1 := by simp [rank]
          have hrk2 : rank (Value.powerSet b2) = 2 + rank b2 := by simp [rank]
          have hbsub := ih (rank b1 + rank b2) (by omega) b1 b2 bl1 bl2 le_rfl
            hwa hwb hbl1 hbl2 hv
          rw [as_set_power, hbl1] at ha
          dsimp only at ha
          rw [as_set_power, hbl2] at hb
          dsimp only at hb
          simp only [Res.ok.injEq] at ha hb
          subst ha
          subst hb
          exact ⟨masks_subV hbm1 hbnd1 hbm2 hbnd2 hbsub.1,
            masks_subV hbm2 hbnd2 hbm1 hbnd1 hbsub.2⟩
      case mapSet d1 r1 =>
        cases b <;> try (simp [discrIdx] at hd; done)
        case mapSet d2 r2 =>
          rw [veq_mapset] at hv
          rw [setLikeWF_mapset, Bool.and_eq_true] at hwa hwb
          obtain ⟨dv1, hdv1, hdc1, hdm1, hdnd1⟩ := as_set_good hwa.1
          obtain ⟨rv1, hrv1, hrc1, hrm1, hrnd1⟩ := as_set_good hwa.2
          obtain ⟨dv2, hdv2, hdc2, hdm2, hdnd2⟩ := as_set_good hwb.1
          obtain ⟨rv2, hrv2, hrc2, hrm2, hrnd2⟩ := as_set_good hwb.2
          have hvd : veq d1 d2 = .ok true := by
            cases hvd0 : veq d1 d2 with
            | err f => rw [hvd0] at hv; dsimp only at hv; cases hv
            | ok bd =>
              cases bd with
              | false => rw [hvd0] at hv; dsimp only at hv; cases hv
              | true => rfl
          rw [hvd] at hv
          dsimp only at hv
          have hrk1 : rank (Value.mapSet d1 r1) = 2 + max (rank d1) (rank r1) := by
            simp [rank]
          have hrk2 : rank (Value.mapSet d2 r2) = 2 + max (rank d2) (rank r2) := by
            simp [rank]
          have hm1d := le_max_left (rank d1) (rank r1)
          have hm1r := le_max_right (rank d1) (rank r1)
          have hm2d := le_max_left (rank d2) (rank r2)
          have hm2r := le_max_right (rank d2) (rank r2)
          have hdsub := ih (rank d1 + rank d2) (by omega) d1 d2 dv1 dv2 le_rfl
            hwa.1 hwb.1 hdv1 hdv2 hvd
          have hrsub := ih (rank r1 + rank r2) (by omega) r1 r2 rv1 rv2 le_rfl
            hwa.2 hwb.2 hrv1 hrv2 hv
          have hdlen : dv1.length = dv2.length :=
            le_antisymm (subV_length_le hdm1 hdm2 hdnd1 hdsub.1)
              (subV_length_le hdm2 hdm1 hdnd2 hdsub.2)
          have hrlen : rv1.length = rv2.length :=
            le_antisymm (subV_length_le hrm1 hrm2 hrnd1 hrsub.1)
              (subV_length_le hrm2 hrm1 hrnd2 hrsub.2)
          rw [as_set_mapset, hdc1] at ha
          dsimp only at ha
          rw [as_set_mapset, hdc2] at hb
          dsimp only at hb
          by_cases h0 : dv1.length = 0
          · rw [if_pos h0] at ha
            rw [if_pos (by omega)] at hb
            simp only [Res.ok.injEq] at ha hb
            subst ha
            subst hb
            have hemm : EqV (Value.map []) (Value.map []) := by
              rw [EqV, veq_map, mapEqR_def, if_pos rfl, mapAllR_nil]
            refine ⟨?_, ?_⟩ <;>
              · intro x hx
                rw [List.mem_singleton] at hx
                subst hx
                exact ⟨Value.map [], List.mem_singleton.mpr rfl, hemm⟩
          · rw [if_neg h0, hrc1] at ha
            dsimp only at ha
            rw [if_neg (by omega), hrc2] at hb
            dsimp only at hb
            by_cases hr0 : rv1.length = 0
            · rw [if_pos hr0] at ha
              rw [if_pos (by omega)] at hb
              simp only [Res.ok.injEq] at ha hb
              subst ha
              subst hb
              exact ⟨fun x hx => absurd hx (List.not_mem_nil _),
                fun x hx => absurd hx (List.not_mem_nil _)⟩
            · rw [if_neg hr0, hdv1] at ha
              dsimp only at ha
              rw [hrv1] at ha
              dsimp only at ha
              rw [if_neg (by omega), hdv2] at hb
              dsimp only at hb
              rw [hrv2] at hb
              dsimp only at hb
              simp only [Res.ok.injEq] at ha hb
              subst ha
              subst hb
              have hr1ne : rv1 ≠ [] := fun h => hr0 (by simp [h])
              have hr2ne : rv2 ≠ [] := fun h => (by omega : ¬rv2.length = 0) (by simp [h])
              exact ⟨mapsList_subV hdm1 hrm1 hdnd1 hdm2 hrm2 hdnd2 hr1ne hr2ne
                  hdsub.1 hdsub.2 hrsub.1,
                mapsList_subV hdm2 hrm2 hdnd2 hdm1 hrm1 hdnd1 hr2ne hr1ne
                  hdsub.2 hdsub.1 hrsub.2⟩

/-! Per-arm equations of `Value::contains` and forward facts about its
scans. -/

/-- Claim C2 (amended): on well-formed set-like operands, a `true` answer
of equality always implies that the two enumerated member sets are
mutually contained, and for operands of differing runtime kinds (the
enumerate-both-sides arm) the answer is `true` exactly when the
enumerations are mutually contained; for same-kind lazy operands the
comparison is structural and the converse can fail (see the
counterexample with two empty intervals). -/
theorem c2_equality_enumeration {a b : Value} {la lb : List Value} {r : Bool}
    (hwa : SetLikeWF a = true) (hwb : SetLikeWF b = true)
    (ha : as_set a = .ok la) (hb : as_set b = .ok lb)
    (hv : veq a b = .ok r) :
    (r = true → SubV la lb ∧ SubV lb la) ∧
    (discrIdx a ≠ discrIdx b → (r = true ↔ SubV la lb ∧ SubV lb la)) := by
  refine ⟨?_, ?_⟩
  · intro hrt
    subst hrt
    exact veq_true_eqEnum hwa hwb ha hb hv
  · intro hd
    obtain ⟨la2, ha2, _, hma, hnda⟩ := as_set_good hwa
    rw [ha] at ha2
    simp only [Res.ok.injEq] at ha2
    subst ha2
    obtain ⟨lb2, hb2, _, hmb, hndb⟩ := as_set_good hwb
    rw [hb] at hb2
    simp only [Res.ok.injEq] at hb2
    subst hb2
    rw [veq_fallback (setLikeWF_is_set hwa) (setLikeWF_is_set hwb) hd, ha] at hv
    dsimp only at hv
    rw [hb] at hv
    dsimp only at hv
    obtain ⟨r2, hr2, hiff⟩ := setEqR_iff hma hmb hnda hndb
    rw [hr2] at hv
    simp only [Res.ok.injEq] at hv
    subst hv
    exact hiff

/-- Witness for `c2_equality_enumeration` at `Interval(1,1)` against
`Set({1})`: both enumerate to `[1]`, the kinds differ, and equality
answers `true`. -/
theorem c2_equality_enumeration_witness :
    (SetLikeWF (.interval 1 1) = true ∧ SetLikeWF (.set [.int 1]) = true ∧
     as_set (.interval 1 1) = .ok [.int 1] ∧
     as_set (.set [.int 1]) = .ok [.int 1] ∧
     veq (.interval 1 1) (.set [.int 1]) = .ok true) ∧
    ((true = true → SubV [Value.int 1] [Value.int 1] ∧
        SubV [Value.int 1] [Value.int 1]) ∧
     (discrIdx (.interval 1 1) ≠ discrIdx (.set [.int 1]) →
       (true = true ↔ SubV [Value.int 1] [Value.int 1] ∧
          SubV [Value.int 1] [Value.int 1]))) := by
  have h1 : SetLikeWF (Value.interval 1 1) = true := by
    rw [setLikeWF_interval]
    decide
  have h2 : SetLikeWF (Value.set [.int 1]) = true := by
    rw [setLikeWF_set, mat_set_iff]
    refine ⟨?_, rfl⟩
    rw [matList_iff]
    intro x hx
    rw [List.mem_singleton] at hx
    subst hx
    exact mat_int
  have h3 : as_set (Value.interval 1 1) = .ok [.int 1] := by
    simp [as_set, intRange, List.range_succ]
  have h4 : as_set (Value.set [.int 1]) = .ok [.int 1] := as_set_set
  have h5 : veq (Value.interval 1 1) (Value.set [.int 1]) = .ok true := by
    simp [veq, as_set, intRange, is_set, List.range_succ, setEqR.eq_def,
      allInR.eq_def, vmemR.eq_def]
  exact ⟨⟨h1, h2, h3, h4, h5⟩, c2_equality_enumeration h1 h2 h3 h4 h5⟩

/-- Claim C1, evaluation at the failing input: `Interval(1,3)` and
`Set({1,2,3})` are equal under `PartialEq` (the cross-kind arm compares
enumerations), yet `Hash` feeds the hasher different streams for them,
because line `discr.hash(state)` mixes in the exact runtime discriminant
(10 for `Interval`, 3 for `Set`) before the set-like arm runs — contrary
to the claim (and to the comment in the source asserting
`Value::Interval(1,2)` hashes like `Value::Set(1,2)`). -/
theorem c1_equal_sets_hash_differently :
    veq (.interval 1 3) (.set [.int 1, .int 2, .int 3]) = .ok true ∧
    hashStream (.interval 1 3) =
      .ok [.discr 10, .discr 0, .int 1, .discr 0, .int 2, .discr 0, .int 3] ∧
    hashStream (.set [.int 1, .int 2, .int 3]) =
      .ok [.discr 3, .discr 0, .int 1, .discr 0, .int 2, .discr 0, .int 3] ∧
    hashStream (.interval 1 3) ≠ hashStream (.set [.int 1, .int 2, .int 3]) := by
  have hset : as_set (.interval 1 3) = .ok [.int 1, .int 2, .int 3] := by
    simp [as_set, intRange, List.range_succ]
  have hsort : sortL [Value.int 1, .int 2, .int 3] = .ok [.int 1, .int 2, .int 3] := by
    rw [sortL_cons, sortL_cons, sortL_cons, sortL_nil]
    dsimp only
    rw [insertL_nil]
    dsimp only
    rw [insertL_cons, cmp_int_int, show compare (2:Int) 3 = Ordering.lt from by decide]
    dsimp only
    rw [insertL_cons, cmp_int_int, show compare (1:Int) 2 = Ordering.lt from by decide]
  have hts : hsList [Value.int 1, .int 2, .int 3] =
      .ok [.discr 0, .int 1, .discr 0, .int 2, .discr 0, .int 3] := by
    rw [hsList_cons, hashStream_int]
    dsimp only
    rw [hsList_cons, hashStream_int]
    dsimp only
    rw [hsList_cons, hashStream_int]
    dsimp only
    rw [hsList_nil]
    rfl
  have h1 : hashStream (.interval 1 3) =
      .ok [.discr 10, .discr 0, .int 1, .discr 0, .int 2, .discr 0, .int 3] := by
    rw [hashStream_interval, hashSetLike_eval hset hsort hts]
    rfl
  have h2 : hashStream (.set [.int 1, .int 2, .int 3]) =
      .ok [.discr 3, .discr 0, .int 1, .discr 0, .int 2, .discr 0, .int 3] :=
    hashStream_set_eval hsort hts
  refine ⟨?_, h1, h2, ?_⟩
  · simp [veq, as_set, intRange, is_set, List.range_succ,
      setEqR.eq_def, allInR.eq_def, vmemR.eq_def]
  · rw [h1, h2]
    simp

/-- Claim C3, evaluation at the failing input: ordering `Interval(1,3)`
against the equal `Set({1,2,3})` takes the early discriminant-comparison
return (`Interval` has a later declaration position than `Set`) and yields
`Greater`, not `Equal` — the enumerated-comparison arm for differing
set-like kinds is unreachable, contrary to the claim (and inconsistent
with `PartialEq`, which deems the two values equal). -/
theorem c3_cross_kind_ordering_by_discriminant :
    cmp (.interval 1 3) (.set [.int 1, .int 2, .int 3]) = .ok .gt ∧
    veq (.interval 1 3) (.set [.int 1, .int 2, .int 3]) = .ok true := by
  constructor
  · rw [cmp_discr_ne (by decide)]
    rfl
  · simp [veq, as_set, intRange, is_set, List.range_succ,
      setEqR.eq_def, allInR.eq_def, vmemR.eq_def]

/-- Claim C2, counterexample: `Interval(1,0)` and `Interval(2,1)` both
enumerate to the empty set, but the same-kind `Interval` arm of
`PartialEq` compares bounds structurally, so they are unequal — equality
is not determined by the enumerated member sets for same-kind lazy
pairs. -/
theorem c2_counterexample :
    veq (.interval 1 0) (.interval 2 1) = .ok false ∧
    as_set (.interval 1 0) = .ok [] ∧
    as_set (.interval 2 1) = .ok [] := by
  refine ⟨?_, ?_, ?_⟩ <;> simp [veq, as_set, intRange]

/-- Claim C9, counterexample: ordering a Lambda against an `Int` does not
raise any fault — the early discriminant comparison returns `Greater`
before the lambda panic arm can be reached. -/
theorem c9_counterexample : cmp (.lambda 0 0) (.int 0) = .ok .gt := by
  rw [cmp_discr_ne (by decide)]
  rfl

/-- Claim C9, amended: ordering a Lambda against another Lambda raises the
UnsupportedOperation fault, while ordering a Lambda against a value of any
other kind returns the kind-priority (discriminant) ordering without
fault, in either operand order. -/
theorem c9_lambda_ordering (p b p2 b2 : Nat) (v : Value) (h : discrIdx v ≠ 8) :
    cmp (.lambda p b) (.lambda p2 b2) = .err .unsupported ∧
    cmp (.lambda p b) v = .ok (compare 8 (discrIdx v)) ∧
    cmp v (.lambda p b) = .ok (compare (discrIdx v) 8) := by
  have h8 : discrIdx (Value.lambda p b) = 8 := rfl
  refine ⟨?_, ?_, ?_⟩
  · rw [cmp.eq_def]
    simp [discrIdx]
  · rw [cmp.eq_def, h8, if_pos (fun he => h he.symm)]
  · rw [cmp.eq_def, h8, if_pos h]

/-- Witness for `c9_lambda_ordering` at a Lambda with no cells and an
`Int` operand. -/
theorem c9_lambda_ordering_witness :
    discrIdx (.int 0) ≠ 8 ∧
    (cmp (.lambda 0 0) (.lambda 1 1) = .err .unsupported ∧
      cmp (.lambda 0 0) (.int 0) = .ok (compare 8 (discrIdx (.int 0))) ∧
      cmp (.int 0) (.lambda 0 0) = .ok (compare (discrIdx (.int 0)) 8)) :=
  ⟨by decide, c9_lambda_ordering 0 0 1 1 (.int 0) (by decide)⟩

/-- Claim C10: invoking the closure writes `Ok(args[i])` into parameter
cell `i` for every `i` below the argument count, leaving later cells
untouched, with no check relating argument count to cell count: when the
argument list is no longer than the cell list the write step succeeds and
the resulting cell state is the written prefix followed by the old
suffix; only when the argument list is strictly longer does the write step
fault (index out of bounds). -/
theorem c10_closure_invocation (regs : List EvalResult) (args : List Value) :
    (args.length ≤ regs.length →
      writeArgs regs args = some (args.map EvalResult.ok ++ regs.drop args.length)) ∧
    (regs.length < args.length → writeArgs regs args = none) := by
  induction args generalizing regs with
  | nil =>
    refine ⟨fun _ => ?_, fun h => ?_⟩
    · simp [writeArgs]
    · simp at h
  | cons a args2 ih =>
    cases regs with
    | nil =>
      refine ⟨fun h => ?_, fun _ => ?_⟩
      · simp at h
      · simp [writeArgs]
    | cons r rs =>
      refine ⟨fun h => ?_, fun h => ?_⟩
      · have h1 := (ih rs).1 (by simpa using h)
        simp [writeArgs, h1]
      · have h1 := (ih rs).2 (by simpa using h)
        simp [writeArgs, h1]

/-- Witness for `c10_closure_invocation`: three cells, one argument —
cell 0 is overwritten with `Ok(5)` and the other two keep their previous
contents; and one cell with two arguments faults. -/
theorem c10_closure_invocation_witness :
    ((1 ≤ 3 →
      writeArgs [.err "a", .err "b", .err "c"] [.int 5] =
        some ([Value.int 5].map EvalResult.ok ++
          ([EvalResult.err "a", .err "b", .err "c"].drop 1))) ∧
      (3 < 1 → writeArgs [.err "a", .err "b", .err "c"] [.int 5] = none)) ∧
    ((2 ≤ 1 →
      writeArgs [.err "a"] [.int 5, .int 7] =
        some ([Value.int 5, .int 7].map EvalResult.ok ++
          ([EvalResult.err "a"].drop 2))) ∧
      (1 < 2 → writeArgs [.err "a"] [.int 5, .int 7] = none)) :=
  ⟨c10_closure_invocation [.err "a", .err "b", .err "c"] [.int 5],
   c10_closure_invocation [.err "a"] [.int 5, .int 7]⟩

end QuintValue
